
import Mathlib

/-!
Perceptron (mlpack `perceptron_impl.hpp`): embedding and verified properties.

The multi-class perceptron of `src/mlpack/methods/perceptron/perceptron_impl.hpp`
is embedded at three levels of detail.

* The reference model (`Mat`, `Vec`, `sampleStep`, `Train`, `Classify`, ...)
  computes over exact rational arithmetic: an `arma::mat` with `r` rows and `c`
  columns is a `Matrix (Fin r) (Fin c) ℚ` and an `arma::vec` of length `n` is a
  function `Fin n → ℚ`.  It carries the properties of the control flow, which
  hold whatever values the arithmetic produces (budget, stopping, updates only
  on mistakes, what the constructors read), and it is the exact computation
  that the double model is compared with.
* The double model (`F64`, `MatF`, `VecF`, `sampleStepF`, `TrainF`,
  `ClassifyF`, ...) computes as the code does, in IEEE-754 binary64 with
  round-to-nearest-even, infinities and NaN: every product and every sum is
  rounded.  Properties that depend on the values computed are stated on this
  model.  On integer data whose magnitudes stay below 2^53 the two models
  agree (`TrainF_exact`).
* The run-time model (`RawMat`, `RawVec`, `rawSampleStep`, `rawTrain`,
  `rawFresh`, ...) carries the dimensions of matrices and vectors as data, as
  Armadillo does, so that policies may resize what they are handed and
  operations on non-conforming operands raise an error.

`size_t` values (labels, class indices, the pass counter, the iteration
budget) are natural numbers; the class count `max(labels) + 1` is reduced
modulo 2^64 (`numClasses`).
-/

namespace mlpack
namespace perceptron

/-- Dense column vector with `n` entries (`arma::vec`). -/
abbrev Vec (n : ℕ) := Fin n → ℚ

/-- Dense matrix with `r` rows and `c` columns (`arma::mat`). -/
abbrev Mat (r c : ℕ) := Matrix (Fin r) (Fin c) ℚ

/-- Column `j` of a matrix (`M.col(j)`). -/
def col {r c : ℕ} (M : Mat r c) (j : Fin c) : Vec r := fun f => M f j

/-- Modelled from the spec: the collaborator operation "index of maximum element
with deterministic lowest-index tie-break" (Armadillo's `max(index)`, absent
from the sources).  `maxLoop v i` is the scan state after the entries with
index below `i` have been visited: the best value so far (`⊥` before any entry
has been seen) and its index; an entry replaces the best only when it is
strictly greater. -/
def maxLoop {k : ℕ} (v : Vec k) : ℕ → WithBot ℚ × ℕ
  | 0 => (⊥, 0)
  | i + 1 =>
    if h : i < k then
      if (maxLoop v i).1 < ((v ⟨i, h⟩ : ℚ) : WithBot ℚ) then (((v ⟨i, h⟩ : ℚ) : WithBot ℚ), i)
      else maxLoop v i
    else maxLoop v i

/-- Modelled from the spec: `v.max(maxIndex)`, the index found by the scan over
all `k` entries. -/
def maxIndex {k : ℕ} (v : Vec k) : ℕ := (maxLoop v k).2

/-- Modelled from the spec: `m.max(row, col)` on a matrix with `k` rows holding
the single column `v`; Armadillo scans the column-major storage and splits the
linear index of the maximum into a row and a column. -/
def maxIndexRowCol {k : ℕ} (v : Vec k) : ℕ × ℕ := (maxIndex v % k, maxIndex v / k)

/-- The activation `weights.t() * x + biases` computed in `Classify` and
`Train`. -/
def activation {d k : ℕ} (weights : Mat d k) (biases : Vec k) (x : Vec d) : Vec k :=
  Matrix.mulVec (Matrix.transpose weights) x + biases

/-- The template parameter `LearnPolicy`: the two forms of `UpdateWeights`
called by `Train`, each returning the new weights and biases. -/
structure LearnPolicy where
  /-- Unweighted form `UpdateWeights(sample, weights, biases, predicted, true)`. -/
  UpdateWeights : {d k : ℕ} → Vec d → Mat d k → Vec k → ℕ → ℕ → Mat d k × Vec k
  /-- Weighted form `UpdateWeights(sample, weights, biases, predicted, true, cost)`. -/
  UpdateWeightsCost : {d k : ℕ} → Vec d → Mat d k → Vec k → ℕ → ℕ → ℚ → Mat d k × Vec k

/-- The template parameter `WeightInitializationPolicy`: `Initialize` produces
the initial weights and biases for the requested feature and class counts. -/
structure WeightInitializationPolicy where
  /-- The call `Initialize(weights, biases, numFeatures, numClasses)`. -/
  Initialize : (d k : ℕ) → Mat d k × Vec k

/-- Subtract `x` from column `c` of `W` (`W.col(c) -= x`). -/
def colSub {d k : ℕ} (W : Mat d k) (c : ℕ) (x : Vec d) : Mat d k :=
  fun f c' => if c'.val = c then W f c' - x f else W f c'

/-- Add `x` to column `c` of `W` (`W.col(c) += x`). -/
def colAdd {d k : ℕ} (W : Mat d k) (c : ℕ) (x : Vec d) : Mat d k :=
  fun f c' => if c'.val = c then W f c' + x f else W f c'

/-- Subtract `t` from entry `c` of `b` (`b(c) -= t`). -/
def entrySub {k : ℕ} (b : Vec k) (c : ℕ) (t : ℚ) : Vec k :=
  fun c' => if c'.val = c then b c' - t else b c'

/-- Add `t` to entry `c` of `b` (`b(c) += t`). -/
def entryAdd {k : ℕ} (b : Vec k) (c : ℕ) (t : ℚ) : Vec k :=
  fun c' => if c'.val = c then b c' + t else b c'

/-- Modelled from the spec: the canonical update rule of section 4.2 (the
policy class itself is absent from the sources): subtract the (optionally
cost-scaled) sample vector and bias increment from the predicted class's
column, then add it to the true class's column; the step is 1 in the
unweighted form and `costWeight` in the weighted form. -/
def SimpleWeightUpdate : LearnPolicy where
  UpdateWeights := fun x W b predicted correct =>
    (colAdd (colSub W predicted x) correct x, entryAdd (entrySub b predicted 1) correct 1)
  UpdateWeightsCost := fun x W b predicted correct cost =>
    (colAdd (colSub W predicted (cost • x)) correct (cost • x),
      entryAdd (entrySub b predicted cost) correct cost)

/-- Modelled from the spec: the zero initialisation (the policy class itself is
absent from the sources): a features-by-classes weight matrix and a
classes-length bias vector, all entries zero. -/
def ZeroInitialization : WeightInitializationPolicy where
  Initialize := fun _ _ => (0, 0)

/-- The locals and members that `Train` mutates: the members `weights` and
`biases`, the pass counter `i` and the flag `converged`. -/
structure TrainState (d k : ℕ) where
  /-- Member `weights`, one column per class. -/
  weights : Mat d k
  /-- Member `biases`, one entry per class. -/
  biases : Vec k
  /-- Local `i`: the number of passes started so far. -/
  i : ℕ
  /-- Local `converged`. -/
  converged : Bool

/-- The element `D(j)` of the cost vector (0 when `j` is outside the vector,
where the source reads out of bounds). -/
def costAt (D : List ℚ) (j : ℕ) : ℚ := D.getD j 0

/-- Body of the inner `for` loop of `Train` (lines 150-172) for sample `j`. -/
def sampleStep (LP : LearnPolicy) {d n k : ℕ} (data : Mat d n) (labels : Fin n → ℕ)
    (D : List ℚ) (s : TrainState d k) (j : Fin n) : TrainState d k :=
  let tempLabelMat := activation s.weights s.biases (col data j)
  let maxIndexRow := (maxIndexRowCol tempLabelMat).1
  if maxIndexRow ≠ labels j then
    let tempLabel := labels j
    if 0 < D.length then
      let r := LP.UpdateWeightsCost (col data j) s.weights s.biases maxIndexRow tempLabel
        (costAt D j.val)
      { weights := r.1, biases := r.2, i := s.i, converged := false }
    else
      let r := LP.UpdateWeights (col data j) s.weights s.biases maxIndexRow tempLabel
      { weights := r.1, biases := r.2, i := s.i, converged := false }
  else s

/-- Body of the outer `while` loop of `Train` (lines 144-173): count the pass,
assume convergence, then visit the samples `j = 0, ..., n - 1` in order. -/
def pass (LP : LearnPolicy) {d n k : ℕ} (data : Mat d n) (labels : Fin n → ℕ)
    (D : List ℚ) (s : TrainState d k) : TrainState d k :=
  (List.finRange n).foldl (sampleStep LP data labels D)
    { weights := s.weights, biases := s.biases, i := s.i + 1, converged := true }

/-- The `while ((i < iter) && (!converged))` loop of `Train`, unrolled at most
`fuel` times. -/
def trainLoop (LP : LearnPolicy) {d n k : ℕ} (iter : ℕ) (data : Mat d n)
    (labels : Fin n → ℕ) (D : List ℚ) : ℕ → TrainState d k → TrainState d k
  | 0, s => s
  | fuel + 1, s =>
    if s.i < iter ∧ s.converged = false then
      trainLoop LP iter data labels D fuel (pass LP data labels D s)
    else s

/-- The member function `Train(data, labels, D)` run on an instance whose
members are `weights`, `biases` and `iter`; the result carries the final
members together with the final values of the locals `i` and `converged`.
The loop is given `iter` units of fuel, which it never exhausts
(`trainLoop_fuel_irrelevant`). -/
def Train (LP : LearnPolicy) {d n k : ℕ} (iter : ℕ) (weights : Mat d k) (biases : Vec k)
    (data : Mat d n) (labels : Fin n → ℕ) (D : List ℚ) : TrainState d k :=
  trainLoop LP iter data labels D iter
    { weights := weights, biases := biases, i := 0, converged := false }

/-- The value `arma::max(labels)`.  On an empty row Armadillo raises an error
and this function has the value 0; the range-checked and run-time models
(`maxChecked`) keep the error. -/
def maxLabel {n : ℕ} (labels : Fin n → ℕ) : ℕ := Finset.univ.sup labels

/-- The class count `arma::max(labels) + 1` both constructors pass to
`Initialize`: the sum is formed in `size_t` (64 bits), so it wraps to 0 when
the largest label is `2^64 - 1`. -/
def numClasses {n : ℕ} (labels : Fin n → ℕ) : ℕ := (maxLabel labels + 1) % 2 ^ 64

/-- The members of a `Perceptron` instance over `d` features. -/
structure Perceptron (d : ℕ) where
  /-- Number of classes (the column count of `weights`). -/
  k : ℕ
  /-- Member `weights`. -/
  weights : Mat d k
  /-- Member `biases`. -/
  biases : Vec k
  /-- Member `iter`, the iteration budget. -/
  iter : ℕ

/-- The state in which `Train` leaves the instance built by
`Perceptron(data, labels, iterations)`: initialise for `max(labels) + 1`
classes (formed in `size_t`), then train with the default (empty) cost
vector. -/
def freshRun (LP : LearnPolicy) (WIP : WeightInitializationPolicy) {d n : ℕ}
    (data : Mat d n) (labels : Fin n → ℕ) (iterations : ℕ) :
    TrainState d (numClasses labels) :=
  Train LP iterations (WIP.Initialize d (numClasses labels)).1
    (WIP.Initialize d (numClasses labels)).2 data labels []

/-- The constructor `Perceptron(data, labels, iterations)` (lines 30-41). -/
def Perceptron.fresh (LP : LearnPolicy) (WIP : WeightInitializationPolicy) {d n : ℕ}
    (data : Mat d n) (labels : Fin n → ℕ) (iterations : ℕ) : Perceptron d :=
  { k := numClasses labels
    weights := (freshRun LP WIP data labels iterations).weights
    biases := (freshRun LP WIP data labels iterations).biases
    iter := iterations }

/-- The constructor `Perceptron(other, data, D, labels)` (lines 88-101). -/
def Perceptron.boost (LP : LearnPolicy) (WIP : WeightInitializationPolicy) {d0 d n : ℕ}
    (other : Perceptron d0) (data : Mat d n) (D : List ℚ) (labels : Fin n → ℕ) :
    Perceptron d :=
  { k := numClasses labels
    weights := (Train LP other.iter (WIP.Initialize d (numClasses labels)).1
      (WIP.Initialize d (numClasses labels)).2 data labels D).weights
    biases := (Train LP other.iter (WIP.Initialize d (numClasses labels)).1
      (WIP.Initialize d (numClasses labels)).2 data labels D).biases
    iter := other.iter }

/-- The member function `Classify(test, predictedLabels)` (lines 57-71): entry
`i` of the result is the value written to `predictedLabels(0, i)`. -/
def Classify {d m : ℕ} (p : Perceptron d) (test : Mat d m) : Fin m → ℕ :=
  fun i => maxIndex (activation p.weights p.biases (col test i))

/-- Training data of the example scenario: columns (0,0), (0,1), (5,5), (5,6). -/
def exampleData : Mat 2 4 := !![0, 0, 5, 5; 0, 1, 5, 6]

/-- Labels of the example scenario. -/
def exampleLabels : Fin 4 → ℕ := ![0, 0, 1, 1]

/-- Test columns of the example scenario: (0, 1/2) and (5, 11/2). -/
def exampleTest : Mat 2 2 := !![0, 5; 1 / 2, 11 / 2]

/-- A previously trained instance with budget 10 and all weights zero. -/
def otherZero : Perceptron 2 := { k := 2, weights := 0, biases := 0, iter := 10 }

/-- A previously trained instance over three features with budget 10 and
nonzero weights and biases. -/
def otherBusy : Perceptron 3 :=
  { k := 2, weights := !![1, 2; 3, 4; 5, 6], biases := ![7, 8], iter := 10 }

/-- Training set with one column (1) labelled 1, so that class 0 is never a
label. -/
def phantomData : Mat 1 1 := !![1]

/-- Labels of the one-column training set. -/
def phantomLabels : Fin 1 → ℕ := ![1]

/-- A test column (-3) on the far side of the single training column. -/
def phantomTest : Mat 1 1 := !![-3]

/-- The state of weighted training is the state of unweighted training with
weights and biases scaled by `c`. -/
def Scaled {d k : ℕ} (c : ℚ) (sw su : TrainState d k) : Prop :=
  sw.weights = c • su.weights ∧ sw.biases = c • su.biases ∧ sw.i = su.i ∧
    sw.converged = su.converged

/-- Squared Euclidean norm of a vector. -/
def sqNorm {d : ℕ} (x : Vec d) : ℚ := ∑ f, x f ^ 2

/-- The largest squared Euclidean norm of a data column (0 for no columns). -/
def maxSqNorm {d n : ℕ} (data : Mat d n) : ℚ :=
  (List.finRange n).foldl (fun m j => max m (sqNorm (col data j))) 0

/-- The squared radius `R^2 = 1 + max_j |x_j|^2` of the bias-augmented data. -/
def radiusSq {d n : ℕ} (data : Mat d n) : ℚ := 1 + maxSqNorm data

/-- Squared Frobenius norm of a bias-augmented weight matrix. -/
def frobSq {d k : ℕ} (W : Mat d k) (b : Vec k) : ℚ := ∑ c, (∑ f, W f c ^ 2 + b c ^ 2)

/-- Inner product of two bias-augmented weight matrices. -/
def align {d k : ℕ} (U : Mat d k) (ub : Vec k) (W : Mat d k) (b : Vec k) : ℚ :=
  ∑ c, (∑ f, U f c * W f c + ub c * b c)

/-- The weights `U`, `ub` score the true class of every training sample at
least `g` above every other class. -/
def SeparatedBy {d n k : ℕ} (U : Mat d k) (ub : Vec k) (data : Mat d n)
    (labels : Fin n → ℕ) (g : ℚ) : Prop :=
  ∀ (j : Fin n) (y c : Fin k), y.val = labels j → c ≠ y →
    activation U ub (col data j) c + g ≤ activation U ub (col data j) y

/-- Change of class `c` in an update for predicted class `p` and true class
`y`: plus one step at `y`, minus one step at `p`. -/
def delta {k : ℕ} (p y c : Fin k) : ℚ := (if c = y then 1 else 0) - (if c = p then 1 else 0)

/-- Training set with columns (-3), (3) labelled 0, 1. -/
def marginData : Mat 1 2 := !![-3, 3]

/-- Labels of the two-column training set. -/
def marginLabels : Fin 2 → ℕ := ![0, 1]

/-- Unit-norm separating weights for the two-column training set: class 0 has
weight -4/5, class 1 has weight 3/5, both biases are 0. -/
def marginU : Mat 1 2 := !![-4 / 5, 3 / 5]

/-- Biases of the unit-norm separating weights. -/
def marginBias : Vec 2 := ![0, 0]

/-- The state `Classify` works on: the members of the instance and the output
parameter `predictedLabels`. -/
structure ClassifyState (d m : ℕ) where
  /-- The members of the instance the method is called on. -/
  self : Perceptron d
  /-- The output row `predictedLabels`, one entry per test column. -/
  predictedLabels : Fin m → ℕ

/-- Body of the `for` loop of `Classify` (lines 67-69) for test column `i`:
compute the activation, find the index of its maximum, store it in
`predictedLabels(0, i)`. -/
def classifyStep {d m : ℕ} (test : Mat d m) (s : ClassifyState d m) (i : Fin m) :
    ClassifyState d m :=
  let tempLabelMat := activation s.self.weights s.self.biases (col test i)
  { self := s.self
    predictedLabels := Function.update s.predictedLabels i (maxIndex tempLabelMat) }

/-- The member function `Classify(test, predictedLabels)` as the loop over the
test columns `i = 0, ..., m - 1`, started on the instance `p` and the output
row handed in by the caller. -/
def ClassifyInPlace {d m : ℕ} (p : Perceptron d) (test : Mat d m)
    (predictedLabels : Fin m → ℕ) : ClassifyState d m :=
  (List.finRange m).foldl (classifyStep test) { self := p, predictedLabels := predictedLabels }

/-- Column-wise concatenation of two matrices with the same row count: the
columns of `A` followed by the columns of `B`. -/
def joinCols {d m1 m2 : ℕ} (A : Mat d m1) (B : Mat d m2) : Mat d (m1 + m2) :=
  fun f => Fin.append (A f) (B f)

/-- The matrix whose single column is column `i` of `M`. -/
def singleCol {d m : ℕ} (M : Mat d m) (i : Fin m) : Mat d 1 := fun f _ => M f i

/-- The state after `t` passes over the data when every pass is run whether or
not an earlier one was clean: `passes ... s 0 = s` and pass number `t + 1` is
run on `passes ... s t`. -/
def passes (LP : LearnPolicy) {d n k : ℕ} (data : Mat d n) (labels : Fin n → ℕ)
    (D : List ℚ) (s : TrainState d k) : ℕ → TrainState d k
  | 0 => s
  | t + 1 => pass LP data labels D (passes LP data labels D s t)

/-- One sample of a pass together with a count of the mismatches seen so far:
the state is advanced by `sampleStep` and the count goes up when the predicted
class differs from the label. -/
def countStep (LP : LearnPolicy) {d n k : ℕ} (data : Mat d n) (labels : Fin n → ℕ)
    (D : List ℚ) (a : TrainState d k × ℕ) (j : Fin n) : TrainState d k × ℕ :=
  (sampleStep LP data labels D a.1 j,
    if (maxIndexRowCol (activation a.1.weights a.1.biases (col data j))).1 ≠ labels j
    then a.2 + 1 else a.2)

/-- The number of mismatches in the pass that is run on state `s`: the samples
whose predicted class, under the weights and biases current at their turn,
differs from their label. -/
def mismatches (LP : LearnPolicy) {d n k : ℕ} (data : Mat d n) (labels : Fin n → ℕ)
    (D : List ℚ) (s : TrainState d k) : ℕ :=
  ((List.finRange n).foldl (countStep LP data labels D)
    ({ weights := s.weights, biases := s.biases, i := s.i + 1, converged := true }, 0)).2

/-- Range-checked `arma::max(labels)` on a row held as a list: no value for an
empty row. -/
def maxChecked : List ℕ → Option ℕ
  | [] => none
  | l :: ls => some (ls.foldl max l)

/-- Range-checked `M.col(j)`: no value when `j` is not below the column
count. -/
def colChecked {r c : ℕ} (M : Mat r c) (j : ℕ) : Option (Vec r) :=
  if h : j < c then some (col M ⟨j, h⟩) else none

/-- The labels row held as a list, read as one label per data column (0 where
the list is too short). -/
def labelsOf (labels : List ℕ) (n : ℕ) : Fin n → ℕ := fun j => labels.getD j.val 0

/-- Body of the inner loop of `Train` for the sample index `j` with every
index checked: `data.col(j)` and `labels(0, j)` need `j` in range, the
predicted class and the label index columns of `weights` and entries of
`biases` in the update, and `D(j)` is read only when the cost vector is
non-empty and needs `j` in range.  The result is `none` as soon as one index
is out of range. -/
def sampleStepChecked (LP : LearnPolicy) {d n k : ℕ} (data : Mat d n) (labels : List ℕ)
    (D : List ℚ) (s : TrainState d k) (j : ℕ) : Option (TrainState d k) :=
  match colChecked data j, labels[j]? with
  | some x, some tempLabel =>
    let maxIndexRow := (maxIndexRowCol (activation s.weights s.biases x)).1
    if maxIndexRow < k then
      if maxIndexRow ≠ tempLabel then
        if tempLabel < k then
          if 0 < D.length then
            match D[j]? with
            | some cost =>
              let r := LP.UpdateWeightsCost x s.weights s.biases maxIndexRow tempLabel cost
              some { weights := r.1, biases := r.2, i := s.i, converged := false }
            | none => none
          else
            let r := LP.UpdateWeights x s.weights s.biases maxIndexRow tempLabel
            some { weights := r.1, biases := r.2, i := s.i, converged := false }
        else none
      else some s
    else none
  | _, _ => none

/-- The checked inner loop over a list of sample indices. -/
def samplesChecked (LP : LearnPolicy) {d n k : ℕ} (data : Mat d n) (labels : List ℕ)
    (D : List ℚ) : List ℕ → TrainState d k → Option (TrainState d k)
  | [], s => some s
  | j :: js, s =>
    match sampleStepChecked LP data labels D s j with
    | some s2 => samplesChecked LP data labels D js s2
    | none => none

/-- One checked pass: the sample indices are `0, ..., data.n_cols - 1`. -/
def passChecked (LP : LearnPolicy) {d n k : ℕ} (data : Mat d n) (labels : List ℕ)
    (D : List ℚ) (s : TrainState d k) : Option (TrainState d k) :=
  samplesChecked LP data labels D (List.range n)
    { weights := s.weights, biases := s.biases, i := s.i + 1, converged := true }

/-- The checked training loop. -/
def trainLoopChecked (LP : LearnPolicy) {d n k : ℕ} (iter : ℕ) (data : Mat d n)
    (labels : List ℕ) (D : List ℚ) : ℕ → TrainState d k → Option (TrainState d k)
  | 0, s => some s
  | fuel + 1, s =>
    if s.i < iter ∧ s.converged = false then
      match passChecked LP data labels D s with
      | some s2 => trainLoopChecked LP iter data labels D fuel s2
      | none => none
    else some s

/-- The member function `Train` with every index checked. -/
def TrainChecked (LP : LearnPolicy) {d n k : ℕ} (iter : ℕ) (weights : Mat d k)
    (biases : Vec k) (data : Mat d n) (labels : List ℕ) (D : List ℚ) :
    Option (TrainState d k) :=
  trainLoopChecked LP iter data labels D iter
    { weights := weights, biases := biases, i := 0, converged := false }

/-- The constructor `Perceptron(data, labels, iterations)` with every index
checked; the class count `arma::max(labels) + 1` is computed in `size_t`, so
it wraps modulo 2^64. -/
def freshChecked (LP : LearnPolicy) (WIP : WeightInitializationPolicy) {d n : ℕ}
    (data : Mat d n) (labels : List ℕ) (iterations : ℕ) : Option (Perceptron d) :=
  match maxChecked labels with
  | some mx =>
    match TrainChecked LP iterations (WIP.Initialize d ((mx + 1) % 2 ^ 64)).1
      (WIP.Initialize d ((mx + 1) % 2 ^ 64)).2 data labels [] with
    | some s =>
      some { k := (mx + 1) % 2 ^ 64, weights := s.weights, biases := s.biases,
             iter := iterations }
    | none => none
  | none => none

/-- The constructor `Perceptron(other, data, D, labels)` with every index
checked; the class count wraps modulo 2^64 as in `freshChecked`. -/
def boostChecked (LP : LearnPolicy) (WIP : WeightInitializationPolicy) {d0 d n : ℕ}
    (other : Perceptron d0) (data : Mat d n) (D : List ℚ) (labels : List ℕ) :
    Option (Perceptron d) :=
  match maxChecked labels with
  | some mx =>
    match TrainChecked LP other.iter (WIP.Initialize d ((mx + 1) % 2 ^ 64)).1
      (WIP.Initialize d ((mx + 1) % 2 ^ 64)).2 data labels D with
    | some s =>
      some { k := (mx + 1) % 2 ^ 64, weights := s.weights, biases := s.biases,
             iter := other.iter }
    | none => none
  | none => none

/-- Body of the loop of `Classify` for the test column index `i` with every
index checked: `test.col(i)` needs `i` below the column count, the maximum
needs an entry to point at, and `predictedLabels(0, i)` needs `i` below the
length of the output row. -/
def classifyStepChecked {d m : ℕ} (p : Perceptron d) (test : Mat d m)
    (predictedLabels : List ℕ) (i : ℕ) : Option (List ℕ) :=
  match colChecked test i with
  | some x =>
    if maxIndex (activation p.weights p.biases x) < p.k ∧ i < predictedLabels.length then
      some (predictedLabels.set i (maxIndex (activation p.weights p.biases x)))
    else none
  | none => none

/-- The checked loop of `Classify` over a list of test column indices. -/
def classifyChecked {d m : ℕ} (p : Perceptron d) (test : Mat d m) :
    List ℕ → List ℕ → Option (List ℕ)
  | [], out => some out
  | i :: is, out =>
    match classifyStepChecked p test out i with
    | some out2 => classifyChecked p test is out2
    | none => none

/-- The member function `Classify(test, predictedLabels)` with every index
checked: the column indices are `0, ..., test.n_cols - 1`. -/
def ClassifyChecked {d m : ℕ} (p : Perceptron d) (test : Mat d m)
    (predictedLabels : List ℕ) : Option (List ℕ) :=
  classifyChecked p test (List.range m) predictedLabels

/-- A value of the C++ type `double` (IEEE 754 binary64): a finite number, an
infinity, or a NaN.  The sign of zero is not recorded: addition, subtraction,
multiplication and comparison, the only operations the perceptron performs,
give the same result for both zeros up to that sign. -/
inductive F64 where
  /-- A finite value. -/
  | fin (q : ℚ)
  /-- Positive infinity. -/
  | pinf
  /-- Negative infinity. -/
  | ninf
  /-- Not a number. -/
  | nan
  deriving DecidableEq

/-- Binary logarithm of a natural number, rounded down, computed by halving at
most `fuel` times. -/
def log2Fuel : ℕ → ℕ → ℕ
  | 0, _ => 0
  | fuel + 1, n => if 2 ≤ n then log2Fuel fuel (n / 2) + 1 else 0

/-- Binary logarithm of a natural number, rounded down (0 for 0). -/
def ilog2 (n : ℕ) : ℕ := log2Fuel n n

/-- The binary exponent of a positive rational: the `e` with
`2^e ≤ a < 2^(e+1)`. -/
def expo (a : ℚ) : ℤ :=
  if (2 : ℚ) ^ ((ilog2 a.num.natAbs : ℤ) - (ilog2 a.den : ℤ)) ≤ a then
    (ilog2 a.num.natAbs : ℤ) - (ilog2 a.den : ℤ)
  else (ilog2 a.num.natAbs : ℤ) - (ilog2 a.den : ℤ) - 1

/-- Round a non-negative rational to the nearest natural number, ties to the
even one. -/
def roundHalfEven (t : ℚ) : ℕ :=
  if t - (⌊t⌋₊ : ℚ) < 1 / 2 then ⌊t⌋₊
  else if 1 / 2 < t - (⌊t⌋₊ : ℚ) then ⌊t⌋₊ + 1
  else if ⌊t⌋₊ % 2 = 0 then ⌊t⌋₊ else ⌊t⌋₊ + 1

/-- The spacing of doubles around a positive rational `a`: `2^(e - 52)` for the
binary exponent `e` of `a`, and `2^(-1074)` in the subnormal range. -/
def ulp (a : ℚ) : ℚ := (2 : ℚ) ^ (max (expo a) (-1022) - 52)

/-- Rounding of an exact result to `double`, to nearest with ties to even;
results of magnitude `2^1024` or more after rounding overflow to an
infinity. -/
def F64.round (q : ℚ) : F64 :=
  if q = 0 then F64.fin 0
  else if (2 : ℚ) ^ (1024 : ℕ) ≤ (roundHalfEven (|q| / ulp |q|) : ℚ) * ulp |q| then
    (if 0 < q then F64.pinf else F64.ninf)
  else if 0 < q then F64.fin ((roundHalfEven (|q| / ulp |q|) : ℚ) * ulp |q|)
  else F64.fin (-((roundHalfEven (|q| / ulp |q|) : ℚ) * ulp |q|))

/-- Unary minus on doubles. -/
def F64.neg : F64 → F64
  | F64.fin q => F64.fin (-q)
  | F64.pinf => F64.ninf
  | F64.ninf => F64.pinf
  | F64.nan => F64.nan

/-- Addition of doubles. -/
def F64.add : F64 → F64 → F64
  | F64.nan, _ => F64.nan
  | _, F64.nan => F64.nan
  | F64.pinf, F64.ninf => F64.nan
  | F64.ninf, F64.pinf => F64.nan
  | F64.pinf, _ => F64.pinf
  | _, F64.pinf => F64.pinf
  | F64.ninf, _ => F64.ninf
  | _, F64.ninf => F64.ninf
  | F64.fin a, F64.fin b => F64.round (a + b)

/-- Subtraction of doubles. -/
def F64.sub (a b : F64) : F64 := F64.add a (F64.neg b)

/-- Multiplication of doubles. -/
def F64.mul : F64 → F64 → F64
  | F64.nan, _ => F64.nan
  | _, F64.nan => F64.nan
  | F64.fin a, F64.fin b => F64.round (a * b)
  | F64.fin a, F64.pinf => if a = 0 then F64.nan else if 0 < a then F64.pinf else F64.ninf
  | F64.fin a, F64.ninf => if a = 0 then F64.nan else if 0 < a then F64.ninf else F64.pinf
  | F64.pinf, F64.fin b => if b = 0 then F64.nan else if 0 < b then F64.pinf else F64.ninf
  | F64.ninf, F64.fin b => if b = 0 then F64.nan else if 0 < b then F64.ninf else F64.pinf
  | F64.pinf, F64.pinf => F64.pinf
  | F64.ninf, F64.ninf => F64.pinf
  | F64.pinf, F64.ninf => F64.ninf
  | F64.ninf, F64.pinf => F64.ninf

/-- Position of a double that is not a NaN in the order of the extended
reals. -/
def F64.rank : F64 → WithBot (WithTop ℚ)
  | F64.fin q => ((q : WithTop ℚ) : WithBot (WithTop ℚ))
  | F64.pinf => ((⊤ : WithTop ℚ) : WithBot (WithTop ℚ))
  | F64.ninf => ⊥
  | F64.nan => ⊥

/-- The comparison `a > b` of doubles: false as soon as one side is a NaN. -/
def F64.gt (a b : F64) : Bool :=
  decide (a ≠ F64.nan ∧ b ≠ F64.nan ∧ F64.rank b < F64.rank a)

/-- Dense column vector of doubles with `n` entries (`arma::vec`). -/
abbrev VecF (n : ℕ) := Fin n → F64

/-- Dense matrix of doubles with `r` rows and `c` columns (`arma::mat`). -/
abbrev MatF (r c : ℕ) := Fin r → Fin c → F64

/-- Column `j` of a matrix of doubles (`M.col(j)`). -/
def colF {r c : ℕ} (M : MatF r c) (j : Fin c) : VecF r := fun f => M f j

/-- The dot product of two vectors of doubles, accumulated from zero in index
order, every product and every sum rounded.  (For one or two terms every
order of accumulation gives this value.) -/
def dotF {d : ℕ} (w x : VecF d) : F64 :=
  (List.finRange d).foldl (fun acc f => F64.add acc (F64.mul (w f) (x f))) (F64.fin 0)

/-- The activation `weights.t() * x + biases` as computed in doubles: entry `c`
is the dot product of weight column `c` with `x`, plus bias `c`. -/
def activationF {d k : ℕ} (weights : MatF d k) (biases : VecF k) (x : VecF d) : VecF k :=
  fun c => F64.add (dotF (fun f => weights f c) x) (biases c)

/-- Modelled from the spec: the collaborator operation "index of maximum element
with deterministic lowest-index tie-break" on doubles (Armadillo's
`max(index)`, absent from the sources): the scan starts from minus infinity at
index 0 and an entry replaces the best only when it compares greater, which a
NaN never does. -/
def maxLoopF {k : ℕ} (v : VecF k) : ℕ → F64 × ℕ
  | 0 => (F64.ninf, 0)
  | i + 1 =>
    if h : i < k then
      if F64.gt (v ⟨i, h⟩) (maxLoopF v i).1 = true then (v ⟨i, h⟩, i) else maxLoopF v i
    else maxLoopF v i

/-- Modelled from the spec: `v.max(maxIndex)` on doubles. -/
def maxIndexF {k : ℕ} (v : VecF k) : ℕ := (maxLoopF v k).2

/-- Modelled from the spec: `m.max(row, col)` on a matrix of doubles with `k`
rows holding the single column `v`. -/
def maxIndexRowColF {k : ℕ} (v : VecF k) : ℕ × ℕ := (maxIndexF v % k, maxIndexF v / k)

/-- The template parameter `LearnPolicy` acting on matrices of doubles. -/
structure LearnPolicyF where
  /-- Unweighted form `UpdateWeights(sample, weights, biases, predicted, true)`. -/
  UpdateWeights : {d k : ℕ} → VecF d → MatF d k → VecF k → ℕ → ℕ → MatF d k × VecF k
  /-- Weighted form `UpdateWeights(sample, weights, biases, predicted, true, cost)`. -/
  UpdateWeightsCost :
    {d k : ℕ} → VecF d → MatF d k → VecF k → ℕ → ℕ → F64 → MatF d k × VecF k

/-- The template parameter `WeightInitializationPolicy` producing matrices of
doubles. -/
structure WeightInitializationPolicyF where
  /-- The call `Initialize(weights, biases, numFeatures, numClasses)`. -/
  Initialize : (d k : ℕ) → MatF d k × VecF k

/-- Subtract `x` from column `c` of `W` in doubles (`W.col(c) -= x`). -/
def colSubF {d k : ℕ} (W : MatF d k) (c : ℕ) (x : VecF d) : MatF d k :=
  fun f c' => if c'.val = c then F64.sub (W f c') (x f) else W f c'

/-- Add `x` to column `c` of `W` in doubles (`W.col(c) += x`). -/
def colAddF {d k : ℕ} (W : MatF d k) (c : ℕ) (x : VecF d) : MatF d k :=
  fun f c' => if c'.val = c then F64.add (W f c') (x f) else W f c'

/-- Subtract `t` from entry `c` of `b` in doubles (`b(c) -= t`). -/
def entrySubF {k : ℕ} (b : VecF k) (c : ℕ) (t : F64) : VecF k :=
  fun c' => if c'.val = c then F64.sub (b c') t else b c'

/-- Add `t` to entry `c` of `b` in doubles (`b(c) += t`). -/
def entryAddF {k : ℕ} (b : VecF k) (c : ℕ) (t : F64) : VecF k :=
  fun c' => if c'.val = c then F64.add (b c') t else b c'

/-- Modelled from the spec: the canonical update rule of section 4.2 in doubles
(the policy class itself is absent from the sources): subtract the sample
vector, in the weighted form scaled by the cost, and the bias increment from
the predicted class's column, then add them to the true class's column. -/
def SimpleWeightUpdateF : LearnPolicyF where
  UpdateWeights := fun x W b predicted correct =>
    (colAddF (colSubF W predicted x) correct x,
      entryAddF (entrySubF b predicted (F64.fin 1)) correct (F64.fin 1))
  UpdateWeightsCost := fun x W b predicted correct cost =>
    (colAddF (colSubF W predicted (fun f => F64.mul cost (x f))) correct
        (fun f => F64.mul cost (x f)),
      entryAddF (entrySubF b predicted cost) correct cost)

/-- Modelled from the spec: the zero initialisation in doubles (the policy
class itself is absent from the sources). -/
def ZeroInitializationF : WeightInitializationPolicyF where
  Initialize := fun _ _ => (fun _ _ => F64.fin 0, fun _ => F64.fin 0)

/-- The locals and members that `Train` mutates, holding doubles. -/
structure TrainStateF (d k : ℕ) where
  /-- Member `weights`, one column per class. -/
  weights : MatF d k
  /-- Member `biases`, one entry per class. -/
  biases : VecF k
  /-- Local `i`: the number of passes started so far. -/
  i : ℕ
  /-- Local `converged`. -/
  converged : Bool

/-- The element `D(j)` of a cost vector of doubles (0 when `j` is outside the
vector, where the source reads out of bounds). -/
def costAtF (D : List F64) (j : ℕ) : F64 := D.getD j (F64.fin 0)

/-- Body of the inner `for` loop of `Train` (lines 150-172) for sample `j`,
computed in doubles. -/
def sampleStepF (LP : LearnPolicyF) {d n k : ℕ} (data : MatF d n) (labels : Fin n → ℕ)
    (D : List F64) (s : TrainStateF d k) (j : Fin n) : TrainStateF d k :=
  let tempLabelMat := activationF s.weights s.biases (colF data j)
  let maxIndexRow := (maxIndexRowColF tempLabelMat).1
  if maxIndexRow ≠ labels j then
    let tempLabel := labels j
    if 0 < D.length then
      let r := LP.UpdateWeightsCost (colF data j) s.weights s.biases maxIndexRow tempLabel
        (costAtF D j.val)
      { weights := r.1, biases := r.2, i := s.i, converged := false }
    else
      let r := LP.UpdateWeights (colF data j) s.weights s.biases maxIndexRow tempLabel
      { weights := r.1, biases := r.2, i := s.i, converged := false }
  else s

/-- Body of the outer `while` loop of `Train` (lines 144-173), computed in
doubles. -/
def passF (LP : LearnPolicyF) {d n k : ℕ} (data : MatF d n) (labels : Fin n → ℕ)
    (D : List F64) (s : TrainStateF d k) : TrainStateF d k :=
  (List.finRange n).foldl (sampleStepF LP data labels D)
    { weights := s.weights, biases := s.biases, i := s.i + 1, converged := true }

/-- The `while ((i < iter) && (!converged))` loop of `Train`, computed in
doubles and unrolled at most `fuel` times. -/
def trainLoopF (LP : LearnPolicyF) {d n k : ℕ} (iter : ℕ) (data : MatF d n)
    (labels : Fin n → ℕ) (D : List F64) : ℕ → TrainStateF d k → TrainStateF d k
  | 0, s => s
  | fuel + 1, s =>
    if s.i < iter ∧ s.converged = false then
      trainLoopF LP iter data labels D fuel (passF LP data labels D s)
    else s

/-- The member function `Train(data, labels, D)` computed in doubles.  The loop
is given `iter` units of fuel, which it never exhausts
(`trainLoopF_exit`). -/
def TrainF (LP : LearnPolicyF) {d n k : ℕ} (iter : ℕ) (weights : MatF d k) (biases : VecF k)
    (data : MatF d n) (labels : Fin n → ℕ) (D : List F64) : TrainStateF d k :=
  trainLoopF LP iter data labels D iter
    { weights := weights, biases := biases, i := 0, converged := false }

/-- The members of a `Perceptron` instance over `d` features, holding
doubles. -/
structure PerceptronF (d : ℕ) where
  /-- Number of classes (the column count of `weights`). -/
  k : ℕ
  /-- Member `weights`. -/
  weights : MatF d k
  /-- Member `biases`. -/
  biases : VecF k
  /-- Member `iter`, the iteration budget. -/
  iter : ℕ

/-- The state in which `Train` leaves the instance built by
`Perceptron(data, labels, iterations)`, computed in doubles. -/
def freshRunF (LP : LearnPolicyF) (WIP : WeightInitializationPolicyF) {d n : ℕ}
    (data : MatF d n) (labels : Fin n → ℕ) (iterations : ℕ) :
    TrainStateF d (numClasses labels) :=
  TrainF LP iterations (WIP.Initialize d (numClasses labels)).1
    (WIP.Initialize d (numClasses labels)).2 data labels []

/-- The constructor `Perceptron(data, labels, iterations)` (lines 30-41),
computed in doubles. -/
def PerceptronF.fresh (LP : LearnPolicyF) (WIP : WeightInitializationPolicyF) {d n : ℕ}
    (data : MatF d n) (labels : Fin n → ℕ) (iterations : ℕ) : PerceptronF d :=
  { k := numClasses labels
    weights := (freshRunF LP WIP data labels iterations).weights
    biases := (freshRunF LP WIP data labels iterations).biases
    iter := iterations }

/-- The constructor `Perceptron(other, data, D, labels)` (lines 88-101),
computed in doubles. -/
def PerceptronF.boost (LP : LearnPolicyF) (WIP : WeightInitializationPolicyF) {d0 d n : ℕ}
    (other : PerceptronF d0) (data : MatF d n) (D : List F64) (labels : Fin n → ℕ) :
    PerceptronF d :=
  { k := numClasses labels
    weights := (TrainF LP other.iter (WIP.Initialize d (numClasses labels)).1
      (WIP.Initialize d (numClasses labels)).2 data labels D).weights
    biases := (TrainF LP other.iter (WIP.Initialize d (numClasses labels)).1
      (WIP.Initialize d (numClasses labels)).2 data labels D).biases
    iter := other.iter }

/-- The member function `Classify(test, predictedLabels)` (lines 57-71),
computed in doubles: entry `i` of the result is the value written to
`predictedLabels(0, i)`. -/
def ClassifyF {d m : ℕ} (p : PerceptronF d) (test : MatF d m) : Fin m → ℕ :=
  fun i => maxIndexF (activationF p.weights p.biases (colF test i))

/-- A vector of rationals read as a vector of finite doubles. -/
def embV {n : ℕ} (v : Vec n) : VecF n := fun i => F64.fin (v i)

/-- A matrix of rationals read as a matrix of finite doubles. -/
def embM {r c : ℕ} (M : Mat r c) : MatF r c := fun f j => F64.fin (M f j)

/-- A training state over rationals read as a training state over doubles. -/
def embState {d k : ℕ} (s : TrainState d k) : TrainStateF d k :=
  { weights := embM s.weights, biases := embV s.biases, i := s.i, converged := s.converged }

/-- A matrix of integers as a matrix of rationals. -/
def intMat {r c : ℕ} (M : Matrix (Fin r) (Fin c) ℤ) : Mat r c := fun f j => (M f j : ℚ)

/-- A matrix of integers as a matrix of doubles. -/
def intMatF {r c : ℕ} (M : Matrix (Fin r) (Fin c) ℤ) : MatF r c :=
  fun f j => F64.fin (M f j : ℚ)

/-- The rational `q` is an integer of magnitude at most `B`. -/
def IntLe (B : ℕ) (q : ℚ) : Prop := ∃ z : ℤ, (z : ℚ) = q ∧ |z| ≤ (B : ℤ)

/-- The weights of a training state are integers of magnitude at most `Bw` and
its biases integers of magnitude at most `Bb`. -/
def StateIntLe {d k : ℕ} (Bw Bb : ℕ) (s : TrainState d k) : Prop :=
  (∀ f c, IntLe Bw (s.weights f c)) ∧ ∀ c, IntLe Bb (s.biases c)

/-- The rational value of a finite double (0 for the infinities and NaN). -/
def F64.toRat : F64 → ℚ
  | F64.fin q => q
  | F64.pinf => 0
  | F64.ninf => 0
  | F64.nan => 0

/-- Training columns (1) and (2^53 + 2). -/
def sumData : Matrix (Fin 1) (Fin 2) ℤ := !![1, 2 ^ 53 + 2]

/-- Labels 1 and 2 for `sumData`. -/
def sumLabels : Fin 2 → ℕ := ![1, 2]

/-- The example scenario of section 8 as a matrix of integers. -/
def exampleDataZ : Matrix (Fin 2) (Fin 4) ℤ := !![0, 0, 5, 5; 0, 1, 5, 6]

/-- Training columns (3) and (1). -/
def tenthData : Matrix (Fin 1) (Fin 2) ℤ := !![3, 1]

/-- Labels 1 and 0 for `tenthData`. -/
def tenthLabels : Fin 2 → ℕ := ![1, 0]

/-- The double nearest to one tenth. -/
def tenth : F64 := F64.round (1 / 10)

/-- Training columns (2^53, -2^53), (2^54, 4) and (2^53 + 2, -2^53). -/
def cycleData : Matrix (Fin 2) (Fin 3) ℤ :=
  !![2 ^ 53, 2 ^ 54, 2 ^ 53 + 2; -(2 ^ 53), 4, -(2 ^ 53)]

/-- Labels 1, 0, 0 for `cycleData`. -/
def cycleLabels : Fin 3 → ℕ := ![1, 0, 0]

/-- Weights that separate `cycleData` together with `cycleUb`. -/
def cycleU : Mat 2 2 := !![1, -1; 1, -1]

/-- Biases that separate `cycleData` together with `cycleU`. -/
def cycleUb : Vec 2 := ![-1, 1]

/-- The weights that training on `cycleData` in doubles holds after every
pass. -/
def cycleWeights : MatF 2 2 := embM !![2 ^ 54, -(2 ^ 54); 4, -4]

/-- The biases that training on `cycleData` in doubles holds after every
pass. -/
def cycleBiases : VecF 2 := embV ![1, -1]
/-- The example `marginData` as a matrix of integers. -/
def marginDataZ : Matrix (Fin 1) (Fin 2) ℤ := !![-3, 3]

/-- The double `0x1.44adafd72396cp+0`. -/
def tightA : ℚ := 0x512b6bf5c8e5b / 2 ^ 50

/-- The double `0x1.8f666b6511a1dp-1`. -/
def tightB : ℚ := 0x18f666b6511a1d / 2 ^ 53

/-- Training columns `(-tightA, tightB)` and `(tightA, tightB)`. -/
def tightData : Mat 2 2 := !![-tightA, tightA; tightB, tightB]

/-- Labels 0 and 1 for `tightData`. -/
def tightLabels : Fin 2 → ℕ := ![0, 1]

/-- Weights of Frobenius norm 1 separating `tightData` (a Pythagorean pair
close to the diagonal). -/
def tightU : Mat 2 2 := !![-(927538921 / 1311738121), 927538920 / 1311738121; 0, 0]

/-- Zero biases for `tightU`. -/
def tightUb : Vec 2 := ![0, 0]

/-- The margin with which `tightU` separates `tightData`. -/
def tightMargin : ℚ := (927538921 / 1311738121 + 927538920 / 1311738121) * tightA

/-- An instance with two classes, weights 2^53 for both and biases 0 and 1. -/
def tiePerceptron : PerceptronF 1 :=
  { k := 2, weights := fun _ _ => F64.fin (2 ^ 53), biases := embV ![0, 1], iter := 1 }

/-- The single test column (1). -/
def tieTest : MatF 1 1 := fun _ _ => F64.fin 1

/-- The class sums of the weights and of the biases are zero, and the column
and the bias of class `p` are zero. -/
def PhantomZero {d k : ℕ} (p : Fin k) (W : Mat d k) (b : Vec k) : Prop :=
  (∀ f, ∑ c, W f c = 0) ∧ ∑ c, b c = 0 ∧ (∀ f, W f p = 0) ∧ b p = 0

/-- Training columns (-(2^53 + 4)), (1) and (-(2^53 + 4)). -/
def driftData : Matrix (Fin 1) (Fin 3) ℤ := !![-(2 ^ 53 + 4), 1, -(2 ^ 53 + 4)]

/-- Labels 3, 2, 0 for `driftData`: class 1 never occurs. -/
def driftLabels : Fin 3 → ℕ := ![3, 2, 0]

/-- The single test column (-(2^53 + 4)). -/
def driftTest : Matrix (Fin 1) (Fin 1) ℤ := !![-(2 ^ 53 + 4)]

/-- A dense matrix of doubles together with its run-time dimensions
(`arma::mat` as the policies receive it by reference): `entry f c` is read
only for `f < n_rows` and `c < n_cols`. -/
structure RawMat where
  /-- Member `n_rows`. -/
  n_rows : ℕ
  /-- Member `n_cols`. -/
  n_cols : ℕ
  /-- The element at a row and a column. -/
  entry : ℕ → ℕ → F64

/-- A dense vector of doubles together with its run-time length
(`arma::vec`, `arma::rowvec`). -/
structure RawVec where
  /-- Member `n_elem`. -/
  n_elem : ℕ
  /-- The element at an index. -/
  entry : ℕ → F64

/-- A default-constructed `arma::mat`: no rows, no columns. -/
def RawMat.empty : RawMat := { n_rows := 0, n_cols := 0, entry := fun _ _ => F64.fin 0 }

/-- A default-constructed `arma::vec`: no elements. -/
def RawVec.empty : RawVec := { n_elem := 0, entry := fun _ => F64.fin 0 }

/-- The column view `M.col(j)`: an error (`none`) when `j` is not below the
column count. -/
def RawMat.col (M : RawMat) (j : ℕ) : Option RawVec :=
  if j < M.n_cols then some { n_elem := M.n_rows, entry := fun f => M.entry f j } else none

/-- The expression `weights.t() * x + biases` on run-time dimensions: an error
(`none`) unless `x` has as many elements as `weights` has rows and `biases` as
many as `weights` has columns; otherwise one activation per column. -/
def rawActivation (weights : RawMat) (biases x : RawVec) : Option RawVec :=
  if weights.n_rows = x.n_elem ∧ weights.n_cols = biases.n_elem then
    some { n_elem := weights.n_cols
           entry := fun c => F64.add
             ((List.range weights.n_rows).foldl
               (fun acc f => F64.add acc (F64.mul (weights.entry f c) (x.entry f))) (F64.fin 0))
             (biases.entry c) }
  else none

/-- The maximum scan of `rawMaxIndexRowCol` over the first `i` elements. -/
def rawMaxLoop (v : RawVec) : ℕ → F64 × ℕ
  | 0 => (F64.ninf, 0)
  | i + 1 =>
    if F64.gt (v.entry i) (rawMaxLoop v i).1 = true then (v.entry i, i) else rawMaxLoop v i

/-- Modelled from the spec: the collaborator operation `m.max(row, col)`
(Armadillo, absent from the sources) on a matrix with the single column `v`:
an error (`none`) on an object without elements, otherwise the row and column
of the first maximal element. -/
def rawMaxIndexRowCol (v : RawVec) : Option (ℕ × ℕ) :=
  if v.n_elem = 0 then none
  else some ((rawMaxLoop v v.n_elem).2 % v.n_elem, (rawMaxLoop v v.n_elem).2 / v.n_elem)

/-- The template parameter `LearnPolicy` as `Train` uses it: both forms of
`UpdateWeights` receive the members `weights` and `biases` by reference and
may leave them with any dimensions, or raise an error (`none`). -/
structure RawLearnPolicy where
  /-- Unweighted form `UpdateWeights(sample, weights, biases, predicted, true)`. -/
  UpdateWeights : RawVec → RawMat → RawVec → ℕ → ℕ → Option (RawMat × RawVec)
  /-- Weighted form `UpdateWeights(sample, weights, biases, predicted, true, cost)`. -/
  UpdateWeightsCost : RawVec → RawMat → RawVec → ℕ → ℕ → F64 → Option (RawMat × RawVec)

/-- The template parameter `WeightInitializationPolicy` as the constructors use
it: `Initialize` receives the members `weights` and `biases` by reference,
together with the feature and class counts, and may leave them with any
dimensions. -/
structure RawInitPolicy where
  /-- The call `Initialize(weights, biases, numFeatures, numClasses)`. -/
  Initialize : RawMat → RawVec → ℕ → ℕ → RawMat × RawVec

/-- Modelled from the spec: the contract of section 4.1 for `Initialize`: the
weights and biases it leaves have dimensions exactly matching the requested
counts. -/
def InitContract (WIP : RawInitPolicy) : Prop :=
  ∀ (W0 : RawMat) (b0 : RawVec) (d k : ℕ),
    (WIP.Initialize W0 b0 d k).1.n_rows = d ∧ (WIP.Initialize W0 b0 d k).1.n_cols = k ∧
      (WIP.Initialize W0 b0 d k).2.n_elem = k

/-- Modelled from the spec: the contract of section 4.2 for `UpdateWeights`:
the only effect is the in-place mutation of the two columns and bias entries,
so an update that returns leaves the dimensions as they were, and it does
return when the sample has one element per weight row and both class indices
are columns of the weights and entries of the biases. -/
def UpdateContract (LP : RawLearnPolicy) : Prop :=
  (∀ x W b p y r, LP.UpdateWeights x W b p y = some r →
    r.1.n_rows = W.n_rows ∧ r.1.n_cols = W.n_cols ∧ r.2.n_elem = b.n_elem) ∧
  (∀ x W b p y c r, LP.UpdateWeightsCost x W b p y c = some r →
    r.1.n_rows = W.n_rows ∧ r.1.n_cols = W.n_cols ∧ r.2.n_elem = b.n_elem) ∧
  (∀ x W b p y, x.n_elem = W.n_rows → b.n_elem = W.n_cols → p < W.n_cols → y < W.n_cols →
    (LP.UpdateWeights x W b p y).isSome = true) ∧
  (∀ x W b p y c, x.n_elem = W.n_rows → b.n_elem = W.n_cols → p < W.n_cols →
    y < W.n_cols → (LP.UpdateWeightsCost x W b p y c).isSome = true)

/-- Modelled from the spec: the canonical update rule of section 4.2 on
run-time dimensions (the policy class itself is absent from the sources): an
error when the sample length or a class index does not fit, otherwise the step
is subtracted from column and bias entry `predicted` and added to column and
bias entry `correct`, the dimensions staying as they are. -/
def rawStep (x : RawVec) (W : RawMat) (b : RawVec) (predicted correct : ℕ)
    (step : ℕ → F64) (biasStep : F64) : Option (RawMat × RawVec) :=
  if x.n_elem = W.n_rows ∧ predicted < W.n_cols ∧ correct < W.n_cols ∧
      predicted < b.n_elem ∧ correct < b.n_elem then
    some
      ({ n_rows := W.n_rows, n_cols := W.n_cols
         entry := fun f c =>
           if c = correct then
             F64.add (if c = predicted then F64.sub (W.entry f c) (step f) else W.entry f c)
               (step f)
           else if c = predicted then F64.sub (W.entry f c) (step f) else W.entry f c },
       { n_elem := b.n_elem
         entry := fun c =>
           if c = correct then
             F64.add (if c = predicted then F64.sub (b.entry c) biasStep else b.entry c)
               biasStep
           else if c = predicted then F64.sub (b.entry c) biasStep else b.entry c })
  else none

/-- Modelled from the spec: the canonical update policy on run-time
dimensions. -/
def rawSimpleUpdate : RawLearnPolicy where
  UpdateWeights := fun x W b predicted correct =>
    rawStep x W b predicted correct x.entry (F64.fin 1)
  UpdateWeightsCost := fun x W b predicted correct cost =>
    rawStep x W b predicted correct (fun f => F64.mul cost (x.entry f)) cost

/-- Modelled from the spec: the zero initialisation on run-time dimensions (the
policy class itself is absent from the sources): whatever the members held,
they are set to a features-by-classes matrix and a classes-length vector of
zeros. -/
def rawZeroInit : RawInitPolicy where
  Initialize := fun _ _ d k =>
    ({ n_rows := d, n_cols := k, entry := fun _ _ => F64.fin 0 },
     { n_elem := k, entry := fun _ => F64.fin 0 })

/-- The members and locals that `Train` mutates, with run-time dimensions. -/
structure RawState where
  /-- Member `weights`. -/
  weights : RawMat
  /-- Member `biases`. -/
  biases : RawVec
  /-- Local `i`. -/
  i : ℕ
  /-- Local `converged`. -/
  converged : Bool

/-- Body of the inner `for` loop of `Train` (lines 150-172) on run-time
dimensions: every Armadillo operation that checks sizes or indices may raise an
error (`none`). -/
def rawSampleStep (LP : RawLearnPolicy) (data : RawMat) (labels : List ℕ) (D : List F64)
    (s : RawState) (j : ℕ) : Option RawState :=
  match data.col j with
  | none => none
  | some x =>
    match rawActivation s.weights s.biases x with
    | none => none
    | some tempLabelMat =>
      match rawMaxIndexRowCol tempLabelMat with
      | none => none
      | some rc =>
        match labels[j]? with
        | none => none
        | some tempLabel =>
          if rc.1 ≠ tempLabel then
            if 0 < D.length then
              match D[j]? with
              | none => none
              | some cost =>
                match LP.UpdateWeightsCost x s.weights s.biases rc.1 tempLabel cost with
                | none => none
                | some r =>
                  some { weights := r.1, biases := r.2, i := s.i, converged := false }
            else
              match LP.UpdateWeights x s.weights s.biases rc.1 tempLabel with
              | none => none
              | some r => some { weights := r.1, biases := r.2, i := s.i, converged := false }
          else some s

/-- The inner `for` loop over a list of sample indices, on run-time
dimensions. -/
def rawSamples (LP : RawLearnPolicy) (data : RawMat) (labels : List ℕ) (D : List F64) :
    List ℕ → RawState → Option RawState
  | [], s => some s
  | j :: js, s =>
    match rawSampleStep LP data labels D s j with
    | some s2 => rawSamples LP data labels D js s2
    | none => none

/-- Body of the outer `while` loop of `Train` on run-time dimensions. -/
def rawPass (LP : RawLearnPolicy) (data : RawMat) (labels : List ℕ) (D : List F64)
    (s : RawState) : Option RawState :=
  rawSamples LP data labels D (List.range data.n_cols)
    { weights := s.weights, biases := s.biases, i := s.i + 1, converged := true }

/-- The `while` loop of `Train` on run-time dimensions, unrolled at most `fuel`
times. -/
def rawTrainLoop (LP : RawLearnPolicy) (iter : ℕ) (data : RawMat) (labels : List ℕ)
    (D : List F64) : ℕ → RawState → Option RawState
  | 0, s => some s
  | fuel + 1, s =>
    if s.i < iter ∧ s.converged = false then
      match rawPass LP data labels D s with
      | some s2 => rawTrainLoop LP iter data labels D fuel s2
      | none => none
    else some s

/-- The member function `Train` on run-time dimensions; the loop is given
`iter` units of fuel, one per pass the guard admits, so a run that returns has
left through the guard (`rawTrainLoop_exit`). -/
def rawTrain (LP : RawLearnPolicy) (iter : ℕ) (weights : RawMat) (biases : RawVec)
    (data : RawMat) (labels : List ℕ) (D : List F64) : Option RawState :=
  rawTrainLoop LP iter data labels D iter
    { weights := weights, biases := biases, i := 0, converged := false }

/-- The members of a `Perceptron` instance with run-time dimensions. -/
structure RawPerceptron where
  /-- Member `weights`. -/
  weights : RawMat
  /-- Member `biases`. -/
  biases : RawVec
  /-- Member `iter`. -/
  iter : ℕ

/-- The constructor `Perceptron(data, labels, iterations)` (lines 30-41) on
run-time dimensions: `arma::max(labels)` raises an error on an empty row, the
class count is formed in `size_t`, `Initialize` receives the default-constructed
members, and `Train` runs without a cost vector. -/
def rawFresh (LP : RawLearnPolicy) (WIP : RawInitPolicy) (data : RawMat) (labels : List ℕ)
    (iterations : ℕ) : Option RawPerceptron :=
  match maxChecked labels with
  | none => none
  | some mx =>
    match rawTrain LP iterations
      (WIP.Initialize RawMat.empty RawVec.empty data.n_rows ((mx + 1) % 2 ^ 64)).1
      (WIP.Initialize RawMat.empty RawVec.empty data.n_rows ((mx + 1) % 2 ^ 64)).2
      data labels [] with
    | none => none
    | some s => some { weights := s.weights, biases := s.biases, iter := iterations }

/-- The constructor `Perceptron(other, data, D, labels)` (lines 88-101) on
run-time dimensions. -/
def rawBoost (LP : RawLearnPolicy) (WIP : RawInitPolicy) (other : RawPerceptron)
    (data : RawMat) (D : List F64) (labels : List ℕ) : Option RawPerceptron :=
  match maxChecked labels with
  | none => none
  | some mx =>
    match rawTrain LP other.iter
      (WIP.Initialize RawMat.empty RawVec.empty data.n_rows ((mx + 1) % 2 ^ 64)).1
      (WIP.Initialize RawMat.empty RawVec.empty data.n_rows ((mx + 1) % 2 ^ 64)).2
      data labels D with
    | none => none
    | some s => some { weights := s.weights, biases := s.biases, iter := other.iter }

/-- The weights have `d` rows and `k` columns and the biases `k` entries. -/
def HasDims (d k : ℕ) (W : RawMat) (b : RawVec) : Prop :=
  W.n_rows = d ∧ W.n_cols = k ∧ b.n_elem = k

/-- The example scenario of section 8 with run-time dimensions. -/
def rawExampleData : RawMat :=
  { n_rows := 2, n_cols := 4, entry := fun f j => F64.fin (![![0, 0, 5, 5], ![0, 1, 5, 6]]
      (Fin.ofNat f) (Fin.ofNat j)) }

/-- A data matrix with two rows and no column. -/
def rawNoColumns : RawMat := { n_rows := 2, n_cols := 0, entry := fun _ _ => F64.fin 0 }

/-! ## The maximum scan -/

/-- Invariant of the maximum scan after `i ≥ 1` entries: the recorded index is
below `i`, the recorded value is the entry at that index, no visited entry is
greater, and every entry before the recorded index is strictly smaller. -/
lemma maxLoop_spec {k : ℕ} (v : Vec k) (i : ℕ) (hi : i ≤ k) (hpos : 0 < i) :
    ∃ h : (maxLoop v i).2 < k, (maxLoop v i).2 < i ∧
      (maxLoop v i).1 = ((v ⟨(maxLoop v i).2, h⟩ : ℚ) : WithBot ℚ) ∧
      (∀ c : Fin k, c.val < i → v c ≤ v ⟨(maxLoop v i).2, h⟩) ∧
      (∀ c : Fin k, c.val < (maxLoop v i).2 → v c < v ⟨(maxLoop v i).2, h⟩) := by
  induction i with
  | zero => omega
  | succ i ih =>
    have hik : i < k := by omega
    rcases Nat.eq_zero_or_pos i with h0 | hip
    · subst h0
      have h1 : maxLoop v 1 = (((v ⟨0, hik⟩ : ℚ) : WithBot ℚ), 0) := by
        simp [maxLoop, hik, WithBot.bot_lt_coe]
      rw [h1]
      refine ⟨hik, by simp, rfl, ?_, ?_⟩
      · intro c hc
        have : c = ⟨0, hik⟩ := Fin.ext (by simpa using hc)
        rw [this]
      · intro c hc
        simp at hc
    · obtain ⟨hlt, hidx, hval, hge, hfirst⟩ := ih (by omega) hip
      by_cases hcmp : (maxLoop v i).1 < ((v ⟨i, hik⟩ : ℚ) : WithBot ℚ)
      · have h1 : maxLoop v (i + 1) = (((v ⟨i, hik⟩ : ℚ) : WithBot ℚ), i) := by
          simp [maxLoop, hik, hcmp]
        rw [h1]
        rw [hval, WithBot.coe_lt_coe] at hcmp
        refine ⟨hik, by simp, rfl, ?_, ?_⟩
        · intro c hc
          rcases Nat.lt_succ_iff_lt_or_eq.mp hc with hci | hci
          · exact le_trans (hge c hci) (le_of_lt hcmp)
          · have : c = ⟨i, hik⟩ := Fin.ext hci
            rw [this]
        · intro c hc
          exact lt_of_le_of_lt (hge c hc) hcmp
      · have h1 : maxLoop v (i + 1) = maxLoop v i := by
          simp [maxLoop, hik, hcmp]
        rw [h1]
        rw [hval, WithBot.coe_lt_coe] at hcmp
        refine ⟨hlt, by omega, hval, ?_, hfirst⟩
        intro c hc
        rcases Nat.lt_succ_iff_lt_or_eq.mp hc with hci | hci
        · exact hge c hci
        · have : c = ⟨i, hik⟩ := Fin.ext hci
          rw [this]
          exact not_lt.mp hcmp

lemma maxIndex_lt {k : ℕ} (v : Vec k) (hk : 0 < k) : maxIndex v < k :=
  (maxLoop_spec v k le_rfl hk).1

lemma maxIndex_ge {k : ℕ} (v : Vec k) (hk : 0 < k) (c : Fin k) :
    v c ≤ v ⟨maxIndex v, maxIndex_lt v hk⟩ :=
  (maxLoop_spec v k le_rfl hk).2.2.2.1 c c.isLt

lemma maxIndex_first {k : ℕ} (v : Vec k) (hk : 0 < k) (c : Fin k)
    (hc : c.val < maxIndex v) : v c < v ⟨maxIndex v, maxIndex_lt v hk⟩ :=
  (maxLoop_spec v k le_rfl hk).2.2.2.2 c hc

/-- The scan is determined by its specification: an index whose entry is
maximal and strictly above all earlier entries is the one returned. -/
lemma maxIndex_unique {k : ℕ} (v : Vec k) (m : Fin k) (hmax : ∀ c, v c ≤ v m)
    (hfirst : ∀ c : Fin k, c.val < m.val → v c < v m) : maxIndex v = m.val := by
  have hk : 0 < k := lt_of_le_of_lt (Nat.zero_le _) m.isLt
  rcases Nat.lt_trichotomy (maxIndex v) m.val with h | h | h
  · have h1 := hfirst ⟨maxIndex v, maxIndex_lt v hk⟩ h
    have h2 := maxIndex_ge v hk m
    exact absurd h1 (not_lt.mpr h2)
  · exact h
  · have h1 := maxIndex_first v hk m h
    exact absurd h1 (not_lt.mpr (hmax _))

lemma maxIndex_zero_classes (v : Vec 0) : maxIndex v = 0 := rfl

/-- The row reported by `max(row, col)` on a single-column matrix is the index
reported by `max(index)` on the same entries. -/
lemma maxIndexRowCol_fst {k : ℕ} (v : Vec k) : (maxIndexRowCol v).1 = maxIndex v := by
  rcases Nat.eq_zero_or_pos k with hk | hk
  · subst hk
    simp [maxIndexRowCol]
  · exact Nat.mod_eq_of_lt (maxIndex_lt v hk)

/-! ## One sample, one pass -/

lemma sampleStep_i (LP : LearnPolicy) {d n k : ℕ} (data : Mat d n) (labels : Fin n → ℕ)
    (D : List ℚ) (s : TrainState d k) (j : Fin n) :
    (sampleStep LP data labels D s j).i = s.i := by
  unfold sampleStep
  simp only
  split_ifs <;> rfl

/-- A sample that is predicted correctly leaves the state untouched. -/
lemma sampleStep_correct (LP : LearnPolicy) {d n k : ℕ} (data : Mat d n)
    (labels : Fin n → ℕ) (D : List ℚ) (s : TrainState d k) (j : Fin n)
    (h : maxIndex (activation s.weights s.biases (col data j)) = labels j) :
    sampleStep LP data labels D s j = s := by
  unfold sampleStep
  simp only [maxIndexRowCol_fst, h, ne_eq, not_true_eq_false, if_false]

/-- A sample that is predicted wrongly clears the flag. -/
lemma sampleStep_wrong (LP : LearnPolicy) {d n k : ℕ} (data : Mat d n)
    (labels : Fin n → ℕ) (D : List ℚ) (s : TrainState d k) (j : Fin n)
    (h : maxIndex (activation s.weights s.biases (col data j)) ≠ labels j) :
    (sampleStep LP data labels D s j).converged = false := by
  unfold sampleStep
  simp only [maxIndexRowCol_fst, ne_eq, h, not_false_eq_true, if_true]
  split_ifs <;> rfl

lemma foldl_sampleStep_i (LP : LearnPolicy) {d n k : ℕ} (data : Mat d n)
    (labels : Fin n → ℕ) (D : List ℚ) (js : List (Fin n)) (s : TrainState d k) :
    (js.foldl (sampleStep LP data labels D) s).i = s.i := by
  induction js generalizing s with
  | nil => rfl
  | cons j js ih => rw [List.foldl_cons, ih, sampleStep_i]

/-- Once cleared, the flag stays cleared for the rest of the pass. -/
lemma foldl_sampleStep_false (LP : LearnPolicy) {d n k : ℕ} (data : Mat d n)
    (labels : Fin n → ℕ) (D : List ℚ) (js : List (Fin n)) (s : TrainState d k)
    (h : s.converged = false) :
    (js.foldl (sampleStep LP data labels D) s).converged = false := by
  induction js generalizing s with
  | nil => exact h
  | cons j js ih =>
    rw [List.foldl_cons]
    apply ih
    by_cases hp : maxIndex (activation s.weights s.biases (col data j)) = labels j
    · rw [sampleStep_correct LP data labels D s j hp]; exact h
    · exact sampleStep_wrong LP data labels D s j hp

/-- A run over samples that ends with the flag set changed nothing, and every
sample visited was predicted correctly. -/
lemma foldl_sampleStep_true (LP : LearnPolicy) {d n k : ℕ} (data : Mat d n)
    (labels : Fin n → ℕ) (D : List ℚ) (js : List (Fin n)) (s : TrainState d k)
    (h : (js.foldl (sampleStep LP data labels D) s).converged = true) :
    js.foldl (sampleStep LP data labels D) s = s ∧
      ∀ j ∈ js, maxIndex (activation s.weights s.biases (col data j)) = labels j := by
  induction js generalizing s with
  | nil => exact ⟨rfl, by simp⟩
  | cons j js ih =>
    rw [List.foldl_cons] at h ⊢
    by_cases hp : maxIndex (activation s.weights s.biases (col data j)) = labels j
    · rw [sampleStep_correct LP data labels D s j hp] at h ⊢
      obtain ⟨h1, h2⟩ := ih s h
      refine ⟨h1, ?_⟩
      intro j' hj'
      rcases List.mem_cons.mp hj' with e | e
      · rw [e]; exact hp
      · exact h2 j' e
    · have hf := foldl_sampleStep_false LP data labels D js _
        (sampleStep_wrong LP data labels D s j hp)
      rw [hf] at h
      exact absurd h (by simp)

/-- A run over samples that are all predicted correctly changes nothing. -/
lemma foldl_sampleStep_clean (LP : LearnPolicy) {d n k : ℕ} (data : Mat d n)
    (labels : Fin n → ℕ) (D : List ℚ) (js : List (Fin n)) (s : TrainState d k)
    (h : ∀ j ∈ js, maxIndex (activation s.weights s.biases (col data j)) = labels j) :
    js.foldl (sampleStep LP data labels D) s = s := by
  induction js with
  | nil => rfl
  | cons j js ih =>
    rw [List.foldl_cons, sampleStep_correct LP data labels D s j (h j (List.mem_cons_self _ _))]
    exact ih (fun j' hj' => h j' (List.mem_cons_of_mem _ hj'))

lemma pass_i (LP : LearnPolicy) {d n k : ℕ} (data : Mat d n) (labels : Fin n → ℕ)
    (D : List ℚ) (s : TrainState d k) : (pass LP data labels D s).i = s.i + 1 := by
  unfold pass
  rw [foldl_sampleStep_i]

/-- A pass that ends with the flag set left weights and biases as they were,
and under them every training sample is predicted as labelled. -/
lemma pass_converged (LP : LearnPolicy) {d n k : ℕ} (data : Mat d n) (labels : Fin n → ℕ)
    (D : List ℚ) (s : TrainState d k) (h : (pass LP data labels D s).converged = true) :
    (pass LP data labels D s).weights = s.weights ∧
      (pass LP data labels D s).biases = s.biases ∧
      ∀ j, maxIndex (activation s.weights s.biases (col data j)) = labels j := by
  unfold pass at h ⊢
  obtain ⟨h1, h2⟩ := foldl_sampleStep_true LP data labels D _ _ h
  rw [h1]
  exact ⟨rfl, rfl, fun j => h2 j (List.mem_finRange j)⟩

/-- A pass over a training set that is already predicted correctly only counts
the pass and sets the flag. -/
lemma pass_clean (LP : LearnPolicy) {d n k : ℕ} (data : Mat d n) (labels : Fin n → ℕ)
    (D : List ℚ) (s : TrainState d k)
    (h : ∀ j, maxIndex (activation s.weights s.biases (col data j)) = labels j) :
    pass LP data labels D s =
      { weights := s.weights, biases := s.biases, i := s.i + 1, converged := true } := by
  unfold pass
  exact foldl_sampleStep_clean LP data labels D _ _ (fun j _ => h j)

/-! ## The training loop -/

lemma trainLoop_i_le (LP : LearnPolicy) {d n k : ℕ} (iter : ℕ) (data : Mat d n)
    (labels : Fin n → ℕ) (D : List ℚ) (fuel : ℕ) (s : TrainState d k) (h : s.i ≤ iter) :
    (trainLoop LP iter data labels D fuel s).i ≤ iter := by
  induction fuel generalizing s with
  | zero => exact h
  | succ fuel ih =>
    unfold trainLoop
    split_ifs with hc
    · apply ih
      rw [pass_i]
      omega
    · exact h

/-- With fuel for the remaining budget the loop leaves through its own guard. -/
lemma trainLoop_exit (LP : LearnPolicy) {d n k : ℕ} (iter : ℕ) (data : Mat d n)
    (labels : Fin n → ℕ) (D : List ℚ) (fuel : ℕ) (s : TrainState d k)
    (h : iter - s.i ≤ fuel) :
    ¬ ((trainLoop LP iter data labels D fuel s).i < iter ∧
      (trainLoop LP iter data labels D fuel s).converged = false) := by
  induction fuel generalizing s with
  | zero =>
    unfold trainLoop
    intro hc
    omega
  | succ fuel ih =>
    unfold trainLoop
    split_ifs with hc
    · apply ih
      rw [pass_i]
      omega
    · exact hc

/-- Fuel beyond the remaining budget is never used. -/
lemma trainLoop_fuel_irrelevant (LP : LearnPolicy) {d n k : ℕ} (iter : ℕ) (data : Mat d n)
    (labels : Fin n → ℕ) (D : List ℚ) (fuel extra : ℕ) (s : TrainState d k)
    (h : iter - s.i ≤ fuel) :
    trainLoop LP iter data labels D (fuel + extra) s = trainLoop LP iter data labels D fuel s := by
  induction fuel generalizing s with
  | zero =>
    cases extra with
    | zero => rfl
    | succ e =>
      have : ¬ (s.i < iter ∧ s.converged = false) := by omega
      simp only [Nat.zero_add, trainLoop, this, if_false]
  | succ fuel ih =>
    have e : fuel + 1 + extra = (fuel + extra) + 1 := by omega
    rw [e]
    unfold trainLoop
    split_ifs with hc
    · apply ih
      rw [pass_i]
      omega
    · rfl

/-- The loop returns either the state it was given or the result of a pass. -/
lemma trainLoop_cases (LP : LearnPolicy) {d n k : ℕ} (iter : ℕ) (data : Mat d n)
    (labels : Fin n → ℕ) (D : List ℚ) (fuel : ℕ) (s : TrainState d k) :
    trainLoop LP iter data labels D fuel s = s ∨
      ∃ t : TrainState d k, trainLoop LP iter data labels D fuel s = pass LP data labels D t := by
  induction fuel generalizing s with
  | zero => exact Or.inl rfl
  | succ fuel ih =>
    unfold trainLoop
    split_ifs with hc
    · rcases ih (pass LP data labels D s) with h | ⟨t, ht⟩
      · exact Or.inr ⟨s, h⟩
      · exact Or.inr ⟨t, ht⟩
    · exact Or.inl rfl

/-- When `Train` ends with the flag set, the final weights and biases predict
every training sample as labelled. -/
lemma Train_converged_predicts (LP : LearnPolicy) {d n k : ℕ} (iter : ℕ) (weights : Mat d k)
    (biases : Vec k) (data : Mat d n) (labels : Fin n → ℕ) (D : List ℚ)
    (h : (Train LP iter weights biases data labels D).converged = true) (j : Fin n) :
    maxIndex (activation (Train LP iter weights biases data labels D).weights
      (Train LP iter weights biases data labels D).biases (col data j)) = labels j := by
  unfold Train at h ⊢
  rcases trainLoop_cases LP iter data labels D iter
    { weights := weights, biases := biases, i := 0, converged := false } with e | ⟨t, e⟩
  · rw [e] at h
    exact absurd h (by simp)
  · rw [e] at h ⊢
    obtain ⟨hw, hb, hp⟩ := pass_converged LP data labels D t h
    rw [hw, hb]
    exact hp j

/-! ## Claims about the loop structure and classification -/

/-- C2: if `Train` ends in the Converged state (flag `converged` set, that is,
the last pass it performed had zero mismatches), then `Classify` on the
training data with the resulting weights and biases returns exactly the
training labels; this holds for every update strategy, data, labels, cost
vector, initial weights and budget. -/
theorem converged_reproduces_training_labels (LP : LearnPolicy) {d n k : ℕ} (iter : ℕ)
    (weights : Mat d k) (biases : Vec k) (data : Mat d n) (labels : Fin n → ℕ) (D : List ℚ)
    (h : (Train LP iter weights biases data labels D).converged = true) :
    Classify
      { k := k
        weights := (Train LP iter weights biases data labels D).weights
        biases := (Train LP iter weights biases data labels D).biases
        iter := iter } data = labels := by
  funext j
  exact Train_converged_predicts LP iter weights biases data labels D h j

/-- Witness for C2 on the example scenario, trained from zero weights. -/
theorem converged_reproduces_training_labels_witness :
    (Train SimpleWeightUpdate 10 (0 : Mat 2 2) (0 : Vec 2) exampleData exampleLabels
        []).converged = true ∧
      Classify
        { k := 2
          weights := (Train SimpleWeightUpdate 10 (0 : Mat 2 2) (0 : Vec 2) exampleData
            exampleLabels []).weights
          biases := (Train SimpleWeightUpdate 10 (0 : Mat 2 2) (0 : Vec 2) exampleData
            exampleLabels []).biases
          iter := 10 } exampleData = exampleLabels :=
  ⟨by decide!, converged_reproduces_training_labels SimpleWeightUpdate 10 0 0 exampleData
    exampleLabels [] (by decide!)⟩

/-- C3: `Train` terminates and performs at most `iter` passes: the pass counter
of the final state is at most the budget, the loop has left through its own
guard (so the fuel of the embedding played no part, and more fuel gives the same
result), and with a budget of 0 no pass is performed and weights and biases
are returned as given. -/
theorem train_respects_budget (LP : LearnPolicy) {d n k : ℕ} (iter : ℕ)
    (weights : Mat d k) (biases : Vec k) (data : Mat d n) (labels : Fin n → ℕ) (D : List ℚ) :
    (Train LP iter weights biases data labels D).i ≤ iter ∧
      ¬ ((Train LP iter weights biases data labels D).i < iter ∧
        (Train LP iter weights biases data labels D).converged = false) ∧
      (∀ extra : ℕ, trainLoop LP iter data labels D (iter + extra)
          { weights := weights, biases := biases, i := 0, converged := false } =
        Train LP iter weights biases data labels D) ∧
      (Train LP 0 weights biases data labels D).i = 0 ∧
      (Train LP 0 weights biases data labels D).weights = weights ∧
      (Train LP 0 weights biases data labels D).biases = biases := by
  refine ⟨?_, ?_, ?_, rfl, rfl, rfl⟩
  · exact trainLoop_i_le LP iter data labels D iter _ (Nat.zero_le _)
  · exact trainLoop_exit LP iter data labels D iter _ (by simp)
  · intro extra
    exact trainLoop_fuel_irrelevant LP iter data labels D iter extra _ (by simp)

/-! ## Constructors, update rule, example scenario -/

/-- C6: the boosting constructor takes nothing from `other` but its iteration
budget: two instances with the same budget (whatever their weights, biases and
feature counts) give identical results, and the result is `Train` run with
budget `other.iter` and cost vector `D` from freshly initialised weights and
biases. -/
theorem boost_reuses_only_budget (LP : LearnPolicy) (WIP : WeightInitializationPolicy)
    {d1 d2 d n : ℕ} (other1 : Perceptron d1) (other2 : Perceptron d2) (data : Mat d n)
    (D : List ℚ) (labels : Fin n → ℕ) (h : other1.iter = other2.iter) :
    Perceptron.boost LP WIP other1 data D labels = Perceptron.boost LP WIP other2 data D labels ∧
      Perceptron.boost LP WIP other1 data D labels =
        { k := numClasses labels
          weights := (Train LP other1.iter (WIP.Initialize d (numClasses labels)).1
            (WIP.Initialize d (numClasses labels)).2 data labels D).weights
          biases := (Train LP other1.iter (WIP.Initialize d (numClasses labels)).1
            (WIP.Initialize d (numClasses labels)).2 data labels D).biases
          iter := other1.iter } := by
  refine ⟨?_, rfl⟩
  unfold Perceptron.boost
  rw [h]

/-- Witness for C6: two instances with budget 10, different weights and
different feature counts, boosted on the example scenario. -/
theorem boost_reuses_only_budget_witness :
    Perceptron.boost SimpleWeightUpdate ZeroInitialization otherZero exampleData [1, 2, 3, 4]
        exampleLabels =
      Perceptron.boost SimpleWeightUpdate ZeroInitialization otherBusy exampleData [1, 2, 3, 4]
        exampleLabels :=
  (boost_reuses_only_budget SimpleWeightUpdate ZeroInitialization otherZero otherBusy
    exampleData [1, 2, 3, 4] exampleLabels rfl).1

/-- C7: under the canonical update rule, an update for predicted class
`predicted` and true class `correct` leaves every weight column and bias entry
other than those two exactly as it was, in the unweighted and in the weighted
form; so does the step `Train` performs for one sample. -/
theorem update_locality {d n k : ℕ} (x : Vec d) (W : Mat d k) (b : Vec k) (cost : ℚ)
    (predicted correct : ℕ) (c : Fin k) (hp : c.val ≠ predicted) (hc : c.val ≠ correct) :
    (∀ f, (SimpleWeightUpdate.UpdateWeights x W b predicted correct).1 f c = W f c) ∧
      (SimpleWeightUpdate.UpdateWeights x W b predicted correct).2 c = b c ∧
      (∀ f, (SimpleWeightUpdate.UpdateWeightsCost x W b predicted correct cost).1 f c = W f c) ∧
      (SimpleWeightUpdate.UpdateWeightsCost x W b predicted correct cost).2 c = b c ∧
      ∀ (data : Mat d n) (labels : Fin n → ℕ) (D : List ℚ) (s : TrainState d k) (j : Fin n),
        (maxIndexRowCol (activation s.weights s.biases (col data j))).1 = predicted →
        labels j = correct →
        (∀ f, (sampleStep SimpleWeightUpdate data labels D s j).weights f c = s.weights f c) ∧
          (sampleStep SimpleWeightUpdate data labels D s j).biases c = s.biases c := by
  refine ⟨?_, ?_, ?_, ?_, ?_⟩
  · intro f
    simp [SimpleWeightUpdate, colAdd, colSub, hp, hc]
  · simp [SimpleWeightUpdate, entryAdd, entrySub, hp, hc]
  · intro f
    simp [SimpleWeightUpdate, colAdd, colSub, hp, hc]
  · simp [SimpleWeightUpdate, entryAdd, entrySub, hp, hc]
  · intro data labels D s j hpred hlab
    unfold sampleStep
    simp only [hpred, hlab]
    split_ifs
    · refine ⟨fun f => ?_, ?_⟩
      · simp [SimpleWeightUpdate, colAdd, colSub, hp, hc]
      · simp [SimpleWeightUpdate, entryAdd, entrySub, hp, hc]
    · refine ⟨fun f => ?_, ?_⟩
      · simp [SimpleWeightUpdate, colAdd, colSub, hp, hc]
      · simp [SimpleWeightUpdate, entryAdd, entrySub, hp, hc]
    · exact ⟨fun _ => rfl, rfl⟩

/-- Witness for C7: three classes, update for predicted class 0 and true class
1; column 2 and bias entry 2 are untouched. -/
theorem update_locality_witness :
    (∀ f, (SimpleWeightUpdate.UpdateWeights (![1, 2] : Vec 2) (!![1, 2, 3; 4, 5, 6] : Mat 2 3)
        (![7, 8, 9] : Vec 3) 0 1).1 f 2 = (!![1, 2, 3; 4, 5, 6] : Mat 2 3) f 2) ∧
      (SimpleWeightUpdate.UpdateWeights (![1, 2] : Vec 2) (!![1, 2, 3; 4, 5, 6] : Mat 2 3)
        (![7, 8, 9] : Vec 3) 0 1).2 2 = (![7, 8, 9] : Vec 3) 2 :=
  ⟨(update_locality (n := 0) (![1, 2] : Vec 2) (!![1, 2, 3; 4, 5, 6] : Mat 2 3)
      (![7, 8, 9] : Vec 3) 10 0 1 2 (by decide) (by decide)).1,
    (update_locality (n := 0) (![1, 2] : Vec 2) (!![1, 2, 3; 4, 5, 6] : Mat 2 3)
      (![7, 8, 9] : Vec 3) 10 0 1 2 (by decide) (by decide)).2.1⟩

/-- C8: on the example scenario (columns (0,0), (0,1), (5,5), (5,6), labels
0, 0, 1, 1, budget 10, zero initialisation, canonical unweighted update) the
constructor ends training in the Converged state after 5 passes, fewer than
10, and `Classify` returns 0 for (0, 1/2) and 1 for (5, 11/2). -/
theorem example_scenario :
    (freshRun SimpleWeightUpdate ZeroInitialization exampleData exampleLabels 10).converged =
        true ∧
      (freshRun SimpleWeightUpdate ZeroInitialization exampleData exampleLabels 10).i = 5 ∧
      (freshRun SimpleWeightUpdate ZeroInitialization exampleData exampleLabels 10).i < 10 ∧
      Classify (Perceptron.fresh SimpleWeightUpdate ZeroInitialization exampleData
        exampleLabels 10) exampleTest 0 = 0 ∧
      Classify (Perceptron.fresh SimpleWeightUpdate ZeroInitialization exampleData
        exampleLabels 10) exampleTest 1 = 1 := by
  decide!

/-! ## Uniform positive costs -/

lemma activation_smul {d k : ℕ} (c : ℚ) (W : Mat d k) (b : Vec k) (x : Vec d) :
    activation (c • W) (c • b) x = c • activation W b x := by
  funext i
  simp only [activation, Matrix.mulVec, Matrix.dotProduct, Matrix.transpose_apply,
    Matrix.smul_apply, Pi.add_apply, Pi.smul_apply, smul_eq_mul, mul_add, Finset.mul_sum]
  congr 1
  apply Finset.sum_congr rfl
  intro f _
  ring

/-- Scaling all entries by a positive constant does not move the maximum. -/
lemma maxIndex_smul_pos {k : ℕ} (c : ℚ) (hc : 0 < c) (v : Vec k) :
    maxIndex (c • v) = maxIndex v := by
  rcases Nat.eq_zero_or_pos k with hk | hk
  · subst hk
    rfl
  · apply maxIndex_unique (c • v) ⟨maxIndex v, maxIndex_lt v hk⟩
    · intro i
      simp only [Pi.smul_apply, smul_eq_mul]
      exact mul_le_mul_of_nonneg_left (maxIndex_ge v hk i) (le_of_lt hc)
    · intro i hi
      simp only [Pi.smul_apply, smul_eq_mul]
      exact mul_lt_mul_of_pos_left (maxIndex_first v hk i hi) hc

/-- The weighted canonical update with cost `c` on scaled weights is the scaled
unweighted canonical update. -/
lemma update_cost_smul {d k : ℕ} (c : ℚ) (x : Vec d) (W : Mat d k) (b : Vec k) (p y : ℕ) :
    SimpleWeightUpdate.UpdateWeightsCost x (c • W) (c • b) p y c =
      (c • (SimpleWeightUpdate.UpdateWeights x W b p y).1,
        c • (SimpleWeightUpdate.UpdateWeights x W b p y).2) := by
  refine Prod.ext ?_ ?_
  · funext f i
    simp only [SimpleWeightUpdate, colAdd, colSub, Matrix.smul_apply, Pi.smul_apply, smul_eq_mul]
    split_ifs <;> ring
  · funext i
    simp only [SimpleWeightUpdate, entryAdd, entrySub, Pi.smul_apply, smul_eq_mul]
    split_ifs <;> ring

lemma costAt_replicate (n : ℕ) (c : ℚ) (j : ℕ) (hj : j < n) :
    costAt (List.replicate n c) j = c := by
  unfold costAt
  rw [List.getD_eq_getElem _ _ (by simpa using hj)]
  simp

lemma sampleStep_scaled {d n k : ℕ} (c : ℚ) (hc : 0 < c) (data : Mat d n)
    (labels : Fin n → ℕ) (sw su : TrainState d k) (j : Fin n) (h : Scaled c sw su) :
    Scaled c (sampleStep SimpleWeightUpdate data labels (List.replicate n c) sw j)
      (sampleStep SimpleWeightUpdate data labels [] su j) := by
  obtain ⟨hw, hb, hi, hcv⟩ := h
  have hlen : 0 < (List.replicate n c).length := by
    rw [List.length_replicate]
    exact lt_of_le_of_lt (Nat.zero_le _) j.isLt
  have hpred : maxIndex (activation sw.weights sw.biases (col data j)) =
      maxIndex (activation su.weights su.biases (col data j)) := by
    rw [hw, hb, activation_smul, maxIndex_smul_pos c hc]
  unfold sampleStep
  simp only [maxIndexRowCol_fst, hpred, hlen, if_true, List.length_nil, lt_irrefl, if_false,
    costAt_replicate n c j.val j.isLt]
  split_ifs with hne
  · rw [hw, hb, update_cost_smul]
    exact ⟨rfl, rfl, hi, rfl⟩
  · exact ⟨hw, hb, hi, hcv⟩

lemma foldl_sampleStep_scaled {d n k : ℕ} (c : ℚ) (hc : 0 < c) (data : Mat d n)
    (labels : Fin n → ℕ) (js : List (Fin n)) (sw su : TrainState d k) (h : Scaled c sw su) :
    Scaled c (js.foldl (sampleStep SimpleWeightUpdate data labels (List.replicate n c)) sw)
      (js.foldl (sampleStep SimpleWeightUpdate data labels []) su) := by
  induction js generalizing sw su with
  | nil => exact h
  | cons j js ih =>
    rw [List.foldl_cons, List.foldl_cons]
    exact ih _ _ (sampleStep_scaled c hc data labels sw su j h)

lemma pass_scaled {d n k : ℕ} (c : ℚ) (hc : 0 < c) (data : Mat d n)
    (labels : Fin n → ℕ) (sw su : TrainState d k) (h : Scaled c sw su) :
    Scaled c (pass SimpleWeightUpdate data labels (List.replicate n c) sw)
      (pass SimpleWeightUpdate data labels [] su) := by
  unfold pass
  apply foldl_sampleStep_scaled c hc
  obtain ⟨hw, hb, hi, _⟩ := h
  exact ⟨hw, hb, by simp [hi], rfl⟩

lemma trainLoop_scaled {d n k : ℕ} (c : ℚ) (hc : 0 < c) (iter : ℕ) (data : Mat d n)
    (labels : Fin n → ℕ) (fuel : ℕ) (sw su : TrainState d k) (h : Scaled c sw su) :
    Scaled c (trainLoop SimpleWeightUpdate iter data labels (List.replicate n c) fuel sw)
      (trainLoop SimpleWeightUpdate iter data labels [] fuel su) := by
  induction fuel generalizing sw su with
  | zero => exact h
  | succ fuel ih =>
    unfold trainLoop
    rw [h.2.2.1, h.2.2.2]
    split_ifs with hg
    · exact ih _ _ (pass_scaled c hc data labels sw su h)
    · exact h

/-! ## The mistake bound -/

lemma activation_apply {d k : ℕ} (W : Mat d k) (b : Vec k) (x : Vec d) (c : Fin k) :
    activation W b x c = ∑ f, W f c * x f + b c := by
  simp [activation, Matrix.mulVec, Matrix.dotProduct, Matrix.transpose_apply]

lemma sqNorm_nonneg {d : ℕ} (x : Vec d) : 0 ≤ sqNorm x :=
  Finset.sum_nonneg (fun f _ => sq_nonneg (x f))

lemma frobSq_nonneg {d k : ℕ} (W : Mat d k) (b : Vec k) : 0 ≤ frobSq W b :=
  Finset.sum_nonneg (fun c _ =>
    add_nonneg (Finset.sum_nonneg (fun f _ => sq_nonneg (W f c))) (sq_nonneg (b c)))

lemma foldl_max_ge_init {ι : Type} (g : ι → ℚ) (l : List ι) (a : ℚ) :
    a ≤ l.foldl (fun m j => max m (g j)) a := by
  induction l generalizing a with
  | nil => exact le_rfl
  | cons j l ih =>
    rw [List.foldl_cons]
    exact le_trans (le_max_left _ _) (ih _)

lemma foldl_max_ge_mem {ι : Type} (g : ι → ℚ) (l : List ι) (a : ℚ) (j : ι) (hj : j ∈ l) :
    g j ≤ l.foldl (fun m j => max m (g j)) a := by
  induction l generalizing a with
  | nil => simp at hj
  | cons j0 l ih =>
    rw [List.foldl_cons]
    rcases List.mem_cons.mp hj with e | e
    · rw [e]
      exact le_trans (le_max_right _ _) (foldl_max_ge_init g l _)
    · exact ih _ e

lemma maxSqNorm_nonneg {d n : ℕ} (data : Mat d n) : 0 ≤ maxSqNorm data :=
  foldl_max_ge_init _ _ _

lemma sqNorm_le_maxSqNorm {d n : ℕ} (data : Mat d n) (j : Fin n) :
    sqNorm (col data j) ≤ maxSqNorm data :=
  foldl_max_ge_mem (fun j => sqNorm (col data j)) _ _ j (List.mem_finRange j)

lemma sum_delta_mul {k : ℕ} (p y : Fin k) (a : Fin k → ℚ) :
    ∑ c, delta p y c * a c = a y - a p := by
  simp [delta, sub_mul, Finset.sum_sub_distrib]

lemma delta_sq {k : ℕ} (p y c : Fin k) (h : p ≠ y) :
    delta p y c ^ 2 = (if c = y then 1 else 0) + (if c = p then 1 else 0) := by
  unfold delta
  by_cases h1 : c = y
  · have h2 : ¬ y = p := fun e => h e.symm
    subst h1
    simp [h2]
  · by_cases h2 : c = p
    · subst h2
      simp [h]
    · simp [h1, h2]

lemma sum_delta_sq_mul {k : ℕ} (p y : Fin k) (h : p ≠ y) (r : ℚ) :
    ∑ c, delta p y c ^ 2 * r = 2 * r := by
  simp only [delta_sq p y _ h, add_mul, Finset.sum_add_distrib]
  simp
  ring

/-- Entry-wise form of the canonical unweighted update. -/
lemma update_entries {d k : ℕ} (x : Vec d) (W : Mat d k) (b : Vec k) (p y : Fin k) :
    (∀ f c, (SimpleWeightUpdate.UpdateWeights x W b p.val y.val).1 f c =
        W f c + delta p y c * x f) ∧
      ∀ c, (SimpleWeightUpdate.UpdateWeights x W b p.val y.val).2 c = b c + delta p y c := by
  constructor
  · intro f c
    simp only [SimpleWeightUpdate, colAdd, colSub, delta, Fin.val_eq_val]
    split_ifs <;> ring
  · intro c
    simp only [SimpleWeightUpdate, entryAdd, entrySub, delta, Fin.val_eq_val]
    split_ifs <;> ring

/-- An update moves the inner product with `U` by the margin of `U` on the
sample. -/
lemma update_align {d k : ℕ} (U : Mat d k) (ub : Vec k) (x : Vec d) (W : Mat d k)
    (b : Vec k) (p y : Fin k) :
    align U ub (SimpleWeightUpdate.UpdateWeights x W b p.val y.val).1
        (SimpleWeightUpdate.UpdateWeights x W b p.val y.val).2 =
      align U ub W b + (activation U ub x y - activation U ub x p) := by
  obtain ⟨hW, hb⟩ := update_entries x W b p y
  rw [← sum_delta_mul p y (activation U ub x)]
  unfold align
  rw [← Finset.sum_add_distrib]
  apply Finset.sum_congr rfl
  intro c _
  rw [activation_apply, hb c]
  simp only [hW]
  simp only [mul_add, Finset.sum_add_distrib, Finset.mul_sum]
  have e : ∀ f, U f c * (delta p y c * x f) = delta p y c * (U f c * x f) := fun f => by ring
  simp only [e]
  ring

/-- An update moves the squared norm by twice the activation gap plus twice the
squared norm of the augmented sample. -/
lemma update_frobSq {d k : ℕ} (x : Vec d) (W : Mat d k) (b : Vec k) (p y : Fin k)
    (h : p ≠ y) :
    frobSq (SimpleWeightUpdate.UpdateWeights x W b p.val y.val).1
        (SimpleWeightUpdate.UpdateWeights x W b p.val y.val).2 =
      frobSq W b + 2 * (activation W b x y - activation W b x p) + 2 * (sqNorm x + 1) := by
  obtain ⟨hW, hb⟩ := update_entries x W b p y
  rw [← sum_delta_mul p y (activation W b x), ← sum_delta_sq_mul p y h (sqNorm x + 1)]
  unfold frobSq
  rw [Finset.mul_sum, ← Finset.sum_add_distrib, ← Finset.sum_add_distrib]
  apply Finset.sum_congr rfl
  intro c _
  rw [activation_apply, hb c]
  simp only [hW]
  have e : ∀ f, (W f c + delta p y c * x f) ^ 2 =
      W f c ^ 2 + 2 * delta p y c * (W f c * x f) + delta p y c ^ 2 * x f ^ 2 := fun f => by ring
  simp only [e, Finset.sum_add_distrib, ← Finset.mul_sum]
  unfold sqNorm
  ring

lemma frobSq_line {d k : ℕ} (U : Mat d k) (ub : Vec k) (W : Mat d k) (b : Vec k) (t : ℚ) :
    frobSq (fun f c => t * U f c - W f c) (fun c => t * ub c - b c) =
      frobSq U ub * (t * t) + (-(2 * align U ub W b)) * t + frobSq W b := by
  unfold frobSq align
  have e2 : ∑ c, ((∑ f, U f c ^ 2 + ub c ^ 2) * (t * t) +
        (-(2 * (∑ f, U f c * W f c + ub c * b c))) * t + (∑ f, W f c ^ 2 + b c ^ 2)) =
      (∑ c, (∑ f, U f c ^ 2 + ub c ^ 2)) * (t * t) +
      (-(2 * ∑ c, (∑ f, U f c * W f c + ub c * b c))) * t + ∑ c, (∑ f, W f c ^ 2 + b c ^ 2) := by
    rw [Finset.sum_add_distrib, Finset.sum_add_distrib, ← Finset.sum_mul, ← Finset.sum_mul,
      Finset.sum_neg_distrib, ← Finset.mul_sum]
  rw [← e2]
  apply Finset.sum_congr rfl
  intro c _
  have e1 : ∀ f, (t * U f c - W f c) ^ 2 =
      U f c ^ 2 * (t * t) + (-(2 * t)) * (U f c * W f c) + W f c ^ 2 := fun f => by ring
  simp only [e1, Finset.sum_add_distrib, ← Finset.mul_sum, ← Finset.sum_mul]
  ring

/-- Cauchy-Schwarz for bias-augmented weight matrices. -/
lemma align_sq_le {d k : ℕ} (U : Mat d k) (ub : Vec k) (W : Mat d k) (b : Vec k) :
    align U ub W b ^ 2 ≤ frobSq U ub * frobSq W b := by
  have key : ∀ t : ℚ, 0 ≤ frobSq U ub * (t * t) + (-(2 * align U ub W b)) * t + frobSq W b := by
    intro t
    rw [← frobSq_line]
    exact frobSq_nonneg _ _
  have hd : discrim (frobSq U ub) (-(2 * align U ub W b)) (frobSq W b) ≤ 0 :=
    discrim_le_zero key
  unfold discrim at hd
  rw [neg_sq] at hd
  linarith [hd]

lemma trainLoop_succ_run (LP : LearnPolicy) {d n k : ℕ} (iter : ℕ) (data : Mat d n)
    (labels : Fin n → ℕ) (D : List ℚ) (fuel : ℕ) (s : TrainState d k)
    (hc : s.i < iter ∧ s.converged = false) :
    trainLoop LP iter data labels D (fuel + 1) s =
      trainLoop LP iter data labels D fuel (pass LP data labels D s) := by
  rw [trainLoop, if_pos hc]

lemma trainLoop_succ_stop (LP : LearnPolicy) {d n k : ℕ} (iter : ℕ) (data : Mat d n)
    (labels : Fin n → ℕ) (D : List ℚ) (fuel : ℕ) (s : TrainState d k)
    (hc : ¬ (s.i < iter ∧ s.converged = false)) :
    trainLoop LP iter data labels D (fuel + 1) s = s := by
  rw [trainLoop, if_neg hc]

lemma sampleStep_wrong_eq {d n k : ℕ} (data : Mat d n) (labels : Fin n → ℕ)
    (s : TrainState d k) (j : Fin n)
    (hne : maxIndex (activation s.weights s.biases (col data j)) ≠ labels j) :
    sampleStep SimpleWeightUpdate data labels [] s j =
      { weights := (SimpleWeightUpdate.UpdateWeights (col data j) s.weights s.biases
          (maxIndex (activation s.weights s.biases (col data j))) (labels j)).1
        biases := (SimpleWeightUpdate.UpdateWeights (col data j) s.weights s.biases
          (maxIndex (activation s.weights s.biases (col data j))) (labels j)).2
        i := s.i
        converged := false } := by
  unfold sampleStep
  simp only [maxIndexRowCol_fst, ne_eq, hne, not_false_eq_true, if_true, List.length_nil,
    lt_irrefl, if_false]

/-- A wrongly predicted sample raises the inner product with a separating `U`
by at least the margin and the squared norm by at most `2 * R2`. -/
lemma sampleStep_progress {d n k : ℕ} (U : Mat d k) (ub : Vec k) (g R2 : ℚ)
    (data : Mat d n) (labels : Fin n → ℕ) (hsep : SeparatedBy U ub data labels g)
    (hlab : ∀ j, labels j < k) (hR2 : ∀ j, sqNorm (col data j) + 1 ≤ R2)
    (s : TrainState d k) (j : Fin n)
    (hne : maxIndex (activation s.weights s.biases (col data j)) ≠ labels j) :
    align U ub s.weights s.biases + g ≤
        align U ub (sampleStep SimpleWeightUpdate data labels [] s j).weights
          (sampleStep SimpleWeightUpdate data labels [] s j).biases ∧
      frobSq (sampleStep SimpleWeightUpdate data labels [] s j).weights
          (sampleStep SimpleWeightUpdate data labels [] s j).biases ≤
        frobSq s.weights s.biases + 2 * R2 := by
  have hk : 0 < k := lt_of_le_of_lt (Nat.zero_le _) (hlab j)
  have hpy : (⟨maxIndex (activation s.weights s.biases (col data j)),
      maxIndex_lt _ hk⟩ : Fin k) ≠ ⟨labels j, hlab j⟩ := by
    intro e
    exact hne (congrArg Fin.val e)
  rw [sampleStep_wrong_eq data labels s j hne]
  have h1 := update_align U ub (col data j) s.weights s.biases
    ⟨maxIndex (activation s.weights s.biases (col data j)), maxIndex_lt _ hk⟩
    ⟨labels j, hlab j⟩
  have h2 := update_frobSq (col data j) s.weights s.biases
    ⟨maxIndex (activation s.weights s.biases (col data j)), maxIndex_lt _ hk⟩
    ⟨labels j, hlab j⟩ hpy
  have h3 := hsep j ⟨labels j, hlab j⟩
    ⟨maxIndex (activation s.weights s.biases (col data j)), maxIndex_lt _ hk⟩ rfl hpy
  have h4 := maxIndex_ge (activation s.weights s.biases (col data j)) hk ⟨labels j, hlab j⟩
  have h5 := hR2 j
  simp only at h1 h2 ⊢
  constructor
  · rw [h1]
    linarith
  · rw [h2]
    linarith

/-- Invariants of a run over samples: the squared norm stays below `2 * R2 / g`
times the inner product with `U`; the inner product never drops; it has risen
by at least `g` once the flag has been cleared. -/
lemma foldl_sampleStep_progress {d n k : ℕ} (U : Mat d k) (ub : Vec k) (g R2 : ℚ)
    (hg : 0 ≤ g) (hR0 : 0 ≤ R2) (data : Mat d n) (labels : Fin n → ℕ)
    (hsep : SeparatedBy U ub data labels g) (hlab : ∀ j, labels j < k)
    (hR2 : ∀ j, sqNorm (col data j) + 1 ≤ R2) (js : List (Fin n)) (s : TrainState d k)
    (hQ : g * frobSq s.weights s.biases ≤ 2 * R2 * align U ub s.weights s.biases) :
    g * frobSq (js.foldl (sampleStep SimpleWeightUpdate data labels []) s).weights
          (js.foldl (sampleStep SimpleWeightUpdate data labels []) s).biases ≤
        2 * R2 * align U ub (js.foldl (sampleStep SimpleWeightUpdate data labels []) s).weights
          (js.foldl (sampleStep SimpleWeightUpdate data labels []) s).biases ∧
      align U ub s.weights s.biases ≤
        align U ub (js.foldl (sampleStep SimpleWeightUpdate data labels []) s).weights
          (js.foldl (sampleStep SimpleWeightUpdate data labels []) s).biases ∧
      (s.converged = true →
        (js.foldl (sampleStep SimpleWeightUpdate data labels []) s).converged = false →
        align U ub s.weights s.biases + g ≤
          align U ub (js.foldl (sampleStep SimpleWeightUpdate data labels []) s).weights
            (js.foldl (sampleStep SimpleWeightUpdate data labels []) s).biases) := by
  induction js generalizing s with
  | nil =>
    refine ⟨hQ, le_rfl, ?_⟩
    intro h1 h2
    simp only [List.foldl_nil] at h2
    rw [h1] at h2
    exact absurd h2 (by simp)
  | cons j js ih =>
    rw [List.foldl_cons]
    by_cases hp : maxIndex (activation s.weights s.biases (col data j)) = labels j
    · rw [sampleStep_correct SimpleWeightUpdate data labels [] s j hp]
      exact ih s hQ
    · obtain ⟨ha, hf⟩ := sampleStep_progress U ub g R2 data labels hsep hlab hR2 s j hp
      have hQ1 : g * frobSq (sampleStep SimpleWeightUpdate data labels [] s j).weights
          (sampleStep SimpleWeightUpdate data labels [] s j).biases ≤
          2 * R2 * align U ub (sampleStep SimpleWeightUpdate data labels [] s j).weights
            (sampleStep SimpleWeightUpdate data labels [] s j).biases := by
        have e1 := mul_le_mul_of_nonneg_left hf hg
        have e2 := mul_le_mul_of_nonneg_left ha (mul_nonneg (by norm_num : (0 : ℚ) ≤ 2) hR0)
        linarith
      obtain ⟨i1, i2, _⟩ := ih (sampleStep SimpleWeightUpdate data labels [] s j) hQ1
      refine ⟨i1, by linarith, ?_⟩
      intro _ _
      linarith

/-- Invariants of one pass. -/
lemma pass_progress {d n k : ℕ} (U : Mat d k) (ub : Vec k) (g R2 : ℚ)
    (hg : 0 ≤ g) (hR0 : 0 ≤ R2) (data : Mat d n) (labels : Fin n → ℕ)
    (hsep : SeparatedBy U ub data labels g) (hlab : ∀ j, labels j < k)
    (hR2 : ∀ j, sqNorm (col data j) + 1 ≤ R2) (s : TrainState d k)
    (hQ : g * frobSq s.weights s.biases ≤ 2 * R2 * align U ub s.weights s.biases) :
    g * frobSq (pass SimpleWeightUpdate data labels [] s).weights
          (pass SimpleWeightUpdate data labels [] s).biases ≤
        2 * R2 * align U ub (pass SimpleWeightUpdate data labels [] s).weights
          (pass SimpleWeightUpdate data labels [] s).biases ∧
      align U ub s.weights s.biases ≤
        align U ub (pass SimpleWeightUpdate data labels [] s).weights
          (pass SimpleWeightUpdate data labels [] s).biases ∧
      ((pass SimpleWeightUpdate data labels [] s).converged = false →
        align U ub s.weights s.biases + g ≤
          align U ub (pass SimpleWeightUpdate data labels [] s).weights
            (pass SimpleWeightUpdate data labels [] s).biases) := by
  obtain ⟨h1, h2, h3⟩ := foldl_sampleStep_progress U ub g R2 hg hR0 data labels hsep hlab hR2
    (List.finRange n)
    { weights := s.weights, biases := s.biases, i := s.i + 1, converged := true } hQ
  exact ⟨h1, h2, h3 rfl⟩

/-- Invariants of the training loop: besides the norm bound, the inner product
with `U` is at least `g` times the number of passes that made a mistake. -/
lemma trainLoop_progress {d n k : ℕ} (U : Mat d k) (ub : Vec k) (g R2 : ℚ)
    (hg : 0 ≤ g) (hR0 : 0 ≤ R2) (iter : ℕ) (data : Mat d n) (labels : Fin n → ℕ)
    (hsep : SeparatedBy U ub data labels g) (hlab : ∀ j, labels j < k)
    (hR2 : ∀ j, sqNorm (col data j) + 1 ≤ R2) (fuel : ℕ) (s : TrainState d k)
    (hQ : g * frobSq s.weights s.biases ≤ 2 * R2 * align U ub s.weights s.biases)
    (hN : g * ((s.i : ℚ) - (if s.converged = true then 1 else 0)) ≤
      align U ub s.weights s.biases) :
    g * frobSq (trainLoop SimpleWeightUpdate iter data labels [] fuel s).weights
          (trainLoop SimpleWeightUpdate iter data labels [] fuel s).biases ≤
        2 * R2 * align U ub (trainLoop SimpleWeightUpdate iter data labels [] fuel s).weights
          (trainLoop SimpleWeightUpdate iter data labels [] fuel s).biases ∧
      g * (((trainLoop SimpleWeightUpdate iter data labels [] fuel s).i : ℚ) -
          (if (trainLoop SimpleWeightUpdate iter data labels [] fuel s).converged = true
            then 1 else 0)) ≤
        align U ub (trainLoop SimpleWeightUpdate iter data labels [] fuel s).weights
          (trainLoop SimpleWeightUpdate iter data labels [] fuel s).biases := by
  induction fuel generalizing s with
  | zero => exact ⟨hQ, hN⟩
  | succ fuel ih =>
    by_cases hc : s.i < iter ∧ s.converged = false
    · rw [trainLoop_succ_run SimpleWeightUpdate iter data labels [] fuel s hc]
      obtain ⟨p1, p2, p3⟩ := pass_progress U ub g R2 hg hR0 data labels hsep hlab hR2 s hQ
      apply ih _ p1
      rw [pass_i]
      rw [hc.2] at hN
      simp only [Bool.false_eq_true, if_false, sub_zero] at hN
      push_cast
      by_cases hcv : (pass SimpleWeightUpdate data labels [] s).converged = true
      · rw [if_pos hcv]
        linarith
      · rw [if_neg hcv]
        have := p3 (by simpa using hcv)
        linarith
    · rw [trainLoop_succ_stop SimpleWeightUpdate iter data labels [] fuel s hc]
      exact ⟨hQ, hN⟩

/-- Arithmetic core of the mistake bound. -/
lemma mistake_bound_arith (g R2 P A F m : ℚ) (hg : 0 < g) (hR0 : 0 ≤ R2) (hP : 0 ≤ P)
    (hcs : A ^ 2 ≤ P * F) (hQ : g * F ≤ 2 * R2 * A) (hm : g * m ≤ A) :
    g ^ 2 * m ≤ 2 * R2 * P := by
  rcases le_or_lt m 0 with hm0 | hm0
  · have h1 : g ^ 2 * m ≤ 0 := mul_nonpos_of_nonneg_of_nonpos (sq_nonneg g) hm0
    have h2 : 0 ≤ 2 * R2 * P := mul_nonneg (mul_nonneg (by norm_num) hR0) hP
    linarith
  · have hA : 0 < A := lt_of_lt_of_le (mul_pos hg hm0) hm
    have h1 : g * A * A ≤ 2 * R2 * P * A := by
      have e1 : g * A ^ 2 ≤ g * (P * F) := mul_le_mul_of_nonneg_left hcs (le_of_lt hg)
      have e2 : P * (g * F) ≤ P * (2 * R2 * A) := mul_le_mul_of_nonneg_left hQ hP
      nlinarith
    have h2 : g * A ≤ 2 * R2 * P := le_of_mul_le_mul_right h1 hA
    have h3 : g * (g * m) ≤ g * A := mul_le_mul_of_nonneg_left hm (le_of_lt hg)
    nlinarith

/-- Mistake bound for `Train` from zero weights without a cost vector: the
number of passes that made a mistake, times `g^2`, is at most `2 * R2 * |U|^2`. -/
lemma Train_mistake_bound {d n k : ℕ} (U : Mat d k) (ub : Vec k) (g R2 : ℚ)
    (hg : 0 < g) (hR0 : 0 ≤ R2) (iter : ℕ) (data : Mat d n) (labels : Fin n → ℕ)
    (hsep : SeparatedBy U ub data labels g) (hlab : ∀ j, labels j < k)
    (hR2 : ∀ j, sqNorm (col data j) + 1 ≤ R2) :
    g ^ 2 * (((Train SimpleWeightUpdate iter (0 : Mat d k) (0 : Vec k) data labels []).i : ℚ) -
        (if (Train SimpleWeightUpdate iter (0 : Mat d k) (0 : Vec k) data labels
          []).converged = true then 1 else 0)) ≤ 2 * R2 * frobSq U ub := by
  have h0a : align U ub (0 : Mat d k) (0 : Vec k) = 0 := by simp [align]
  have h0f : frobSq (0 : Mat d k) (0 : Vec k) = 0 := by simp [frobSq]
  obtain ⟨hQ, hN⟩ := trainLoop_progress U ub g R2 (le_of_lt hg) hR0 iter data labels hsep hlab
    hR2 iter { weights := 0, biases := 0, i := 0, converged := false }
    (by simp only [h0a, h0f]; simp) (by simp only [h0a]; simp)
  exact mistake_bound_arith g R2 (frobSq U ub) _ _ _ hg hR0 (frobSq_nonneg U ub)
    (align_sq_le U ub _ _) hQ hN

lemma label_lt_maxLabel_succ {n : ℕ} (labels : Fin n → ℕ) (j : Fin n) :
    labels j < maxLabel labels + 1 :=
  Nat.lt_succ_of_le (Finset.le_sup (f := labels) (Finset.mem_univ j))

lemma radiusSq_bound {d n : ℕ} (data : Mat d n) (j : Fin n) :
    sqNorm (col data j) + 1 ≤ radiusSq data := by
  unfold radiusSq
  linarith [sqNorm_le_maxSqNorm data j]

lemma radiusSq_nonneg {d n : ℕ} (data : Mat d n) : 0 ≤ radiusSq data := by
  unfold radiusSq
  linarith [maxSqNorm_nonneg data]

/-- Strict separation of finitely many samples is separation with a positive
margin. -/
lemma exists_margin {d n k : ℕ} (U : Mat d k) (ub : Vec k) (data : Mat d n)
    (labels : Fin n → ℕ)
    (hsep : ∀ (j : Fin n) (y c : Fin k), y.val = labels j → c ≠ y →
      activation U ub (col data j) c < activation U ub (col data j) y) :
    ∃ g : ℚ, 0 < g ∧ SeparatedBy U ub data labels g := by
  by_cases hne : Nonempty (Fin n × Fin k)
  · let m : Fin n × Fin k → ℚ := fun jc =>
      if h : labels jc.1 < k then
        (if jc.2.val = labels jc.1 then 1
          else activation U ub (col data jc.1) ⟨labels jc.1, h⟩ -
            activation U ub (col data jc.1) jc.2)
      else 1
    have hpos : ∀ jc, 0 < m jc := by
      intro jc
      simp only [m]
      split_ifs with h1 h2
      · exact one_pos
      · have := hsep jc.1 ⟨labels jc.1, h1⟩ jc.2 rfl
          (fun e => h2 (congrArg Fin.val e))
        linarith
      · exact one_pos
    obtain ⟨x0, hx0⟩ := Finite.exists_min m
    refine ⟨m x0, hpos x0, ?_⟩
    intro j y c hy hc
    have h1 : labels j < k := hy ▸ y.isLt
    have h2 : ¬ c.val = labels j := fun e => hc (Fin.ext (e.trans hy.symm))
    have h3 := hx0 (j, c)
    have h4 : m (j, c) = activation U ub (col data j) ⟨labels j, h1⟩ -
        activation U ub (col data j) c := by
      simp only [m, h1, h2, dif_pos, if_false]
    have h5 : y = ⟨labels j, h1⟩ := Fin.ext hy
    rw [h4, ← h5] at h3
    linarith
  · refine ⟨1, one_pos, ?_⟩
    intro j y c _ _
    exact absurd ⟨(j, c)⟩ hne

/-! ## Classification as a loop -/

/-- The classification loop over a list of column indices keeps the instance,
overwrites the visited entries with their predicted class and leaves the
other entries of the output row alone. -/
lemma foldl_classifyStep {d m : ℕ} (test : Mat d m) (is : List (Fin m))
    (s : ClassifyState d m) :
    (is.foldl (classifyStep test) s).self = s.self ∧
      ∀ i, (is.foldl (classifyStep test) s).predictedLabels i =
        if i ∈ is then maxIndex (activation s.self.weights s.self.biases (col test i))
        else s.predictedLabels i := by
  induction is generalizing s with
  | nil => exact ⟨rfl, fun i => by simp⟩
  | cons i0 is ih =>
    rw [List.foldl_cons]
    obtain ⟨h1, h2⟩ := ih (classifyStep test s i0)
    refine ⟨h1, ?_⟩
    intro i
    rw [h2 i]
    by_cases hi : i ∈ is
    · simp [hi, classifyStep]
    · by_cases he : i = i0
      · subst he
        simp [hi, classifyStep]
      · simp [hi, he, classifyStep]

lemma col_joinCols_left {d m1 m2 : ℕ} (A : Mat d m1) (B : Mat d m2) (i : Fin m1) :
    col (joinCols A B) (Fin.castAdd m2 i) = col A i := by
  funext f
  simp [col, joinCols]

lemma col_joinCols_right {d m1 m2 : ℕ} (A : Mat d m1) (B : Mat d m2) (i : Fin m2) :
    col (joinCols A B) (Fin.natAdd m1 i) = col B i := by
  funext f
  simp [col, joinCols]

/-- C11: `Classify`, run as the loop over the test columns, returns the instance
(weights, biases and iteration budget) exactly as it was and fills the output
row, whatever it held before, with the labels `Classify p test`; the label at
position `i` is the label of the one-column matrix holding column `i`; and
classifying the column-wise concatenation of two test matrices gives the
concatenation of the two separate results. -/
theorem classify_read_only_column_independent {d m m2 : ℕ} (p : Perceptron d)
    (test : Mat d m) (test2 : Mat d m2) (predictedLabels : Fin m → ℕ) :
    (ClassifyInPlace p test predictedLabels).self = p ∧
      (ClassifyInPlace p test predictedLabels).predictedLabels = Classify p test ∧
      (∀ i, Classify p test i = Classify p (singleCol test i) 0) ∧
      Classify p (joinCols test test2) = Fin.append (Classify p test) (Classify p test2) := by
  refine ⟨?_, ?_, ?_, ?_⟩
  · exact (foldl_classifyStep test (List.finRange m) _).1
  · funext i
    unfold ClassifyInPlace
    rw [(foldl_classifyStep test (List.finRange m) _).2 i]
    simp [Classify]
  · intro i
    rfl
  · funext i
    refine Fin.addCases (fun i1 => ?_) (fun i2 => ?_) i
    · rw [Fin.append_left]
      unfold Classify
      rw [col_joinCols_left]
    · rw [Fin.append_right]
      unfold Classify
      rw [col_joinCols_right]

/-! ## Passes, mismatches and the first clean pass -/

lemma foldl_countStep_fst (LP : LearnPolicy) {d n k : ℕ} (data : Mat d n)
    (labels : Fin n → ℕ) (D : List ℚ) (js : List (Fin n)) (a : TrainState d k × ℕ) :
    (js.foldl (countStep LP data labels D) a).1 = js.foldl (sampleStep LP data labels D) a.1 := by
  induction js generalizing a with
  | nil => rfl
  | cons j js ih =>
    rw [List.foldl_cons, List.foldl_cons, ih]
    rfl

lemma foldl_countStep_ge (LP : LearnPolicy) {d n k : ℕ} (data : Mat d n)
    (labels : Fin n → ℕ) (D : List ℚ) (js : List (Fin n)) (a : TrainState d k × ℕ) :
    a.2 ≤ (js.foldl (countStep LP data labels D) a).2 := by
  induction js generalizing a with
  | nil => exact le_rfl
  | cons j js ih =>
    rw [List.foldl_cons]
    refine le_trans ?_ (ih _)
    unfold countStep
    simp only
    split_ifs <;> omega

/-- The flag at the end of a run over samples is set exactly when it was set at
the start and no mismatch was counted. -/
lemma foldl_countStep_flag (LP : LearnPolicy) {d n k : ℕ} (data : Mat d n)
    (labels : Fin n → ℕ) (D : List ℚ) (js : List (Fin n)) (a : TrainState d k × ℕ) :
    (js.foldl (sampleStep LP data labels D) a.1).converged = true ↔
      a.1.converged = true ∧ (js.foldl (countStep LP data labels D) a).2 = a.2 := by
  induction js generalizing a with
  | nil => simp
  | cons j js ih =>
    rw [List.foldl_cons, List.foldl_cons]
    have hstep := ih (countStep LP data labels D a j)
    have hfst : (countStep LP data labels D a j).1 = sampleStep LP data labels D a.1 j := rfl
    rw [hfst] at hstep
    rw [hstep]
    have hge := foldl_countStep_ge LP data labels D js (countStep LP data labels D a j)
    by_cases hp : maxIndex (activation a.1.weights a.1.biases (col data j)) = labels j
    · have h2 : (countStep LP data labels D a j).2 = a.2 := by
        simp [countStep, maxIndexRowCol_fst, hp]
      rw [sampleStep_correct LP data labels D a.1 j hp, h2]
    · have h2 : (countStep LP data labels D a j).2 = a.2 + 1 := by
        simp [countStep, maxIndexRowCol_fst, hp]
      rw [sampleStep_wrong LP data labels D a.1 j hp]
      rw [h2] at hge
      constructor
      · intro h
        exact absurd h.1 (by simp)
      · intro h
        omega

/-- A pass ends with the flag set exactly when it had zero mismatches. -/
lemma pass_converged_iff (LP : LearnPolicy) {d n k : ℕ} (data : Mat d n)
    (labels : Fin n → ℕ) (D : List ℚ) (s : TrainState d k) :
    (pass LP data labels D s).converged = true ↔ mismatches LP data labels D s = 0 := by
  unfold pass mismatches
  have h := foldl_countStep_flag LP data labels D (List.finRange n)
    (({ weights := s.weights, biases := s.biases, i := s.i + 1, converged := true } :
      TrainState d k), 0)
  simp only [true_and] at h
  exact h

lemma passes_i (LP : LearnPolicy) {d n k : ℕ} (data : Mat d n) (labels : Fin n → ℕ)
    (D : List ℚ) (s : TrainState d k) (t : ℕ) :
    (passes LP data labels D s t).i = s.i + t := by
  induction t with
  | zero => rfl
  | succ t ih =>
    rw [passes, pass_i, ih]
    omega

/-- A state whose flag is set is returned by the loop as it is. -/
lemma trainLoop_of_converged (LP : LearnPolicy) {d n k : ℕ} (iter : ℕ) (data : Mat d n)
    (labels : Fin n → ℕ) (D : List ℚ) (fuel : ℕ) (s : TrainState d k)
    (h : s.converged = true) : trainLoop LP iter data labels D fuel s = s := by
  cases fuel with
  | zero => rfl
  | succ fuel =>
    apply trainLoop_succ_stop
    intro hc
    rw [h] at hc
    exact absurd hc.2 (by simp)

/-- While the passes leave the flag cleared and the budget lasts, the loop runs
them one after the other. -/
lemma trainLoop_unclean_run (LP : LearnPolicy) {d n k : ℕ} (iter : ℕ) (data : Mat d n)
    (labels : Fin n → ℕ) (D : List ℚ) (fuel : ℕ) (s : TrainState d k) (t : ℕ)
    (hs : s.converged = false) (hfuel : t ≤ fuel) (hiter : s.i + t ≤ iter)
    (hun : ∀ t2, t2 < t → (passes LP data labels D s (t2 + 1)).converged = false) :
    trainLoop LP iter data labels D fuel s =
      trainLoop LP iter data labels D (fuel - t) (passes LP data labels D s t) := by
  induction t with
  | zero => rfl
  | succ t ih =>
    rw [ih (by omega) (by omega) (fun t2 h2 => hun t2 (by omega))]
    have hflag : (passes LP data labels D s t).converged = false := by
      cases t with
      | zero => exact hs
      | succ t0 => exact hun t0 (by omega)
    have hfu : fuel - t = (fuel - (t + 1)) + 1 := by omega
    rw [hfu, trainLoop_succ_run LP iter data labels D _ _ ⟨by rw [passes_i]; omega, hflag⟩]
    rfl

/-- If pass `t + 1` is the first to end with the flag set and `t + 1` is within
the budget, `Train` returns the state after exactly `t + 1` passes. -/
lemma Train_first_clean (LP : LearnPolicy) {d n k : ℕ} (iter : ℕ) (weights : Mat d k)
    (biases : Vec k) (data : Mat d n) (labels : Fin n → ℕ) (D : List ℚ) (t : ℕ)
    (ht : t < iter)
    (hclean : (passes LP data labels D
      { weights := weights, biases := biases, i := 0, converged := false }
      (t + 1)).converged = true)
    (hun : ∀ t2, t2 < t → (passes LP data labels D
      { weights := weights, biases := biases, i := 0, converged := false }
      (t2 + 1)).converged = false) :
    Train LP iter weights biases data labels D =
      passes LP data labels D
        { weights := weights, biases := biases, i := 0, converged := false } (t + 1) := by
  unfold Train
  rw [trainLoop_unclean_run LP iter data labels D iter _ t rfl (by omega)
    (by simp; omega) hun]
  have hflag : (passes LP data labels D
      ({ weights := weights, biases := biases, i := 0, converged := false } : TrainState d k)
      t).converged = false := by
    cases t with
    | zero => rfl
    | succ t0 => exact hun t0 (by omega)
  have hfu : iter - t = (iter - (t + 1)) + 1 := by omega
  rw [hfu, trainLoop_succ_run LP iter data labels D _ _ ⟨by rw [passes_i]; simp; omega, hflag⟩]
  exact trainLoop_of_converged LP iter data labels D _ _ hclean

/-- If no pass within the budget ends with the flag set, `Train` returns the
state after exactly `iter` passes. -/
lemma Train_all_unclean (LP : LearnPolicy) {d n k : ℕ} (iter : ℕ) (weights : Mat d k)
    (biases : Vec k) (data : Mat d n) (labels : Fin n → ℕ) (D : List ℚ)
    (hun : ∀ t, t < iter → (passes LP data labels D
      { weights := weights, biases := biases, i := 0, converged := false }
      (t + 1)).converged = false) :
    Train LP iter weights biases data labels D =
      passes LP data labels D
        { weights := weights, biases := biases, i := 0, converged := false } iter := by
  unfold Train
  rw [trainLoop_unclean_run LP iter data labels D iter _ iter rfl le_rfl (by simp) hun]
  simp [trainLoop]

/-- A pass with a mismatch ends with the flag cleared. -/
lemma passes_succ_unclean (LP : LearnPolicy) {d n k : ℕ} (data : Mat d n)
    (labels : Fin n → ℕ) (D : List ℚ) (s : TrainState d k) (t : ℕ)
    (h : mismatches LP data labels D (passes LP data labels D s t) ≠ 0) :
    (passes LP data labels D s (t + 1)).converged = false := by
  by_contra hc
  apply h
  apply (pass_converged_iff LP data labels D _).mp
  simpa [passes] using hc

/-- C13: let pass number `t + 1` be the pass run on the state reached after `t`
passes from the initial weights and biases.  If pass `t + 1` is within the
budget `B`, has zero mismatches and is the first such pass, then `Train`
performs exactly `t + 1` passes (it returns the state after pass `t + 1`, its
counter is `t + 1`) and ends Converged; if every pass within the budget has a
mismatch, `Train` performs exactly `B` passes and ends with the flag
cleared. -/
theorem train_stops_at_first_clean_pass (LP : LearnPolicy) {d n k : ℕ} (B : ℕ)
    (weights : Mat d k) (biases : Vec k) (data : Mat d n) (labels : Fin n → ℕ) (D : List ℚ) :
    (∀ t, t < B →
        mismatches LP data labels D (passes LP data labels D
          { weights := weights, biases := biases, i := 0, converged := false } t) = 0 →
        (∀ t2, t2 < t → mismatches LP data labels D (passes LP data labels D
          { weights := weights, biases := biases, i := 0, converged := false } t2) ≠ 0) →
        Train LP B weights biases data labels D = passes LP data labels D
            { weights := weights, biases := biases, i := 0, converged := false } (t + 1) ∧
          (Train LP B weights biases data labels D).i = t + 1 ∧
          (Train LP B weights biases data labels D).converged = true) ∧
      ((∀ t, t < B → mismatches LP data labels D (passes LP data labels D
          { weights := weights, biases := biases, i := 0, converged := false } t) ≠ 0) →
        Train LP B weights biases data labels D = passes LP data labels D
            { weights := weights, biases := biases, i := 0, converged := false } B ∧
          (Train LP B weights biases data labels D).i = B ∧
          (Train LP B weights biases data labels D).converged = false) := by
  constructor
  · intro t ht hclean hfirst
    have hc : (passes LP data labels D
        ({ weights := weights, biases := biases, i := 0, converged := false } : TrainState d k)
        (t + 1)).converged = true := (pass_converged_iff LP data labels D _).mpr hclean
    have hu : ∀ t2, t2 < t → (passes LP data labels D
        ({ weights := weights, biases := biases, i := 0, converged := false } : TrainState d k)
        (t2 + 1)).converged = false := by
      intro t2 h2
      exact passes_succ_unclean LP data labels D _ t2 (hfirst t2 h2)
    have e := Train_first_clean LP B weights biases data labels D t ht hc hu
    rw [e]
    refine ⟨rfl, ?_, hc⟩
    rw [passes_i]
    simp
  · intro hall
    have hu : ∀ t, t < B → (passes LP data labels D
        ({ weights := weights, biases := biases, i := 0, converged := false } : TrainState d k)
        (t + 1)).converged = false := by
      intro t ht
      exact passes_succ_unclean LP data labels D _ t (hall t ht)
    have e := Train_all_unclean LP B weights biases data labels D hu
    rw [e]
    refine ⟨rfl, ?_, ?_⟩
    · rw [passes_i]
      simp
    · cases B with
      | zero => rfl
      | succ B0 => exact hu B0 (by omega)

/-- Witness for C13 on the example scenario: passes 1 to 4 have a mismatch,
pass 5 has none, the budget is 10. -/
theorem train_stops_at_first_clean_pass_witness :
    Train SimpleWeightUpdate 10 (0 : Mat 2 2) (0 : Vec 2) exampleData exampleLabels [] =
        passes SimpleWeightUpdate exampleData exampleLabels []
          { weights := 0, biases := 0, i := 0, converged := false } 5 ∧
      (Train SimpleWeightUpdate 10 (0 : Mat 2 2) (0 : Vec 2) exampleData exampleLabels
        []).i = 5 ∧
      (Train SimpleWeightUpdate 10 (0 : Mat 2 2) (0 : Vec 2) exampleData exampleLabels
        []).converged = true :=
  (train_stops_at_first_clean_pass SimpleWeightUpdate 10 (0 : Mat 2 2) (0 : Vec 2) exampleData
    exampleLabels []).1 4 (by decide) (by decide!) (by decide!)

/-- C16: if training with budget `n0` ends in the Converged state, then
training from the same initial weights and biases with any budget `m0 ≥ n0`
ends in the Converged state with the same weights, the same biases and the
same number of passes. -/
theorem raising_budget_past_convergence (LP : LearnPolicy) {d n k : ℕ} (n0 m0 : ℕ)
    (hle : n0 ≤ m0) (weights : Mat d k) (biases : Vec k) (data : Mat d n)
    (labels : Fin n → ℕ) (D : List ℚ)
    (hconv : (Train LP n0 weights biases data labels D).converged = true) :
    (Train LP m0 weights biases data labels D).converged = true ∧
      (Train LP m0 weights biases data labels D).weights =
        (Train LP n0 weights biases data labels D).weights ∧
      (Train LP m0 weights biases data labels D).biases =
        (Train LP n0 weights biases data labels D).biases ∧
      (Train LP m0 weights biases data labels D).i =
        (Train LP n0 weights biases data labels D).i := by
  by_cases hex : ∃ t, t < n0 ∧ (passes LP data labels D
      ({ weights := weights, biases := biases, i := 0, converged := false } : TrainState d k)
      (t + 1)).converged = true
  · have hspec := Nat.find_spec hex
    have hmin : ∀ t2, t2 < Nat.find hex → (passes LP data labels D
        ({ weights := weights, biases := biases, i := 0, converged := false } : TrainState d k)
        (t2 + 1)).converged = false := by
      intro t2 h2
      have h3 := Nat.find_min hex h2
      have h4 : t2 < n0 := lt_trans h2 hspec.1
      simpa [h4] using h3
    have e1 := Train_first_clean LP n0 weights biases data labels D (Nat.find hex) hspec.1
      hspec.2 hmin
    have e2 := Train_first_clean LP m0 weights biases data labels D (Nat.find hex)
      (lt_of_lt_of_le hspec.1 hle) hspec.2 hmin
    rw [e2, e1]
    exact ⟨hspec.2, rfl, rfl, rfl⟩
  · have hu : ∀ t, t < n0 → (passes LP data labels D
        ({ weights := weights, biases := biases, i := 0, converged := false } : TrainState d k)
        (t + 1)).converged = false := by
      intro t ht
      by_contra hc
      exact hex ⟨t, ht, by simpa using hc⟩
    have e := Train_all_unclean LP n0 weights biases data labels D hu
    rw [e] at hconv
    exfalso
    cases n0 with
    | zero => exact absurd hconv (by simp [passes])
    | succ n1 =>
      rw [hu n1 (by omega)] at hconv
      exact absurd hconv (by simp)

/-- Witness for C16 on the example scenario: budgets 5 and 10. -/
theorem raising_budget_past_convergence_witness :
    (Train SimpleWeightUpdate 10 (0 : Mat 2 2) (0 : Vec 2) exampleData exampleLabels
        []).converged = true ∧
      (Train SimpleWeightUpdate 10 (0 : Mat 2 2) (0 : Vec 2) exampleData exampleLabels
        []).weights =
        (Train SimpleWeightUpdate 5 (0 : Mat 2 2) (0 : Vec 2) exampleData exampleLabels
          []).weights ∧
      (Train SimpleWeightUpdate 10 (0 : Mat 2 2) (0 : Vec 2) exampleData exampleLabels
        []).biases =
        (Train SimpleWeightUpdate 5 (0 : Mat 2 2) (0 : Vec 2) exampleData exampleLabels
          []).biases ∧
      (Train SimpleWeightUpdate 10 (0 : Mat 2 2) (0 : Vec 2) exampleData exampleLabels []).i =
        (Train SimpleWeightUpdate 5 (0 : Mat 2 2) (0 : Vec 2) exampleData exampleLabels []).i :=
  raising_budget_past_convergence SimpleWeightUpdate 5 10 (by decide) (0 : Mat 2 2)
    (0 : Vec 2) exampleData exampleLabels [] (by decide!)

/-- C14: for every update strategy, a sample whose predicted class equals its
label leaves the whole state unchanged; a sample whose predicted class differs
gets exactly one update, the weighted form with cost `D(j)` when the cost
vector is non-empty and the unweighted form when it is empty; and a pass with
zero mismatches returns the weights and biases it started from. -/
theorem updates_only_on_mistakes (LP : LearnPolicy) {d n k : ℕ} (data : Mat d n)
    (labels : Fin n → ℕ) (D : List ℚ) (s : TrainState d k) (j : Fin n) :
    ((maxIndexRowCol (activation s.weights s.biases (col data j))).1 = labels j →
        sampleStep LP data labels D s j = s) ∧
      ((maxIndexRowCol (activation s.weights s.biases (col data j))).1 ≠ labels j →
        0 < D.length →
        sampleStep LP data labels D s j =
          { weights := (LP.UpdateWeightsCost (col data j) s.weights s.biases
              (maxIndexRowCol (activation s.weights s.biases (col data j))).1 (labels j)
              (costAt D j.val)).1
            biases := (LP.UpdateWeightsCost (col data j) s.weights s.biases
              (maxIndexRowCol (activation s.weights s.biases (col data j))).1 (labels j)
              (costAt D j.val)).2
            i := s.i
            converged := false }) ∧
      ((maxIndexRowCol (activation s.weights s.biases (col data j))).1 ≠ labels j →
        D.length = 0 →
        sampleStep LP data labels D s j =
          { weights := (LP.UpdateWeights (col data j) s.weights s.biases
              (maxIndexRowCol (activation s.weights s.biases (col data j))).1 (labels j)).1
            biases := (LP.UpdateWeights (col data j) s.weights s.biases
              (maxIndexRowCol (activation s.weights s.biases (col data j))).1 (labels j)).2
            i := s.i
            converged := false }) ∧
      (mismatches LP data labels D s = 0 →
        (pass LP data labels D s).weights = s.weights ∧
          (pass LP data labels D s).biases = s.biases) := by
  refine ⟨?_, ?_, ?_, ?_⟩
  · intro h
    unfold sampleStep
    simp only [h, ne_eq, not_true_eq_false, if_false]
  · intro h hD
    unfold sampleStep
    simp only [ne_eq, h, not_false_eq_true, if_true, hD]
  · intro h hD
    unfold sampleStep
    simp only [ne_eq, h, not_false_eq_true, if_true, hD, lt_irrefl, if_false]
  · intro h
    have hc := (pass_converged_iff LP data labels D s).mpr h
    obtain ⟨h1, h2, _⟩ := pass_converged LP data labels D s hc
    exact ⟨h1, h2⟩

/-- Witness for C14: on the example scenario with zero weights the first sample
is predicted as labelled and the step returns the state it was given. -/
theorem updates_only_on_mistakes_witness :
    sampleStep SimpleWeightUpdate exampleData exampleLabels []
        ({ weights := 0, biases := 0, i := 1, converged := true } : TrainState 2 2) 0 =
      { weights := 0, biases := 0, i := 1, converged := true } :=
  (updates_only_on_mistakes SimpleWeightUpdate exampleData exampleLabels []
    ({ weights := 0, biases := 0, i := 1, converged := true } : TrainState 2 2) 0).1
    (by decide!)

/-! ## Empty cost vector, class sums -/

/-- With an empty cost vector the step for a sample does not consult the
weighted form of the update strategy. -/
lemma sampleStep_nil_weighted_irrelevant (LP : LearnPolicy)
    (f : {d k : ℕ} → Vec d → Mat d k → Vec k → ℕ → ℕ → ℚ → Mat d k × Vec k)
    {d n k : ℕ} (data : Mat d n) (labels : Fin n → ℕ) :
    sampleStep (k := k) { UpdateWeights := LP.UpdateWeights, UpdateWeightsCost := f } data
        labels [] =
      sampleStep LP data labels [] := by
  funext s j
  unfold sampleStep
  simp only [List.length_nil, lt_irrefl, if_false]

lemma trainLoop_nil_weighted_irrelevant (LP : LearnPolicy)
    (f : {d k : ℕ} → Vec d → Mat d k → Vec k → ℕ → ℕ → ℚ → Mat d k × Vec k)
    {d n k : ℕ} (iter : ℕ) (data : Mat d n) (labels : Fin n → ℕ) (fuel : ℕ)
    (s : TrainState d k) :
    trainLoop { UpdateWeights := LP.UpdateWeights, UpdateWeightsCost := f } iter data labels
        [] fuel s =
      trainLoop LP iter data labels [] fuel s := by
  induction fuel generalizing s with
  | zero => rfl
  | succ fuel ih =>
    rw [trainLoop, trainLoop]
    have hp : pass { UpdateWeights := LP.UpdateWeights, UpdateWeightsCost := f } data labels []
        s = pass LP data labels [] s := by
      unfold pass
      rw [sampleStep_nil_weighted_irrelevant]
    rw [hp, ih]

/-- C17: the boosting constructor called with a cost vector of zero elements
produces the same instance (weights, biases and iteration budget) as
`Perceptron(data, labels, other.iter)`; with the empty cost vector a
mispredicted sample is updated by the unweighted form, and replacing the
weighted form of the update strategy by any other function changes nothing,
so the weighted form is not used. -/
theorem empty_cost_vector_is_unweighted (LP : LearnPolicy)
    (WIP : WeightInitializationPolicy)
    (f : {d k : ℕ} → Vec d → Mat d k → Vec k → ℕ → ℕ → ℚ → Mat d k × Vec k)
    {d0 d n : ℕ} (other : Perceptron d0) (data : Mat d n) (labels : Fin n → ℕ) :
    Perceptron.boost LP WIP other data [] labels =
        Perceptron.fresh LP WIP data labels other.iter ∧
      Perceptron.boost { UpdateWeights := LP.UpdateWeights, UpdateWeightsCost := f } WIP other
          data [] labels =
        Perceptron.fresh LP WIP data labels other.iter ∧
      ∀ (k : ℕ) (s : TrainState d k) (j : Fin n),
        sampleStep LP data labels [] s j =
          if (maxIndexRowCol (activation s.weights s.biases (col data j))).1 ≠ labels j then
            { weights := (LP.UpdateWeights (col data j) s.weights s.biases
                (maxIndexRowCol (activation s.weights s.biases (col data j))).1 (labels j)).1
              biases := (LP.UpdateWeights (col data j) s.weights s.biases
                (maxIndexRowCol (activation s.weights s.biases (col data j))).1 (labels j)).2
              i := s.i
              converged := false }
          else s := by
  refine ⟨rfl, ?_, ?_⟩
  · unfold Perceptron.boost Perceptron.fresh freshRun Train
    simp only [trainLoop_nil_weighted_irrelevant]
  · intro k s j
    unfold sampleStep
    simp only [List.length_nil, lt_irrefl, if_false]

lemma sum_colSub {d k : ℕ} (W : Mat d k) (p : ℕ) (hp : p < k) (x : Vec d) (f : Fin d) :
    ∑ c, colSub W p x f c = ∑ c, W f c - x f := by
  have e : ∀ c : Fin k, colSub W p x f c =
      W f c - (if c = (⟨p, hp⟩ : Fin k) then x f else 0) := by
    intro c
    unfold colSub
    by_cases h : c.val = p
    · have hc : c = ⟨p, hp⟩ := Fin.ext h
      simp [h, hc]
    · have hc : c ≠ ⟨p, hp⟩ := fun e => h (congrArg Fin.val e)
      simp [h, hc]
  simp only [e, Finset.sum_sub_distrib, Finset.sum_ite_eq', Finset.mem_univ, if_true]

lemma sum_colAdd {d k : ℕ} (W : Mat d k) (p : ℕ) (hp : p < k) (x : Vec d) (f : Fin d) :
    ∑ c, colAdd W p x f c = ∑ c, W f c + x f := by
  have e : ∀ c : Fin k, colAdd W p x f c =
      W f c + (if c = (⟨p, hp⟩ : Fin k) then x f else 0) := by
    intro c
    unfold colAdd
    by_cases h : c.val = p
    · have hc : c = ⟨p, hp⟩ := Fin.ext h
      simp [h, hc]
    · have hc : c ≠ ⟨p, hp⟩ := fun e => h (congrArg Fin.val e)
      simp [h, hc]
  simp only [e, Finset.sum_add_distrib, Finset.sum_ite_eq', Finset.mem_univ, if_true]

lemma sum_entrySub {k : ℕ} (b : Vec k) (p : ℕ) (hp : p < k) (t : ℚ) :
    ∑ c, entrySub b p t c = ∑ c, b c - t := by
  have e : ∀ c : Fin k, entrySub b p t c =
      b c - (if c = (⟨p, hp⟩ : Fin k) then t else 0) := by
    intro c
    unfold entrySub
    by_cases h : c.val = p
    · have hc : c = ⟨p, hp⟩ := Fin.ext h
      simp [h, hc]
    · have hc : c ≠ ⟨p, hp⟩ := fun e => h (congrArg Fin.val e)
      simp [h, hc]
  simp only [e, Finset.sum_sub_distrib, Finset.sum_ite_eq', Finset.mem_univ, if_true]

lemma sum_entryAdd {k : ℕ} (b : Vec k) (p : ℕ) (hp : p < k) (t : ℚ) :
    ∑ c, entryAdd b p t c = ∑ c, b c + t := by
  have e : ∀ c : Fin k, entryAdd b p t c =
      b c + (if c = (⟨p, hp⟩ : Fin k) then t else 0) := by
    intro c
    unfold entryAdd
    by_cases h : c.val = p
    · have hc : c = ⟨p, hp⟩ := Fin.ext h
      simp [h, hc]
    · have hc : c ≠ ⟨p, hp⟩ := fun e => h (congrArg Fin.val e)
      simp [h, hc]
  simp only [e, Finset.sum_add_distrib, Finset.sum_ite_eq', Finset.mem_univ, if_true]

/-- Both forms of the canonical update keep the class sums when the two class
indices are in range. -/
lemma update_class_sums {d k : ℕ} (x : Vec d) (W : Mat d k) (b : Vec k) (p y : ℕ)
    (hp : p < k) (hy : y < k) (cost : ℚ) :
    (∀ f, ∑ c, (SimpleWeightUpdate.UpdateWeights x W b p y).1 f c = ∑ c, W f c) ∧
      ∑ c, (SimpleWeightUpdate.UpdateWeights x W b p y).2 c = ∑ c, b c ∧
      (∀ f, ∑ c, (SimpleWeightUpdate.UpdateWeightsCost x W b p y cost).1 f c = ∑ c, W f c) ∧
      ∑ c, (SimpleWeightUpdate.UpdateWeightsCost x W b p y cost).2 c = ∑ c, b c := by
  refine ⟨?_, ?_, ?_, ?_⟩
  · intro f
    simp only [SimpleWeightUpdate]
    rw [sum_colAdd _ y hy, sum_colSub _ p hp]
    ring
  · simp only [SimpleWeightUpdate]
    rw [sum_entryAdd _ y hy, sum_entrySub _ p hp]
    ring
  · intro f
    simp only [SimpleWeightUpdate]
    rw [sum_colAdd _ y hy, sum_colSub _ p hp]
    ring
  · simp only [SimpleWeightUpdate]
    rw [sum_entryAdd _ y hy, sum_entrySub _ p hp]
    ring

lemma sampleStep_class_sums {d n k : ℕ} (data : Mat d n) (labels : Fin n → ℕ) (D : List ℚ)
    (hlab : ∀ j, labels j < k) (s : TrainState d k) (j : Fin n) :
    (∀ f, ∑ c, (sampleStep SimpleWeightUpdate data labels D s j).weights f c =
        ∑ c, s.weights f c) ∧
      ∑ c, (sampleStep SimpleWeightUpdate data labels D s j).biases c = ∑ c, s.biases c := by
  have hk : 0 < k := lt_of_le_of_lt (Nat.zero_le _) (hlab j)
  have hp : (maxIndexRowCol (activation s.weights s.biases (col data j))).1 < k := by
    rw [maxIndexRowCol_fst]
    exact maxIndex_lt _ hk
  obtain ⟨h1, h2, h3, h4⟩ := update_class_sums (col data j) s.weights s.biases
    (maxIndexRowCol (activation s.weights s.biases (col data j))).1 (labels j) hp (hlab j)
    (costAt D j.val)
  unfold sampleStep
  simp only
  split_ifs
  · exact ⟨h3, h4⟩
  · exact ⟨h1, h2⟩
  · exact ⟨fun _ => rfl, rfl⟩

lemma foldl_sampleStep_class_sums {d n k : ℕ} (data : Mat d n) (labels : Fin n → ℕ)
    (D : List ℚ) (hlab : ∀ j, labels j < k) (js : List (Fin n)) (s : TrainState d k) :
    (∀ f, ∑ c, (js.foldl (sampleStep SimpleWeightUpdate data labels D) s).weights f c =
        ∑ c, s.weights f c) ∧
      ∑ c, (js.foldl (sampleStep SimpleWeightUpdate data labels D) s).biases c =
        ∑ c, s.biases c := by
  induction js generalizing s with
  | nil => exact ⟨fun _ => rfl, rfl⟩
  | cons j js ih =>
    rw [List.foldl_cons]
    obtain ⟨a1, a2⟩ := ih (sampleStep SimpleWeightUpdate data labels D s j)
    obtain ⟨b1, b2⟩ := sampleStep_class_sums data labels D hlab s j
    exact ⟨fun f => (a1 f).trans (b1 f), a2.trans b2⟩

lemma trainLoop_class_sums {d n k : ℕ} (iter : ℕ) (data : Mat d n) (labels : Fin n → ℕ)
    (D : List ℚ) (hlab : ∀ j, labels j < k) (fuel : ℕ) (s : TrainState d k) :
    (∀ f, ∑ c, (trainLoop SimpleWeightUpdate iter data labels D fuel s).weights f c =
        ∑ c, s.weights f c) ∧
      ∑ c, (trainLoop SimpleWeightUpdate iter data labels D fuel s).biases c =
        ∑ c, s.biases c := by
  induction fuel generalizing s with
  | zero => exact ⟨fun _ => rfl, rfl⟩
  | succ fuel ih =>
    by_cases hc : s.i < iter ∧ s.converged = false
    · rw [trainLoop_succ_run SimpleWeightUpdate iter data labels D fuel s hc]
      obtain ⟨a1, a2⟩ := ih (pass SimpleWeightUpdate data labels D s)
      obtain ⟨b1, b2⟩ := foldl_sampleStep_class_sums data labels D hlab (List.finRange n)
        { weights := s.weights, biases := s.biases, i := s.i + 1, converged := true }
      exact ⟨fun f => (a1 f).trans (b1 f), a2.trans b2⟩
    · rw [trainLoop_succ_stop SimpleWeightUpdate iter data labels D fuel s hc]
      exact ⟨fun _ => rfl, rfl⟩

/-! ## Range-checked execution -/

lemma colChecked_lt {r c : ℕ} (M : Mat r c) (j : Fin c) :
    colChecked M j.val = some (col M j) := by
  unfold colChecked
  simp [j.isLt]

lemma foldl_max_ge_start (ls : List ℕ) (a : ℕ) : a ≤ ls.foldl max a := by
  induction ls generalizing a with
  | nil => exact le_rfl
  | cons l ls ih =>
    rw [List.foldl_cons]
    exact le_trans (le_max_left _ _) (ih _)

lemma foldl_max_ge_of_mem (ls : List ℕ) (a x : ℕ) (hx : x ∈ ls) : x ≤ ls.foldl max a := by
  induction ls generalizing a with
  | nil => simp at hx
  | cons l ls ih =>
    rw [List.foldl_cons]
    rcases List.mem_cons.mp hx with e | e
    · rw [e]
      exact le_trans (le_max_right _ _) (foldl_max_ge_start ls _)
    · exact ih _ e

lemma foldl_max_le_bound (ls : List ℕ) (a ub : ℕ) (ha : a ≤ ub) (hls : ∀ x ∈ ls, x ≤ ub) :
    ls.foldl max a ≤ ub := by
  induction ls generalizing a with
  | nil => exact ha
  | cons l ls ih =>
    rw [List.foldl_cons]
    exact ih _ (max_le ha (hls l (List.mem_cons_self _ _)))
      (fun x hx => hls x (List.mem_cons_of_mem _ hx))

lemma labelsOf_mem (labels : List ℕ) (n : ℕ) (hlen : labels.length = n) (j : Fin n) :
    labelsOf labels n j ∈ labels := by
  unfold labelsOf
  rw [List.getD_eq_getElem _ _ (by rw [hlen]; exact j.isLt)]
  exact List.getElem_mem _

/-- On a non-empty row with one label per column the checked maximum is the
maximum used to size the weights. -/
lemma maxChecked_eq (labels : List ℕ) (n : ℕ) (hne : labels ≠ []) (hlen : labels.length = n) :
    maxChecked labels = some (maxLabel (labelsOf labels n)) := by
  cases labels with
  | nil => exact absurd rfl hne
  | cons l ls =>
    unfold maxChecked
    refine congrArg some ?_
    apply le_antisymm
    · apply foldl_max_le_bound
      · have h0 : 0 < n := by rw [← hlen]; simp
        have e : labelsOf (l :: ls) n ⟨0, h0⟩ = l := by simp [labelsOf]
        rw [← e]
        exact Finset.le_sup (f := labelsOf (l :: ls) n) (Finset.mem_univ _)
      · intro x hx
        obtain ⟨i, hi, hxi⟩ := List.getElem_of_mem hx
        have hin : i + 1 < n := by rw [← hlen]; simpa using hi
        have e : labelsOf (l :: ls) n ⟨i + 1, hin⟩ = x := by
          unfold labelsOf
          rw [List.getD_eq_getElem _ _ (by simpa using hi)]
          simpa using hxi
        rw [← e]
        exact Finset.le_sup (f := labelsOf (l :: ls) n) (Finset.mem_univ _)
    · apply Finset.sup_le
      intro j _
      have hm := labelsOf_mem (l :: ls) n hlen j
      rcases List.mem_cons.mp hm with e | e
      · rw [e]
        exact foldl_max_ge_start ls l
      · exact foldl_max_ge_of_mem ls l _ e

/-- Under the input contract the checked step for sample `j` succeeds and is
the unchecked step. -/
lemma sampleStepChecked_eq (LP : LearnPolicy) {d n k : ℕ} (data : Mat d n) (labels : List ℕ)
    (D : List ℚ) (hlen : labels.length = n) (hD : D = [] ∨ D.length = n)
    (hlab : ∀ j, labelsOf labels n j < k) (s : TrainState d k) (j : Fin n) :
    sampleStepChecked LP data labels D s j.val =
      some (sampleStep LP data (labelsOf labels n) D s j) := by
  have hk : 0 < k := lt_of_le_of_lt (Nat.zero_le _) (hlab j)
  have hj : j.val < labels.length := by rw [hlen]; exact j.isLt
  have hl : labels[j.val]? = some (labelsOf labels n j) := by
    rw [List.getElem?_eq_getElem hj]
    unfold labelsOf
    rw [List.getD_eq_getElem _ _ hj]
  have hp : (maxIndexRowCol (activation s.weights s.biases (col data j))).1 < k := by
    rw [maxIndexRowCol_fst]
    exact maxIndex_lt _ hk
  unfold sampleStepChecked sampleStep
  rw [colChecked_lt, hl]
  simp only [hp, if_true, hlab j]
  split_ifs with h1 h2
  · rcases hD with e | e
    · rw [e] at h2
      simp at h2
    · have hjD : j.val < D.length := by rw [e]; exact j.isLt
      rw [List.getElem?_eq_getElem hjD]
      simp only [costAt]
      rw [List.getD_eq_getElem _ _ hjD]
  · rfl
  · rfl

lemma samplesChecked_eq (LP : LearnPolicy) {d n k : ℕ} (data : Mat d n) (labels : List ℕ)
    (D : List ℚ) (hlen : labels.length = n) (hD : D = [] ∨ D.length = n)
    (hlab : ∀ j, labelsOf labels n j < k) (js : List (Fin n)) (s : TrainState d k) :
    samplesChecked LP data labels D (js.map Fin.val) s =
      some (js.foldl (sampleStep LP data (labelsOf labels n) D) s) := by
  induction js generalizing s with
  | nil => rfl
  | cons j js ih =>
    rw [List.map_cons, samplesChecked, sampleStepChecked_eq LP data labels D hlen hD hlab s j]
    simp only
    rw [ih, List.foldl_cons]

lemma passChecked_eq (LP : LearnPolicy) {d n k : ℕ} (data : Mat d n) (labels : List ℕ)
    (D : List ℚ) (hlen : labels.length = n) (hD : D = [] ∨ D.length = n)
    (hlab : ∀ j, labelsOf labels n j < k) (s : TrainState d k) :
    passChecked LP data labels D s = some (pass LP data (labelsOf labels n) D s) := by
  unfold passChecked pass
  rw [← List.map_coe_finRange n]
  exact samplesChecked_eq LP data labels D hlen hD hlab _ _

lemma trainLoopChecked_eq (LP : LearnPolicy) {d n k : ℕ} (iter : ℕ) (data : Mat d n)
    (labels : List ℕ) (D : List ℚ) (hlen : labels.length = n) (hD : D = [] ∨ D.length = n)
    (hlab : ∀ j, labelsOf labels n j < k) (fuel : ℕ) (s : TrainState d k) :
    trainLoopChecked LP iter data labels D fuel s =
      some (trainLoop LP iter data (labelsOf labels n) D fuel s) := by
  induction fuel generalizing s with
  | zero => rfl
  | succ fuel ih =>
    rw [trainLoopChecked, trainLoop]
    split_ifs with hc
    · rw [passChecked_eq LP data labels D hlen hD hlab s]
      simp only
      exact ih _
    · rfl

/-- Under the input contract checked training succeeds and is `Train`. -/
lemma TrainChecked_eq (LP : LearnPolicy) {d n k : ℕ} (iter : ℕ) (weights : Mat d k)
    (biases : Vec k) (data : Mat d n) (labels : List ℕ) (D : List ℚ)
    (hlen : labels.length = n) (hD : D = [] ∨ D.length = n)
    (hlab : ∀ j, labelsOf labels n j < k) :
    TrainChecked LP iter weights biases data labels D =
      some (Train LP iter weights biases data (labelsOf labels n) D) :=
  trainLoopChecked_eq LP iter data labels D hlen hD hlab iter _

lemma set_ofFn {m : ℕ} (f : Fin m → ℕ) (i : Fin m) (v : ℕ) :
    (List.ofFn f).set i.val v = List.ofFn (Function.update f i v) := by
  apply List.ext_getElem
  · simp
  · intro a h1 h2
    rw [List.getElem_set, List.getElem_ofFn, List.getElem_ofFn, Function.update_apply]
    simp only [Fin.ext_iff]
    by_cases h : i.val = a
    · simp [h]
    · have h3 : ¬ a = i.val := fun e => h e.symm
      simp [h, h3]

lemma classifyStepChecked_eq {d m : ℕ} (p : Perceptron d) (hk : 0 < p.k) (test : Mat d m)
    (f : Fin m → ℕ) (i : Fin m) :
    classifyStepChecked p test (List.ofFn f) i.val =
      some (List.ofFn
        (classifyStep test { self := p, predictedLabels := f } i).predictedLabels) := by
  unfold classifyStepChecked classifyStep
  rw [colChecked_lt]
  simp only [maxIndex_lt _ hk, List.length_ofFn, i.isLt, and_self, if_true]
  rw [set_ofFn]

lemma classifyChecked_eq {d m : ℕ} (p : Perceptron d) (hk : 0 < p.k) (test : Mat d m)
    (is : List (Fin m)) (f : Fin m → ℕ) :
    classifyChecked p test (is.map Fin.val) (List.ofFn f) =
      some (List.ofFn
        (is.foldl (classifyStep test) { self := p, predictedLabels := f }).predictedLabels) := by
  induction is generalizing f with
  | nil => rfl
  | cons i is ih =>
    rw [List.map_cons, classifyChecked, classifyStepChecked_eq p hk test f i]
    simp only
    rw [List.foldl_cons]
    exact ih _

lemma ClassifyInPlace_labels {d m : ℕ} (p : Perceptron d) (test : Mat d m)
    (predictedLabels : Fin m → ℕ) :
    (ClassifyInPlace p test predictedLabels).predictedLabels = Classify p test := by
  funext i
  unfold ClassifyInPlace
  rw [(foldl_classifyStep test (List.finRange m) _).2 i]
  simp [Classify]

/-- With at least one class and an output row of one entry per test column the
checked `Classify` succeeds and returns the labels of `Classify`. -/
lemma ClassifyChecked_eq {d m : ℕ} (p : Perceptron d) (hk : 0 < p.k) (test : Mat d m)
    (predictedLabels : List ℕ) (hout : predictedLabels.length = m) :
    ClassifyChecked p test predictedLabels = some (List.ofFn (Classify p test)) := by
  subst hout
  unfold ClassifyChecked
  rw [← List.map_coe_finRange]
  have e : predictedLabels = List.ofFn predictedLabels.get := (List.ofFn_get predictedLabels).symm
  have h := classifyChecked_eq p hk test (List.finRange predictedLabels.length)
    predictedLabels.get
  rw [← e] at h
  rw [h]
  have h2 := ClassifyInPlace_labels p test predictedLabels.get
  unfold ClassifyInPlace at h2
  rw [h2]

/-! ## Double arithmetic: integers below 2^53 are exact -/

lemma log2Fuel_eq (fuel n : ℕ) (h : n ≤ fuel) : log2Fuel fuel n = Nat.log2 n := by
  induction fuel generalizing n with
  | zero =>
    have : n = 0 := by omega
    subst this
    unfold Nat.log2
    simp [log2Fuel]
  | succ fuel ih =>
    rw [log2Fuel, Nat.log2]
    by_cases h2 : 2 ≤ n
    · simp only [h2, if_true, ge_iff_le]
      rw [ih (n / 2) (by omega)]
    · simp only [h2, if_false, ge_iff_le]

lemma ilog2_eq (n : ℕ) : ilog2 n = Nat.log2 n := log2Fuel_eq n n le_rfl

lemma ilog2_one : ilog2 1 = 0 := by decide

lemma expo_natCast (n : ℕ) (hn : 0 < n) : expo (n : ℚ) = (Nat.log2 n : ℤ) := by
  have h1 : (2 : ℚ) ^ (Nat.log2 n) ≤ (n : ℚ) := by
    have := Nat.log2_self_le (Nat.pos_iff_ne_zero.mp hn)
    exact_mod_cast this
  have h0 : Nat.log2 1 = 0 := by rw [← ilog2_eq]; exact ilog2_one
  unfold expo
  simp only [Rat.num_natCast, Int.natAbs_ofNat, Rat.den_natCast, ilog2_eq, h0,
    Nat.cast_zero, sub_zero, zpow_natCast, h1, if_true]

lemma roundHalfEven_natCast (m : ℕ) : roundHalfEven (m : ℚ) = m := by
  unfold roundHalfEven
  simp

/-- Below `2^53` every natural number is a double: it is a whole multiple of
the spacing at its magnitude. -/
lemma natCast_div_ulp (n : ℕ) (hn : 0 < n) (hlt : n < 2 ^ 53) :
    (n : ℚ) / ulp (n : ℚ) = ((n * 2 ^ (52 - Nat.log2 n) : ℕ) : ℚ) ∧
      ((n * 2 ^ (52 - Nat.log2 n) : ℕ) : ℚ) * ulp (n : ℚ) = (n : ℚ) := by
  have he : Nat.log2 n ≤ 52 := by
    have := (Nat.log2_lt (Nat.pos_iff_ne_zero.mp hn)).mpr hlt
    omega
  have hu : ulp (n : ℚ) = 1 / (2 : ℚ) ^ (52 - Nat.log2 n) := by
    unfold ulp
    rw [expo_natCast n hn]
    have hm : max (Nat.log2 n : ℤ) (-1022) = (Nat.log2 n : ℤ) := by
      apply max_eq_left
      omega
    rw [hm]
    have e : (Nat.log2 n : ℤ) - 52 = -((52 - Nat.log2 n : ℕ) : ℤ) := by omega
    rw [e, zpow_neg, zpow_natCast, one_div]
  have hpos : (0 : ℚ) < (2 : ℚ) ^ (52 - Nat.log2 n) := by positivity
  rw [hu]
  constructor
  · rw [div_div_eq_mul_div, div_one]
    push_cast
    ring
  · push_cast
    field_simp

/-- An integer of magnitude below `2^53` is a double: rounding returns it. -/
lemma round_intCast (z : ℤ) (hz : |z| < 2 ^ 53) : F64.round (z : ℚ) = F64.fin (z : ℚ) := by
  rcases eq_or_ne z 0 with h0 | h0
  · subst h0
    simp [F64.round]
  · have hn : 0 < z.natAbs := Int.natAbs_pos.mpr h0
    have hlt : z.natAbs < 2 ^ 53 := by
      have : (z.natAbs : ℤ) < 2 ^ 53 := by rw [Int.natCast_natAbs]; exact hz
      exact_mod_cast this
    have habs : |(z : ℚ)| = (z.natAbs : ℚ) := by
      rw [← Int.cast_abs, Int.abs_eq_natAbs, Int.cast_natCast]
    obtain ⟨h1, h2⟩ := natCast_div_ulp z.natAbs hn hlt
    have hq : (z : ℚ) ≠ 0 := by exact_mod_cast h0
    have hbig : ¬ (2 : ℚ) ^ (1024 : ℕ) ≤ (z.natAbs : ℚ) := by
      rw [not_le]
      have h3 : (z.natAbs : ℚ) < 2 ^ 53 := by exact_mod_cast hlt
      have h4 : (2 : ℚ) ^ 53 ≤ 2 ^ 1024 := by norm_num
      linarith
    unfold F64.round
    rw [habs, h1, roundHalfEven_natCast, h2]
    simp only [hq, if_false, hbig]
    by_cases hp : 0 < (z : ℚ)
    · simp only [hp, if_true]
      congr 1
      rw [← habs]
      exact abs_of_pos hp
    · simp only [hp, if_false]
      congr 1
      rw [← habs, abs_of_nonpos (not_lt.mp hp)]
      ring

/-! ## Exact regime: integer values within the range of exact doubles -/

lemma IntLe.mono {B B2 : ℕ} {q : ℚ} (h : IntLe B q) (hB : B ≤ B2) : IntLe B2 q := by
  obtain ⟨z, hz, hb⟩ := h
  exact ⟨z, hz, le_trans hb (by exact_mod_cast hB)⟩

lemma IntLe.zero (B : ℕ) : IntLe B 0 := ⟨0, by simp, by simp⟩

lemma IntLe.one : IntLe 1 1 := ⟨1, by simp, by simp⟩

lemma IntLe.intCast {B : ℕ} (z : ℤ) (h : |z| ≤ (B : ℤ)) : IntLe B (z : ℚ) := ⟨z, rfl, h⟩

lemma IntLe.add {B1 B2 : ℕ} {a b : ℚ} (ha : IntLe B1 a) (hb : IntLe B2 b) :
    IntLe (B1 + B2) (a + b) := by
  obtain ⟨x, hx, hxb⟩ := ha
  obtain ⟨y, hy, hyb⟩ := hb
  refine ⟨x + y, by rw [← hx, ← hy]; push_cast; ring, ?_⟩
  push_cast
  exact le_trans (abs_add x y) (add_le_add hxb hyb)

lemma IntLe.neg {B : ℕ} {a : ℚ} (ha : IntLe B a) : IntLe B (-a) := by
  obtain ⟨x, hx, hxb⟩ := ha
  exact ⟨-x, by rw [← hx]; push_cast; ring, by rw [abs_neg]; exact hxb⟩

lemma IntLe.sub {B1 B2 : ℕ} {a b : ℚ} (ha : IntLe B1 a) (hb : IntLe B2 b) :
    IntLe (B1 + B2) (a - b) := by
  rw [sub_eq_add_neg]
  exact IntLe.add ha (IntLe.neg hb)

lemma IntLe.mul {B1 B2 : ℕ} {a b : ℚ} (ha : IntLe B1 a) (hb : IntLe B2 b) :
    IntLe (B1 * B2) (a * b) := by
  obtain ⟨x, hx, hxb⟩ := ha
  obtain ⟨y, hy, hyb⟩ := hb
  refine ⟨x * y, by rw [← hx, ← hy]; push_cast; ring, ?_⟩
  rw [abs_mul]
  push_cast
  exact mul_le_mul hxb hyb (abs_nonneg y) (by positivity)

/-- An integer within the bound `B < 2^53` is returned by rounding. -/
lemma round_of_IntLe {B : ℕ} {q : ℚ} (h : IntLe B q) (hB : B < 2 ^ 53) :
    F64.round q = F64.fin q := by
  obtain ⟨z, hz, hb⟩ := h
  rw [← hz]
  apply round_intCast
  have : (B : ℤ) < 2 ^ 53 := by exact_mod_cast hB
  omega

lemma add_fin_exact {B : ℕ} {a b : ℚ} (h : IntLe B (a + b)) (hB : B < 2 ^ 53) :
    F64.add (F64.fin a) (F64.fin b) = F64.fin (a + b) := by
  show F64.round (a + b) = F64.fin (a + b)
  exact round_of_IntLe h hB

lemma sub_fin_exact {B : ℕ} {a b : ℚ} (h : IntLe B (a - b)) (hB : B < 2 ^ 53) :
    F64.sub (F64.fin a) (F64.fin b) = F64.fin (a - b) := by
  show F64.round (a + -b) = F64.fin (a - b)
  rw [← sub_eq_add_neg]
  exact round_of_IntLe h hB

lemma mul_fin_exact {B : ℕ} {a b : ℚ} (h : IntLe B (a * b)) (hB : B < 2 ^ 53) :
    F64.mul (F64.fin a) (F64.fin b) = F64.fin (a * b) := by
  show F64.round (a * b) = F64.fin (a * b)
  exact round_of_IntLe h hB

/-- The accumulation of a dot product is exact while the partial sums stay
integers within the bound. -/
lemma foldl_dot_exact {d : ℕ} (w x : Vec d) (Bw A : ℕ) (hw : ∀ f, IntLe Bw (w f))
    (hx : ∀ f, IntLe A (x f)) (l : List (Fin d)) (s0 : ℚ) (B0 : ℕ) (hs0 : IntLe B0 s0)
    (hB : B0 + l.length * (Bw * A) < 2 ^ 53) :
    l.foldl (fun acc f => F64.add acc (F64.mul (embV w f) (embV x f))) (F64.fin s0) =
        F64.fin (s0 + (l.map (fun f => w f * x f)).sum) ∧
      IntLe (B0 + l.length * (Bw * A)) (s0 + (l.map (fun f => w f * x f)).sum) := by
  induction l generalizing s0 B0 with
  | nil =>
    simp only [List.foldl_nil, List.map_nil, List.sum_nil, add_zero, List.length_nil,
      Nat.zero_mul, true_and]
    exact hs0
  | cons f l ih =>
    have hlen : (f :: l).length = l.length + 1 := rfl
    rw [hlen] at hB ⊢
    have hp : IntLe (Bw * A) (w f * x f) := IntLe.mul (hw f) (hx f)
    have hp53 : Bw * A < 2 ^ 53 := by nlinarith [Nat.zero_le (l.length * (Bw * A)), Nat.zero_le B0]
    have hs1 : IntLe (B0 + Bw * A) (s0 + w f * x f) := IntLe.add hs0 hp
    have hs53 : B0 + Bw * A < 2 ^ 53 := by nlinarith [Nat.zero_le (l.length * (Bw * A))]
    have hstep : F64.add (F64.fin s0) (F64.mul (embV w f) (embV x f)) =
        F64.fin (s0 + w f * x f) := by
      show F64.add (F64.fin s0) (F64.mul (F64.fin (w f)) (F64.fin (x f))) = _
      rw [mul_fin_exact hp hp53, add_fin_exact hs1 hs53]
    rw [List.foldl_cons, hstep]
    obtain ⟨h1, h2⟩ := ih (s0 + w f * x f) (B0 + Bw * A) hs1 (by
      have e : B0 + Bw * A + l.length * (Bw * A) = B0 + (l.length + 1) * (Bw * A) := by ring
      rw [e]
      exact hB)
    rw [h1, List.map_cons, List.sum_cons]
    have e2 : s0 + w f * x f + (l.map (fun f => w f * x f)).sum =
        s0 + (w f * x f + (l.map (fun f => w f * x f)).sum) := by ring
    rw [e2] at h2 ⊢
    refine ⟨rfl, h2.mono ?_⟩
    have e : B0 + Bw * A + l.length * (Bw * A) = B0 + (l.length + 1) * (Bw * A) := by ring
    rw [e]

lemma dotF_exact {d : ℕ} (w x : Vec d) (Bw A : ℕ) (hw : ∀ f, IntLe Bw (w f))
    (hx : ∀ f, IntLe A (x f)) (hB : d * (Bw * A) < 2 ^ 53) :
    dotF (embV w) (embV x) = F64.fin (∑ f, w f * x f) ∧
      IntLe (d * (Bw * A)) (∑ f, w f * x f) := by
  have h := foldl_dot_exact w x Bw A hw hx (List.finRange d) 0 0 (IntLe.zero 0)
    (by simpa using hB)
  have hsum : ((List.finRange d).map (fun f => w f * x f)).sum = ∑ f, w f * x f := by
    rw [← List.ofFn_eq_map, List.sum_ofFn]
  simp only [List.length_finRange, zero_add, hsum] at h
  exact h

/-- The activation of integer weights, biases and sample within the bounds is
computed without rounding. -/
lemma activationF_exact {d k : ℕ} (W : Mat d k) (b : Vec k) (x : Vec d) (Bw Bb A : ℕ)
    (hW : ∀ f c, IntLe Bw (W f c)) (hb : ∀ c, IntLe Bb (b c)) (hx : ∀ f, IntLe A (x f))
    (hB : d * (Bw * A) + Bb < 2 ^ 53) :
    activationF (embM W) (embV b) (embV x) = embV (activation W b x) := by
  funext c
  have hd := dotF_exact (fun f => W f c) x Bw A (fun f => hW f c) hx (by omega)
  show F64.add (dotF (embV (fun f => W f c)) (embV x)) (F64.fin (b c)) =
    F64.fin (activation W b x c)
  rw [hd.1, activation_apply, add_fin_exact (IntLe.add hd.2 (hb c)) hB]

lemma gt_fin_ninf (a : ℚ) : F64.gt (F64.fin a) F64.ninf = true := by
  simp [F64.gt, F64.rank]

lemma gt_fin_fin (a q : ℚ) : F64.gt (F64.fin a) (F64.fin q) = decide (q < a) := by
  simp [F64.gt, F64.rank]

/-- On finite values the scan over doubles visits the same indices as the scan
over rationals. -/
lemma maxLoopF_embV {k : ℕ} (v : Vec k) (i : ℕ) :
    (maxLoopF (embV v) i).2 = (maxLoop v i).2 ∧
      (((maxLoop v i).1 = ⊥ ∧ (maxLoopF (embV v) i).1 = F64.ninf) ∨
        ∃ q : ℚ, (maxLoop v i).1 = ((q : ℚ) : WithBot ℚ) ∧
          (maxLoopF (embV v) i).1 = F64.fin q) := by
  induction i with
  | zero => exact ⟨rfl, Or.inl ⟨rfl, rfl⟩⟩
  | succ i ih =>
    obtain ⟨h2, h1⟩ := ih
    by_cases hik : i < k
    · rcases h1 with ⟨hb, hf⟩ | ⟨q, hb, hf⟩
      · have e1 : maxLoop v (i + 1) = (((v ⟨i, hik⟩ : ℚ) : WithBot ℚ), i) := by
          simp [maxLoop, hik, hb, WithBot.bot_lt_coe]
        have e2 : maxLoopF (embV v) (i + 1) = (F64.fin (v ⟨i, hik⟩), i) := by
          simp [maxLoopF, hik, hf, embV, gt_fin_ninf]
        rw [e1, e2]
        exact ⟨rfl, Or.inr ⟨_, rfl, rfl⟩⟩
      · by_cases hlt : q < v ⟨i, hik⟩
        · have e1 : maxLoop v (i + 1) = (((v ⟨i, hik⟩ : ℚ) : WithBot ℚ), i) := by
            simp [maxLoop, hik, hb, WithBot.coe_lt_coe, hlt]
          have e2 : maxLoopF (embV v) (i + 1) = (F64.fin (v ⟨i, hik⟩), i) := by
            simp [maxLoopF, hik, hf, embV, gt_fin_fin, hlt]
          rw [e1, e2]
          exact ⟨rfl, Or.inr ⟨_, rfl, rfl⟩⟩
        · have e1 : maxLoop v (i + 1) = maxLoop v i := by
            simp [maxLoop, hik, hb, WithBot.coe_lt_coe, hlt]
          have e2 : maxLoopF (embV v) (i + 1) = maxLoopF (embV v) i := by
            simp [maxLoopF, hik, hf, embV, gt_fin_fin, hlt]
          rw [e1, e2]
          exact ⟨h2, Or.inr ⟨q, hb, hf⟩⟩
    · have e1 : maxLoop v (i + 1) = maxLoop v i := by simp [maxLoop, hik]
      have e2 : maxLoopF (embV v) (i + 1) = maxLoopF (embV v) i := by simp [maxLoopF, hik]
      rw [e1, e2]
      exact ⟨h2, h1⟩

lemma maxIndexF_embV {k : ℕ} (v : Vec k) : maxIndexF (embV v) = maxIndex v :=
  (maxLoopF_embV v k).1

lemma maxIndexRowColF_embV {k : ℕ} (v : Vec k) :
    (maxIndexRowColF (embV v)).1 = (maxIndexRowCol v).1 := by
  simp only [maxIndexRowColF, maxIndexRowCol, maxIndexF_embV]

/-- Subtracting an integer step from one column and adding it to another is
exact within the bound. -/
lemma colUpdateF_exact {d k : ℕ} (W : Mat d k) (xs : Vec d) (p y : ℕ) (hpy : p ≠ y)
    (Bw S : ℕ) (hW : ∀ f c, IntLe Bw (W f c)) (hx : ∀ f, IntLe S (xs f))
    (hB : Bw + S < 2 ^ 53) :
    colAddF (colSubF (embM W) p (embV xs)) y (embV xs) = embM (colAdd (colSub W p xs) y xs) ∧
      ∀ f c, IntLe (Bw + S) (colAdd (colSub W p xs) y xs f c) := by
  constructor
  · funext f c
    simp only [colAddF, colSubF, embM, embV, colAdd, colSub]
    by_cases hy : c.val = y
    · have hp : ¬ y = p := fun e => hpy e.symm
      simp only [hy, hp, if_true, if_false]
      exact add_fin_exact (IntLe.add (hW f c) (hx f)) hB
    · by_cases hp : c.val = p
      · simp only [hp, hpy, if_true, if_false]
        exact sub_fin_exact (IntLe.sub (hW f c) (hx f)) hB
      · simp only [hy, hp, if_false]
  · intro f c
    simp only [colAdd, colSub]
    by_cases hy : c.val = y
    · have hp : ¬ y = p := fun e => hpy e.symm
      simp only [hy, hp, if_true, if_false]
      exact IntLe.add (hW f c) (hx f)
    · by_cases hp : c.val = p
      · simp only [hp, hpy, if_true, if_false]
        exact IntLe.sub (hW f c) (hx f)
      · simp only [hy, hp, if_false]
        exact (hW f c).mono (Nat.le_add_right _ _)

lemma entryUpdateF_exact {k : ℕ} (b : Vec k) (t : ℚ) (p y : ℕ) (hpy : p ≠ y)
    (Bb S : ℕ) (hb : ∀ c, IntLe Bb (b c)) (ht : IntLe S t) (hB : Bb + S < 2 ^ 53) :
    entryAddF (entrySubF (embV b) p (F64.fin t)) y (F64.fin t) =
        embV (entryAdd (entrySub b p t) y t) ∧
      ∀ c, IntLe (Bb + S) (entryAdd (entrySub b p t) y t c) := by
  constructor
  · funext c
    simp only [entryAddF, entrySubF, embV, entryAdd, entrySub]
    by_cases hy : c.val = y
    · have hp : ¬ y = p := fun e => hpy e.symm
      simp only [hy, hp, if_true, if_false]
      exact add_fin_exact (IntLe.add (hb c) ht) hB
    · by_cases hp : c.val = p
      · simp only [hp, hpy, if_true, if_false]
        exact sub_fin_exact (IntLe.sub (hb c) ht) hB
      · simp only [hy, hp, if_false]
  · intro c
    simp only [entryAdd, entrySub]
    by_cases hy : c.val = y
    · have hp : ¬ y = p := fun e => hpy e.symm
      simp only [hy, hp, if_true, if_false]
      exact IntLe.add (hb c) ht
    · by_cases hp : c.val = p
      · simp only [hp, hpy, if_true, if_false]
        exact IntLe.sub (hb c) ht
      · simp only [hy, hp, if_false]
        exact (hb c).mono (Nat.le_add_right _ _)

/-- What the magnitude budget `(u + 1) * (C * (d * A * A + A + 1)) < 2^53`
provides for a state that has seen `u` updates. -/
lemma budget_facts (u C d A : ℕ) (hC : 1 ≤ C)
    (h : (u + 1) * (C * (d * A * A + A + 1)) < 2 ^ 53) :
    d * (u * (C * A) * A) + u * C < 2 ^ 53 ∧ C * A < 2 ^ 53 ∧
      u * (C * A) + C * A < 2 ^ 53 ∧ u * C + C < 2 ^ 53 ∧ A ≤ C * A ∧
      u * (C * A) + C * A = (u + 1) * (C * A) ∧ u * C + C = (u + 1) * C := by
  have e : (u + 1) * (C * (d * A * A + A + 1)) =
      (d * (u * (C * A) * A) + u * C) + (u * (C * A) + C * A) + C * (d * A * A) + C := by
    ring
  have hA : A ≤ C * A := by
    calc A = 1 * A := (Nat.one_mul A).symm
      _ ≤ C * A := Nat.mul_le_mul_right A hC
  refine ⟨by omega, by omega, by omega, ?_, hA, by ring, by ring⟩
  have e2 : (u + 1) * (C * (d * A * A + A + 1)) =
      (u * C + C) + (u + 1) * (C * (d * A * A + A)) := by ring
  omega

lemma costAtF_map (D : List ℚ) (j : ℕ) :
    costAtF (D.map F64.fin) j = F64.fin (costAt D j) := by
  unfold costAtF costAt
  by_cases h : j < D.length
  · rw [List.getD_eq_getElem _ _ h, List.getD_eq_getElem _ _ (by simpa using h)]
    simp
  · have h2 : (D.map F64.fin).length ≤ j := by
      rw [List.length_map]
      omega
    rw [List.getD_eq_default _ _ h2, List.getD_eq_default _ _ (by omega)]

lemma costAt_IntLe (D : List ℚ) (C : ℕ) (hD : ∀ c ∈ D, IntLe C c) (j : ℕ) :
    IntLe C (costAt D j) := by
  unfold costAt
  by_cases h : j < D.length
  · rw [List.getD_eq_getElem _ _ h]
    exact hD _ (List.getElem_mem h)
  · rw [List.getD_eq_default _ _ (by omega)]
    exact IntLe.zero C

lemma colF_embM {d n : ℕ} (data : Mat d n) (j : Fin n) :
    colF (embM data) j = embV (col data j) := rfl

lemma StateIntLe_weaken {d k : ℕ} {Bw Bb Bw2 Bb2 : ℕ} {s : TrainState d k}
    (h : StateIntLe Bw Bb s) (hw : Bw ≤ Bw2) (hb : Bb ≤ Bb2) : StateIntLe Bw2 Bb2 s :=
  ⟨fun f c => (h.1 f c).mono hw, fun c => (h.2 c).mono hb⟩

/-- One sample of training in doubles agrees with the exact computation while
the state holds integers within the magnitude budget: after `u` updates with
integer data of magnitude at most `A` and integer costs of magnitude at most
`C`, the condition is `(u + 1) * (C * (d * A * A + A + 1)) < 2^53`. -/
lemma sampleStepF_exact {d n k : ℕ} (data : Mat d n) (labels : Fin n → ℕ) (D : List ℚ)
    (A C u : ℕ) (hC : 1 ≤ C) (hdata : ∀ f j, IntLe A (data f j))
    (hD : ∀ c ∈ D, IntLe C c) (s : TrainState d k)
    (hs : StateIntLe (u * (C * A)) (u * C) s)
    (hB : (u + 1) * (C * (d * A * A + A + 1)) < 2 ^ 53) (j : Fin n) :
    sampleStepF SimpleWeightUpdateF (embM data) labels (D.map F64.fin) (embState s) j =
        embState (sampleStep SimpleWeightUpdate data labels D s j) ∧
      StateIntLe ((u + 1) * (C * A)) ((u + 1) * C)
        (sampleStep SimpleWeightUpdate data labels D s j) := by
  obtain ⟨hW, hb⟩ := hs
  obtain ⟨b1, b2, b3, b4, b5, e1, e2⟩ := budget_facts u C d A hC hB
  have hx : ∀ f, IntLe A (col data j f) := fun f => hdata f j
  have hact := activationF_exact s.weights s.biases (col data j) (u * (C * A)) (u * C) A
    hW hb hx b1
  have hpred : (maxIndexRowColF (activationF (embM s.weights) (embV s.biases)
      (embV (col data j)))).1 =
      (maxIndexRowCol (activation s.weights s.biases (col data j))).1 := by
    rw [hact]
    exact maxIndexRowColF_embV _
  by_cases hne : (maxIndexRowCol (activation s.weights s.biases (col data j))).1 ≠ labels j
  · by_cases hDl : 0 < D.length
    · have hc := costAt_IntLe D C hD j.val
      have hstep : ∀ f, IntLe (C * A) ((costAt D j.val • col data j) f) := fun f =>
        IntLe.mul hc (hx f)
      have hstepF : (fun f => F64.mul (F64.fin (costAt D j.val)) (embV (col data j) f)) =
          embV (costAt D j.val • col data j) := by
        funext f
        exact mul_fin_exact (IntLe.mul hc (hx f)) b2
      obtain ⟨hw1, hw2⟩ := colUpdateF_exact s.weights (costAt D j.val • col data j) _ _ hne
        (u * (C * A)) (C * A) hW hstep b3
      obtain ⟨hb1, hb2⟩ := entryUpdateF_exact s.biases (costAt D j.val) _ _ hne (u * C) C
        hb hc b4
      have hDl2 : 0 < (D.map F64.fin).length := by simpa using hDl
      have eF : sampleStepF SimpleWeightUpdateF (embM data) labels (D.map F64.fin)
          (embState s) j =
          { weights := embM (colAdd (colSub s.weights
              (maxIndexRowCol (activation s.weights s.biases (col data j))).1
              (costAt D j.val • col data j)) (labels j) (costAt D j.val • col data j))
            biases := embV (entryAdd (entrySub s.biases
              (maxIndexRowCol (activation s.weights s.biases (col data j))).1
              (costAt D j.val)) (labels j) (costAt D j.val))
            i := s.i, converged := false } := by
        simp only [sampleStepF, embState, colF_embM, hpred, hne, hDl2, if_true,
          SimpleWeightUpdateF, costAtF_map, hstepF, hw1, hb1, ne_eq, not_false_eq_true]
      have eQ : sampleStep SimpleWeightUpdate data labels D s j =
          { weights := colAdd (colSub s.weights
              (maxIndexRowCol (activation s.weights s.biases (col data j))).1
              (costAt D j.val • col data j)) (labels j) (costAt D j.val • col data j)
            biases := entryAdd (entrySub s.biases
              (maxIndexRowCol (activation s.weights s.biases (col data j))).1
              (costAt D j.val)) (labels j) (costAt D j.val)
            i := s.i, converged := false } := by
        simp only [sampleStep, hne, hDl, if_true, SimpleWeightUpdate, ne_eq,
          not_false_eq_true]
      rw [eF, eQ]
      refine ⟨rfl, ?_, ?_⟩
      · intro f c
        rw [← e1]
        exact hw2 f c
      · intro c
        rw [← e2]
        exact hb2 c
    · have hx2 : ∀ f, IntLe (C * A) (col data j f) := fun f => (hx f).mono b5
      have h1 : IntLe C 1 := IntLe.one.mono hC
      obtain ⟨hw1, hw2⟩ := colUpdateF_exact s.weights (col data j) _ _ hne
        (u * (C * A)) (C * A) hW hx2 b3
      obtain ⟨hb1, hb2⟩ := entryUpdateF_exact s.biases 1 _ _ hne (u * C) C hb h1 b4
      have hDl2 : ¬ 0 < (D.map F64.fin).length := by simpa using hDl
      have eF : sampleStepF SimpleWeightUpdateF (embM data) labels (D.map F64.fin)
          (embState s) j =
          { weights := embM (colAdd (colSub s.weights
              (maxIndexRowCol (activation s.weights s.biases (col data j))).1
              (col data j)) (labels j) (col data j))
            biases := embV (entryAdd (entrySub s.biases
              (maxIndexRowCol (activation s.weights s.biases (col data j))).1
              1) (labels j) 1)
            i := s.i, converged := false } := by
        simp only [sampleStepF, embState, colF_embM, hpred, hne, hDl2, if_true, if_false,
          SimpleWeightUpdateF, hw1, hb1, ne_eq, not_false_eq_true]
      have eQ : sampleStep SimpleWeightUpdate data labels D s j =
          { weights := colAdd (colSub s.weights
              (maxIndexRowCol (activation s.weights s.biases (col data j))).1
              (col data j)) (labels j) (col data j)
            biases := entryAdd (entrySub s.biases
              (maxIndexRowCol (activation s.weights s.biases (col data j))).1
              1) (labels j) 1
            i := s.i, converged := false } := by
        simp only [sampleStep, hne, hDl, if_true, if_false, SimpleWeightUpdate, ne_eq,
          not_false_eq_true]
      rw [eF, eQ]
      refine ⟨rfl, ?_, ?_⟩
      · intro f c
        rw [← e1]
        exact hw2 f c
      · intro c
        rw [← e2]
        exact hb2 c
  · have eF : sampleStepF SimpleWeightUpdateF (embM data) labels (D.map F64.fin)
        (embState s) j = embState s := by
      simp only [sampleStepF, embState, colF_embM, hpred, hne, if_false]
    have eQ : sampleStep SimpleWeightUpdate data labels D s j = s := by
      simp only [sampleStep, hne, if_false]
    rw [eF, eQ]
    exact ⟨rfl, StateIntLe_weaken ⟨hW, hb⟩ (Nat.mul_le_mul_right _ (Nat.le_succ u))
      (Nat.mul_le_mul_right _ (Nat.le_succ u))⟩

lemma foldl_sampleStepF_exact {d n k : ℕ} (data : Mat d n) (labels : Fin n → ℕ)
    (D : List ℚ) (A C : ℕ) (hC : 1 ≤ C) (hdata : ∀ f j, IntLe A (data f j))
    (hD : ∀ c ∈ D, IntLe C c) (js : List (Fin n)) (u : ℕ) (s : TrainState d k)
    (hs : StateIntLe (u * (C * A)) (u * C) s)
    (hB : (u + js.length) * (C * (d * A * A + A + 1)) < 2 ^ 53) :
    js.foldl (sampleStepF SimpleWeightUpdateF (embM data) labels (D.map F64.fin))
        (embState s) =
        embState (js.foldl (sampleStep SimpleWeightUpdate data labels D) s) ∧
      StateIntLe ((u + js.length) * (C * A)) ((u + js.length) * C)
        (js.foldl (sampleStep SimpleWeightUpdate data labels D) s) := by
  induction js generalizing u s with
  | nil => exact ⟨rfl, by simpa using hs⟩
  | cons j js ih =>
    have e : u + (j :: js).length = (u + 1) + js.length := by
      simp only [List.length_cons]
      omega
    rw [e] at hB ⊢
    have hB1 : (u + 1) * (C * (d * A * A + A + 1)) < 2 ^ 53 :=
      lt_of_le_of_lt (Nat.mul_le_mul_right _ (Nat.le_add_right _ _)) hB
    obtain ⟨h1, h2⟩ := sampleStepF_exact data labels D A C u hC hdata hD s hs hB1 j
    simp only [List.foldl_cons]
    rw [h1]
    exact ih (u + 1) _ h2 hB

/-- One pass in doubles agrees with the exact pass within the budget. -/
lemma passF_exact {d n k : ℕ} (data : Mat d n) (labels : Fin n → ℕ)
    (D : List ℚ) (A C : ℕ) (hC : 1 ≤ C) (hdata : ∀ f j, IntLe A (data f j))
    (hD : ∀ c ∈ D, IntLe C c) (u : ℕ) (s : TrainState d k)
    (hs : StateIntLe (u * (C * A)) (u * C) s)
    (hB : (u + n) * (C * (d * A * A + A + 1)) < 2 ^ 53) :
    passF SimpleWeightUpdateF (embM data) labels (D.map F64.fin) (embState s) =
        embState (pass SimpleWeightUpdate data labels D s) ∧
      StateIntLe ((u + n) * (C * A)) ((u + n) * C)
        (pass SimpleWeightUpdate data labels D s) := by
  have h := foldl_sampleStepF_exact data labels D A C hC hdata hD (List.finRange n) u
    { weights := s.weights, biases := s.biases, i := s.i + 1, converged := true } hs
    (by simpa using hB)
  simpa only [List.length_finRange] using h

lemma trainLoopF_succ_run (LP : LearnPolicyF) {d n k : ℕ} (iter : ℕ) (data : MatF d n)
    (labels : Fin n → ℕ) (D : List F64) (fuel : ℕ) (s : TrainStateF d k)
    (hc : s.i < iter ∧ s.converged = false) :
    trainLoopF LP iter data labels D (fuel + 1) s =
      trainLoopF LP iter data labels D fuel (passF LP data labels D s) := by
  rw [trainLoopF, if_pos hc]

lemma trainLoopF_succ_stop (LP : LearnPolicyF) {d n k : ℕ} (iter : ℕ) (data : MatF d n)
    (labels : Fin n → ℕ) (D : List F64) (fuel : ℕ) (s : TrainStateF d k)
    (hc : ¬ (s.i < iter ∧ s.converged = false)) :
    trainLoopF LP iter data labels D (fuel + 1) s = s := by
  rw [trainLoopF, if_neg hc]

/-- The training loop in doubles agrees with the exact loop as long as the
exact loop starts at most `T` passes and `T * n` updates fit the budget. -/
lemma trainLoopF_exact {d n k : ℕ} (data : Mat d n) (labels : Fin n → ℕ)
    (D : List ℚ) (A C T : ℕ) (hC : 1 ≤ C) (hdata : ∀ f j, IntLe A (data f j))
    (hD : ∀ c ∈ D, IntLe C c) (iter : ℕ)
    (hB : T * n * (C * (d * A * A + A + 1)) < 2 ^ 53) (fuel : ℕ) (s : TrainState d k)
    (hs : StateIntLe (s.i * n * (C * A)) (s.i * n * C) s)
    (hT : ∀ fl, (trainLoop SimpleWeightUpdate iter data labels D fl s).i ≤ T) :
    trainLoopF SimpleWeightUpdateF iter (embM data) labels (D.map F64.fin) fuel
        (embState s) =
        embState (trainLoop SimpleWeightUpdate iter data labels D fuel s) ∧
      StateIntLe (T * n * (C * A)) (T * n * C)
        (trainLoop SimpleWeightUpdate iter data labels D fuel s) := by
  have hsT : s.i ≤ T := hT 0
  have hmono : StateIntLe (T * n * (C * A)) (T * n * C) s :=
    StateIntLe_weaken hs (Nat.mul_le_mul_right _ (Nat.mul_le_mul_right _ hsT))
      (Nat.mul_le_mul_right _ (Nat.mul_le_mul_right _ hsT))
  induction fuel generalizing s with
  | zero => exact ⟨rfl, hmono⟩
  | succ fuel ih =>
    by_cases hc : s.i < iter ∧ s.converged = false
    · have hcF : (embState s).i < iter ∧ (embState s).converged = false := hc
      rw [trainLoopF_succ_run _ _ _ _ _ _ _ hcF, trainLoop_succ_run _ _ _ _ _ _ _ hc]
      have h1 := hT 1
      rw [trainLoop_succ_run _ _ _ _ _ _ _ hc] at h1
      have h1i : s.i + 1 ≤ T := by
        have := h1
        simp only [trainLoop, pass_i] at this
        exact this
      have e : s.i * n + n = (s.i + 1) * n := by ring
      have hB2 : (s.i * n + n) * (C * (d * A * A + A + 1)) < 2 ^ 53 := by
        rw [e]
        exact lt_of_le_of_lt
          (Nat.mul_le_mul_right _ (Nat.mul_le_mul_right _ h1i)) hB
      obtain ⟨p1, p2⟩ := passF_exact data labels D A C hC hdata hD (s.i * n) s hs hB2
      rw [p1]
      have hs2 : StateIntLe ((pass SimpleWeightUpdate data labels D s).i * n * (C * A))
          ((pass SimpleWeightUpdate data labels D s).i * n * C)
          (pass SimpleWeightUpdate data labels D s) := by
        rw [pass_i, ← e]
        exact p2
      have hT2 : ∀ fl, (trainLoop SimpleWeightUpdate iter data labels D fl
          (pass SimpleWeightUpdate data labels D s)).i ≤ T := by
        intro fl
        have := hT (fl + 1)
        rw [trainLoop_succ_run _ _ _ _ _ _ _ hc] at this
        exact this
      exact ih _ hs2 hT2 (hT2 0)
        (StateIntLe_weaken hs2 (Nat.mul_le_mul_right _ (Nat.mul_le_mul_right _ (hT2 0)))
          (Nat.mul_le_mul_right _ (Nat.mul_le_mul_right _ (hT2 0))))
    · have hcF : ¬ ((embState s).i < iter ∧ (embState s).converged = false) := hc
      rw [trainLoopF_succ_stop _ _ _ _ _ _ _ hcF, trainLoop_succ_stop _ _ _ _ _ _ _ hc]
      exact ⟨rfl, hmono⟩

lemma zero_StateIntLe {d k : ℕ} (Bw Bb i : ℕ) (cv : Bool) :
    StateIntLe Bw Bb
      ({ weights := 0, biases := 0, i := i, converged := cv } : TrainState d k) :=
  ⟨fun _ _ => IntLe.zero Bw, fun _ => IntLe.zero Bb⟩

/-- Training from zero weights in doubles agrees with exact training as long as
the exact loop starts at most `T` passes and `T * n` updates fit the budget. -/
lemma TrainF_exact_of_bound {d n k : ℕ} (data : Mat d n) (labels : Fin n → ℕ)
    (D : List ℚ) (A C T : ℕ) (hC : 1 ≤ C) (hdata : ∀ f j, IntLe A (data f j))
    (hD : ∀ c ∈ D, IntLe C c) (iter : ℕ)
    (hB : T * n * (C * (d * A * A + A + 1)) < 2 ^ 53)
    (hT : ∀ fl, (trainLoop SimpleWeightUpdate iter data labels D fl
      ({ weights := 0, biases := 0, i := 0, converged := false } : TrainState d k)).i ≤ T) :
    TrainF SimpleWeightUpdateF iter (ZeroInitializationF.Initialize d k).1
        (ZeroInitializationF.Initialize d k).2 (embM data) labels (D.map F64.fin) =
        embState (Train SimpleWeightUpdate iter (0 : Mat d k) (0 : Vec k) data labels D) ∧
      StateIntLe (T * n * (C * A)) (T * n * C)
        (Train SimpleWeightUpdate iter (0 : Mat d k) (0 : Vec k) data labels D) :=
  trainLoopF_exact data labels D A C T hC hdata hD iter hB iter
    { weights := 0, biases := 0, i := 0, converged := false }
    (zero_StateIntLe _ _ 0 false) hT

/-- Training from zero weights in doubles agrees with exact training when
`iter * n` updates fit the budget. -/
lemma TrainF_exact {d n k : ℕ} (data : Mat d n) (labels : Fin n → ℕ)
    (D : List ℚ) (A C : ℕ) (hC : 1 ≤ C) (hdata : ∀ f j, IntLe A (data f j))
    (hD : ∀ c ∈ D, IntLe C c) (iter : ℕ)
    (hB : iter * n * (C * (d * A * A + A + 1)) < 2 ^ 53) :
    TrainF SimpleWeightUpdateF iter (ZeroInitializationF.Initialize d k).1
        (ZeroInitializationF.Initialize d k).2 (embM data) labels (D.map F64.fin) =
        embState (Train SimpleWeightUpdate iter (0 : Mat d k) (0 : Vec k) data labels D) ∧
      StateIntLe (iter * n * (C * A)) (iter * n * C)
        (Train SimpleWeightUpdate iter (0 : Mat d k) (0 : Vec k) data labels D) :=
  TrainF_exact_of_bound data labels D A C iter hC hdata hD iter hB
    (fun _ => trainLoop_i_le _ _ _ _ _ _ _ (Nat.zero_le _))

/-! ## Class sums -/

lemma intMatF_eq {r c : ℕ} (M : Matrix (Fin r) (Fin c) ℤ) : intMatF M = embM (intMat M) := rfl

lemma intMat_IntLe {r c : ℕ} (M : Matrix (Fin r) (Fin c) ℤ) (A : ℕ)
    (hA : ∀ f j, |M f j| ≤ (A : ℤ)) : ∀ f j, IntLe A (intMat M f j) :=
  fun f j => IntLe.intCast (M f j) (hA f j)

lemma intCosts_map (costs : List ℤ) :
    costs.map (fun c : ℤ => F64.fin (c : ℚ)) =
      (costs.map (fun c : ℤ => (c : ℚ))).map F64.fin := by
  rw [List.map_map]
  rfl

lemma intCosts_IntLe (costs : List ℤ) (C : ℕ) (hC : ∀ c ∈ costs, |c| ≤ (C : ℤ)) :
    ∀ q ∈ costs.map (fun c : ℤ => (c : ℚ)), IntLe C q := by
  intro q hq
  obtain ⟨c, hc, rfl⟩ := List.mem_map.mp hq
  exact IntLe.intCast c (hC c hc)

lemma label_lt_numClasses {n : ℕ} (labels : Fin n → ℕ) (h : maxLabel labels + 1 < 2 ^ 64)
    (j : Fin n) : labels j < numClasses labels := by
  unfold numClasses
  rw [Nat.mod_eq_of_lt h]
  exact label_lt_maxLabel_succ labels j

/-- Within the budget, training in doubles from zero weights ends with finite
weights and biases whose class sums are zero. -/
lemma TrainF_class_sums {d n k : ℕ} (data : Mat d n) (labels : Fin n → ℕ) (D : List ℚ)
    (A C : ℕ) (hC : 1 ≤ C) (hdata : ∀ f j, IntLe A (data f j)) (hD : ∀ c ∈ D, IntLe C c)
    (iter : ℕ) (hB : iter * n * (C * (d * A * A + A + 1)) < 2 ^ 53)
    (hlab : ∀ j, labels j < k) :
    (∀ f c, ∃ q, (TrainF SimpleWeightUpdateF iter (ZeroInitializationF.Initialize d k).1
        (ZeroInitializationF.Initialize d k).2 (embM data) labels
        (D.map F64.fin)).weights f c = F64.fin q) ∧
      (∀ f, ∑ c, F64.toRat ((TrainF SimpleWeightUpdateF iter
        (ZeroInitializationF.Initialize d k).1 (ZeroInitializationF.Initialize d k).2
        (embM data) labels (D.map F64.fin)).weights f c) = 0) ∧
      (∀ c, ∃ q, (TrainF SimpleWeightUpdateF iter (ZeroInitializationF.Initialize d k).1
        (ZeroInitializationF.Initialize d k).2 (embM data) labels
        (D.map F64.fin)).biases c = F64.fin q) ∧
      ∑ c, F64.toRat ((TrainF SimpleWeightUpdateF iter
        (ZeroInitializationF.Initialize d k).1 (ZeroInitializationF.Initialize d k).2
        (embM data) labels (D.map F64.fin)).biases c) = 0 := by
  rw [(TrainF_exact data labels D A C hC hdata hD iter hB).1]
  obtain ⟨a1, a2⟩ := trainLoop_class_sums iter data labels D hlab iter
    { weights := (0 : Mat d k), biases := 0, i := 0, converged := false }
  refine ⟨fun f c => ⟨_, rfl⟩, ?_, fun c => ⟨_, rfl⟩, ?_⟩
  · intro f
    exact (a1 f).trans (by simp)
  · exact a2.trans (by simp)

/-- C18 (counterexample): in doubles the class sums are not conserved.  The
fresh-training constructor on the columns (1) and (2^53 + 2) labelled 1 and 2
with budget 1 ends with the weight row (-1, -2^53, 2^53 + 2), whose entries
add up to 1: the second update subtracts 2^53 + 2 from the entry 1 of class 1,
and the exact difference -(2^53 + 1) is rounded to -2^53, while class 2
receives 2^53 + 2 unrounded. -/
theorem class_sums_drift_in_doubles :
    maxLabel sumLabels + 1 < 2 ^ 64 ∧
      (PerceptronF.fresh SimpleWeightUpdateF ZeroInitializationF (intMatF sumData)
        sumLabels 1).weights 0 ⟨0, by decide⟩ = F64.fin (-1) ∧
      (PerceptronF.fresh SimpleWeightUpdateF ZeroInitializationF (intMatF sumData)
        sumLabels 1).weights 0 ⟨1, by decide⟩ = F64.fin (-(2 ^ 53)) ∧
      (PerceptronF.fresh SimpleWeightUpdateF ZeroInitializationF (intMatF sumData)
        sumLabels 1).weights 0 ⟨2, by decide⟩ = F64.fin (2 ^ 53 + 2) ∧
      ∑ c, F64.toRat ((PerceptronF.fresh SimpleWeightUpdateF ZeroInitializationF
        (intMatF sumData) sumLabels 1).weights 0 c) = 1 := by
  decide!

/-- C18 (amended): when the data and the costs are integers and the magnitude
budget `iter * n * (C * (d * A * A + A + 1)) < 2^53` holds (entries of
magnitude at most `A`, costs of magnitude at most `C`, `1 ≤ C`), every training
run in doubles from the zero initialisation under the canonical update rule,
weighted or unweighted, ends with finite weights and biases whose weight
columns sum to the zero vector and whose bias entries sum to zero; this holds
for a run of `Train` with labels below the class count and for the instances
built by both constructors from non-empty labels below 2^64 - 1. -/
theorem class_sum_conservation_exact_regime {d d0 n k : ℕ} (iter : ℕ)
    (data : Matrix (Fin d) (Fin n) ℤ) (labels : Fin n → ℕ) (costs : List ℤ)
    (other : PerceptronF d0) (A C : ℕ) (hC : 1 ≤ C) (hA : ∀ f j, |data f j| ≤ (A : ℤ))
    (hcost : ∀ c ∈ costs, |c| ≤ (C : ℤ)) (_hn : 0 < n) (hlab : ∀ j, labels j < k)
    (hwrap : maxLabel labels + 1 < 2 ^ 64)
    (hB : iter * n * (C * (d * A * A + A + 1)) < 2 ^ 53)
    (hBo : other.iter * n * (C * (d * A * A + A + 1)) < 2 ^ 53) :
    ((∀ f c, ∃ q, (TrainF SimpleWeightUpdateF iter (ZeroInitializationF.Initialize d k).1
          (ZeroInitializationF.Initialize d k).2 (intMatF data) labels
          (costs.map (fun c : ℤ => F64.fin (c : ℚ)))).weights f c = F64.fin q) ∧
        (∀ f, ∑ c, F64.toRat ((TrainF SimpleWeightUpdateF iter
          (ZeroInitializationF.Initialize d k).1 (ZeroInitializationF.Initialize d k).2
          (intMatF data) labels (costs.map (fun c : ℤ => F64.fin (c : ℚ)))).weights f c) = 0) ∧
        (∀ c, ∃ q, (TrainF SimpleWeightUpdateF iter (ZeroInitializationF.Initialize d k).1
          (ZeroInitializationF.Initialize d k).2 (intMatF data) labels
          (costs.map (fun c : ℤ => F64.fin (c : ℚ)))).biases c = F64.fin q) ∧
        ∑ c, F64.toRat ((TrainF SimpleWeightUpdateF iter
          (ZeroInitializationF.Initialize d k).1 (ZeroInitializationF.Initialize d k).2
          (intMatF data) labels (costs.map (fun c : ℤ => F64.fin (c : ℚ)))).biases c) = 0) ∧
      ((∀ f c, ∃ q, (PerceptronF.fresh SimpleWeightUpdateF ZeroInitializationF
          (intMatF data) labels iter).weights f c = F64.fin q) ∧
        (∀ f, ∑ c, F64.toRat ((PerceptronF.fresh SimpleWeightUpdateF ZeroInitializationF
          (intMatF data) labels iter).weights f c) = 0) ∧
        (∀ c, ∃ q, (PerceptronF.fresh SimpleWeightUpdateF ZeroInitializationF
          (intMatF data) labels iter).biases c = F64.fin q) ∧
        ∑ c, F64.toRat ((PerceptronF.fresh SimpleWeightUpdateF ZeroInitializationF
          (intMatF data) labels iter).biases c) = 0) ∧
      ((∀ f c, ∃ q, (PerceptronF.boost SimpleWeightUpdateF ZeroInitializationF other
          (intMatF data) (costs.map (fun c : ℤ => F64.fin (c : ℚ))) labels).weights f c =
            F64.fin q) ∧
        (∀ f, ∑ c, F64.toRat ((PerceptronF.boost SimpleWeightUpdateF ZeroInitializationF
          other (intMatF data) (costs.map (fun c : ℤ => F64.fin (c : ℚ)))
          labels).weights f c) = 0) ∧
        (∀ c, ∃ q, (PerceptronF.boost SimpleWeightUpdateF ZeroInitializationF other
          (intMatF data) (costs.map (fun c : ℤ => F64.fin (c : ℚ))) labels).biases c =
            F64.fin q) ∧
        ∑ c, F64.toRat ((PerceptronF.boost SimpleWeightUpdateF ZeroInitializationF other
          (intMatF data) (costs.map (fun c : ℤ => F64.fin (c : ℚ))) labels).biases c) = 0) := by
  have hdata := intMat_IntLe data A hA
  have hD := intCosts_IntLe costs C hcost
  have hlab2 := label_lt_numClasses labels hwrap
  rw [intCosts_map, intMatF_eq]
  refine ⟨TrainF_class_sums (intMat data) labels _ A C hC hdata hD iter hB hlab, ?_,
    TrainF_class_sums (intMat data) labels _ A C hC hdata hD other.iter hBo hlab2⟩
  have h := TrainF_class_sums (intMat data) labels [] A C hC hdata
    (by intro c hc; simp at hc) iter hB hlab2
  exact h

/-- Witness for C18: the example scenario with costs 1, 2, 3, 4 and budget
10. -/
theorem class_sum_conservation_exact_regime_witness :
    (∀ f, ∑ c, F64.toRat ((PerceptronF.fresh SimpleWeightUpdateF ZeroInitializationF
        (intMatF exampleDataZ) exampleLabels 10).weights f c) = 0) ∧
      (∀ f, ∑ c, F64.toRat ((PerceptronF.boost SimpleWeightUpdateF ZeroInitializationF
        (PerceptronF.fresh SimpleWeightUpdateF ZeroInitializationF (intMatF exampleDataZ)
          exampleLabels 10)
        (intMatF exampleDataZ) ([1, 2, 3, 4].map (fun c : ℤ => F64.fin (c : ℚ)))
        exampleLabels).weights f c) = 0) :=
  ⟨(class_sum_conservation_exact_regime (k := 2) 10 exampleDataZ exampleLabels [1, 2, 3, 4]
      (PerceptronF.fresh SimpleWeightUpdateF ZeroInitializationF (intMatF exampleDataZ)
        exampleLabels 10) 6 4 (by decide) (by decide) (by decide) (by decide) (by decide)
      (by decide) (by decide) (by decide)).2.1.2.1,
    (class_sum_conservation_exact_regime (k := 2) 10 exampleDataZ exampleLabels [1, 2, 3, 4]
      (PerceptronF.fresh SimpleWeightUpdateF ZeroInitializationF (intMatF exampleDataZ)
        exampleLabels 10) 6 4 (by decide) (by decide) (by decide) (by decide) (by decide)
      (by decide) (by decide) (by decide)).2.2.2.1⟩

/-! ## Uniform costs in doubles -/

/-- C5 (counterexample): with the positive cost 0.1 on every sample the
weighted run in doubles is not the unweighted run scaled.  On the columns (3)
and (1) labelled 1 and 0 with budget 3, unweighted training converges with
weights (-1, 1) and biases (1, -1); training with the cost vector (0.1, 0.1)
exhausts the budget without converging and ends with weights
(-2^-55, 2^-55) and biases (0.2, -0.2), so no constant scales the one result
into the other. -/
theorem uniform_cost_tenth_not_scaled :
    (TrainF SimpleWeightUpdateF 3 (ZeroInitializationF.Initialize 1 2).1
        (ZeroInitializationF.Initialize 1 2).2 (intMatF tenthData) tenthLabels
        []).converged = true ∧
      (TrainF SimpleWeightUpdateF 3 (ZeroInitializationF.Initialize 1 2).1
        (ZeroInitializationF.Initialize 1 2).2 (intMatF tenthData) tenthLabels
        [tenth, tenth]).converged = false ∧
      (TrainF SimpleWeightUpdateF 3 (ZeroInitializationF.Initialize 1 2).1
        (ZeroInitializationF.Initialize 1 2).2 (intMatF tenthData) tenthLabels
        []).weights 0 1 = F64.fin 1 ∧
      (TrainF SimpleWeightUpdateF 3 (ZeroInitializationF.Initialize 1 2).1
        (ZeroInitializationF.Initialize 1 2).2 (intMatF tenthData) tenthLabels
        []).biases 0 = F64.fin 1 ∧
      (TrainF SimpleWeightUpdateF 3 (ZeroInitializationF.Initialize 1 2).1
        (ZeroInitializationF.Initialize 1 2).2 (intMatF tenthData) tenthLabels
        [tenth, tenth]).weights 0 1 = F64.fin (1 / 2 ^ 55) ∧
      (TrainF SimpleWeightUpdateF 3 (ZeroInitializationF.Initialize 1 2).1
        (ZeroInitializationF.Initialize 1 2).2 (intMatF tenthData) tenthLabels
        [tenth, tenth]).biases 0 = F64.round (1 / 5) ∧
      ¬ (∀ f c, (TrainF SimpleWeightUpdateF 3 (ZeroInitializationF.Initialize 1 2).1
        (ZeroInitializationF.Initialize 1 2).2 (intMatF tenthData) tenthLabels
        [tenth, tenth]).weights f c =
        F64.mul tenth ((TrainF SimpleWeightUpdateF 3 (ZeroInitializationF.Initialize 1 2).1
          (ZeroInitializationF.Initialize 1 2).2 (intMatF tenthData) tenthLabels
          []).weights f c)) := by
  decide!

/-- C5 (amended): for integer data with entries of magnitude at most `A`, a
positive integer constant `c` and a budget with
`iter * n * (c * (d * A * A + A + 1)) < 2^53`, training in doubles from the
zero initialisation under the canonical update rule with the cost vector of
`n` entries all equal to `c` ends with weights and biases equal to `c` times
those of unweighted training on the same data, labels and budget, after the
same number of passes and with the same convergence flag. -/
theorem uniform_integer_cost_scales_exact_regime {d n k : ℕ} (c : ℕ) (hc : 0 < c)
    (iter : ℕ) (data : Matrix (Fin d) (Fin n) ℤ) (labels : Fin n → ℕ) (A : ℕ)
    (hA : ∀ f j, |data f j| ≤ (A : ℤ))
    (hB : iter * n * (c * (d * A * A + A + 1)) < 2 ^ 53) :
    (∀ f j, (TrainF SimpleWeightUpdateF iter (ZeroInitializationF.Initialize d k).1
        (ZeroInitializationF.Initialize d k).2 (intMatF data) labels
        (List.replicate n (F64.fin (c : ℚ)))).weights f j =
      F64.mul (F64.fin (c : ℚ)) ((TrainF SimpleWeightUpdateF iter
        (ZeroInitializationF.Initialize d k).1 (ZeroInitializationF.Initialize d k).2
        (intMatF data) labels []).weights f j)) ∧
    (∀ j, (TrainF SimpleWeightUpdateF iter (ZeroInitializationF.Initialize d k).1
        (ZeroInitializationF.Initialize d k).2 (intMatF data) labels
        (List.replicate n (F64.fin (c : ℚ)))).biases j =
      F64.mul (F64.fin (c : ℚ)) ((TrainF SimpleWeightUpdateF iter
        (ZeroInitializationF.Initialize d k).1 (ZeroInitializationF.Initialize d k).2
        (intMatF data) labels []).biases j)) ∧
    (TrainF SimpleWeightUpdateF iter (ZeroInitializationF.Initialize d k).1
        (ZeroInitializationF.Initialize d k).2 (intMatF data) labels
        (List.replicate n (F64.fin (c : ℚ)))).i =
      (TrainF SimpleWeightUpdateF iter (ZeroInitializationF.Initialize d k).1
        (ZeroInitializationF.Initialize d k).2 (intMatF data) labels []).i ∧
    (TrainF SimpleWeightUpdateF iter (ZeroInitializationF.Initialize d k).1
        (ZeroInitializationF.Initialize d k).2 (intMatF data) labels
        (List.replicate n (F64.fin (c : ℚ)))).converged =
      (TrainF SimpleWeightUpdateF iter (ZeroInitializationF.Initialize d k).1
        (ZeroInitializationF.Initialize d k).2 (intMatF data) labels []).converged := by
  have hdata := intMat_IntLe data A hA
  have hc1 : 1 ≤ c := hc
  have hcq : (0 : ℚ) < (c : ℚ) := by exact_mod_cast hc
  have hDw : ∀ q ∈ List.replicate n (c : ℚ), IntLe c q := by
    intro q hq
    rw [List.eq_of_mem_replicate hq]
    exact IntLe.intCast (c : ℤ) (by simp)
  have hB1 : iter * n * (1 * (d * A * A + A + 1)) < 2 ^ 53 :=
    lt_of_le_of_lt (Nat.mul_le_mul_left _ (Nat.mul_le_mul_right _ hc1)) hB
  have ew : List.replicate n (F64.fin (c : ℚ)) = (List.replicate n (c : ℚ)).map F64.fin := by
    rw [List.map_replicate]
  have eu : ([] : List F64) = ([] : List ℚ).map F64.fin := rfl
  obtain ⟨w1, w2⟩ := TrainF_exact (k := k) (intMat data) labels (List.replicate n (c : ℚ))
    A c hc1 hdata hDw iter hB
  obtain ⟨u1, -⟩ := TrainF_exact (k := k) (intMat data) labels [] A 1 le_rfl hdata
    (by intro q hq; simp at hq) iter hB1
  have hsc : Scaled (c : ℚ)
      (Train SimpleWeightUpdate iter (0 : Mat d k) (0 : Vec k) (intMat data) labels
        (List.replicate n (c : ℚ)))
      (Train SimpleWeightUpdate iter (0 : Mat d k) (0 : Vec k) (intMat data) labels []) := by
    unfold Train
    apply trainLoop_scaled (c : ℚ) hcq
    exact ⟨by simp, by simp, rfl, rfl⟩
  have hlt : iter * n * (c * A) + iter * n * c < 2 ^ 53 := by
    have e : iter * n * (c * (d * A * A + A + 1)) =
        iter * n * (c * A) + iter * n * c + iter * n * (c * (d * A * A)) := by ring
    omega
  rw [intMatF_eq, ew, eu, w1, u1]
  refine ⟨?_, ?_, hsc.2.2.1, hsc.2.2.2⟩
  · intro f j
    have e : (Train SimpleWeightUpdate iter (0 : Mat d k) (0 : Vec k) (intMat data) labels
        (List.replicate n (c : ℚ))).weights f j = (c : ℚ) *
        (Train SimpleWeightUpdate iter (0 : Mat d k) (0 : Vec k) (intMat data) labels
          []).weights f j := by
      rw [hsc.1]
      rfl
    have hb := w2.1 f j
    rw [e] at hb
    show F64.fin _ = F64.mul (F64.fin (c : ℚ)) (F64.fin _)
    rw [mul_fin_exact hb (by omega), e]
  · intro j
    have e : (Train SimpleWeightUpdate iter (0 : Mat d k) (0 : Vec k) (intMat data) labels
        (List.replicate n (c : ℚ))).biases j = (c : ℚ) *
        (Train SimpleWeightUpdate iter (0 : Mat d k) (0 : Vec k) (intMat data) labels
          []).biases j := by
      rw [hsc.2.1]
      rfl
    have hb := w2.2 j
    rw [e] at hb
    show F64.fin _ = F64.mul (F64.fin (c : ℚ)) (F64.fin _)
    rw [mul_fin_exact hb (by omega), e]

/-- Witness for amended C5: the example scenario with all costs equal to 3 and
budget 10. -/
theorem uniform_integer_cost_scales_exact_regime_witness :
    (0 < 3 ∧ 10 * 4 * (3 * (2 * 6 * 6 + 6 + 1)) < 2 ^ 53) ∧
      ((TrainF SimpleWeightUpdateF 10 (ZeroInitializationF.Initialize 2 2).1
          (ZeroInitializationF.Initialize 2 2).2 (intMatF exampleDataZ) exampleLabels
          (List.replicate 4 (F64.fin ((3 : ℕ) : ℚ)))).weights 0 0 =
        F64.mul (F64.fin ((3 : ℕ) : ℚ)) ((TrainF SimpleWeightUpdateF 10
          (ZeroInitializationF.Initialize 2 2).1 (ZeroInitializationF.Initialize 2 2).2
          (intMatF exampleDataZ) exampleLabels []).weights 0 0)) ∧
      ((TrainF SimpleWeightUpdateF 10 (ZeroInitializationF.Initialize 2 2).1
          (ZeroInitializationF.Initialize 2 2).2 (intMatF exampleDataZ) exampleLabels
          (List.replicate 4 (F64.fin ((3 : ℕ) : ℚ)))).biases 1 =
        F64.mul (F64.fin ((3 : ℕ) : ℚ)) ((TrainF SimpleWeightUpdateF 10
          (ZeroInitializationF.Initialize 2 2).1 (ZeroInitializationF.Initialize 2 2).2
          (intMatF exampleDataZ) exampleLabels []).biases 1)) :=
  ⟨⟨by decide, by decide⟩,
    (uniform_integer_cost_scales_exact_regime 3 (by decide) 10 exampleDataZ exampleLabels 6
      (by decide) (by decide)).1 0 0,
    (uniform_integer_cost_scales_exact_regime 3 (by decide) 10 exampleDataZ exampleLabels 6
      (by decide) (by decide)).2.1 1⟩

/-! ## Convergence on separable data -/

/-- One sample step in doubles reads only the weights, the biases and the
flag of the state. -/
lemma sampleStepF_agree (LP : LearnPolicyF) {d n k : ℕ} (data : MatF d n)
    (labels : Fin n → ℕ) (D : List F64) (s t : TrainStateF d k) (j : Fin n)
    (hw : s.weights = t.weights) (hb : s.biases = t.biases)
    (hc : s.converged = t.converged) :
    (sampleStepF LP data labels D s j).weights = (sampleStepF LP data labels D t j).weights ∧
      (sampleStepF LP data labels D s j).biases = (sampleStepF LP data labels D t j).biases ∧
      (sampleStepF LP data labels D s j).converged =
        (sampleStepF LP data labels D t j).converged := by
  unfold sampleStepF
  simp only [hw, hb]
  split_ifs
  · exact ⟨rfl, rfl, rfl⟩
  · exact ⟨rfl, rfl, rfl⟩
  · exact ⟨hw, hb, hc⟩

lemma foldl_sampleStepF_agree (LP : LearnPolicyF) {d n k : ℕ} (data : MatF d n)
    (labels : Fin n → ℕ) (D : List F64) (js : List (Fin n)) (s t : TrainStateF d k)
    (hw : s.weights = t.weights) (hb : s.biases = t.biases)
    (hc : s.converged = t.converged) :
    (js.foldl (sampleStepF LP data labels D) s).weights =
        (js.foldl (sampleStepF LP data labels D) t).weights ∧
      (js.foldl (sampleStepF LP data labels D) s).biases =
        (js.foldl (sampleStepF LP data labels D) t).biases ∧
      (js.foldl (sampleStepF LP data labels D) s).converged =
        (js.foldl (sampleStepF LP data labels D) t).converged := by
  induction js generalizing s t with
  | nil => exact ⟨hw, hb, hc⟩
  | cons j js ih =>
    obtain ⟨a, b, c⟩ := sampleStepF_agree LP data labels D s t j hw hb hc
    exact ih _ _ a b c

/-- The outcome of a pass in doubles depends only on the weights and biases it
starts from. -/
lemma passF_agree (LP : LearnPolicyF) {d n k : ℕ} (data : MatF d n)
    (labels : Fin n → ℕ) (D : List F64) (s t : TrainStateF d k)
    (hw : s.weights = t.weights) (hb : s.biases = t.biases) :
    (passF LP data labels D s).weights = (passF LP data labels D t).weights ∧
      (passF LP data labels D s).biases = (passF LP data labels D t).biases ∧
      (passF LP data labels D s).converged = (passF LP data labels D t).converged :=
  foldl_sampleStepF_agree LP data labels D (List.finRange n) _ _ hw hb rfl

lemma cycle_first_pass :
    (passF SimpleWeightUpdateF (intMatF cycleData) cycleLabels []
        { weights := (ZeroInitializationF.Initialize 2 2).1
          biases := (ZeroInitializationF.Initialize 2 2).2, i := 0,
          converged := false }).weights = cycleWeights ∧
      (passF SimpleWeightUpdateF (intMatF cycleData) cycleLabels []
        { weights := (ZeroInitializationF.Initialize 2 2).1
          biases := (ZeroInitializationF.Initialize 2 2).2, i := 0,
          converged := false }).biases = cycleBiases ∧
      (passF SimpleWeightUpdateF (intMatF cycleData) cycleLabels []
        { weights := (ZeroInitializationF.Initialize 2 2).1
          biases := (ZeroInitializationF.Initialize 2 2).2, i := 0,
          converged := false }).converged = false := by
  decide!

lemma cycle_next_pass :
    (passF SimpleWeightUpdateF (intMatF cycleData) cycleLabels []
        { weights := cycleWeights, biases := cycleBiases, i := 0,
          converged := false }).weights = cycleWeights ∧
      (passF SimpleWeightUpdateF (intMatF cycleData) cycleLabels []
        { weights := cycleWeights, biases := cycleBiases, i := 0,
          converged := false }).biases = cycleBiases ∧
      (passF SimpleWeightUpdateF (intMatF cycleData) cycleLabels []
        { weights := cycleWeights, biases := cycleBiases, i := 0,
          converged := false }).converged = false := by
  decide!

/-- On `cycleData` every pass in doubles, from the zero state or from the
cycle state, makes a mistake and ends in the cycle state. -/
lemma cycle_loop (iter fuel : ℕ) (s : TrainStateF 2 2) (hc : s.converged = false)
    (hs : (s.weights = (ZeroInitializationF.Initialize 2 2).1 ∧
        s.biases = (ZeroInitializationF.Initialize 2 2).2) ∨
      (s.weights = cycleWeights ∧ s.biases = cycleBiases)) :
    (trainLoopF SimpleWeightUpdateF iter (intMatF cycleData) cycleLabels [] fuel
      s).converged = false := by
  induction fuel generalizing s with
  | zero => exact hc
  | succ fuel ih =>
    by_cases hg : s.i < iter ∧ s.converged = false
    · rw [trainLoopF_succ_run _ _ _ _ _ _ _ hg]
      rcases hs with ⟨hw, hb⟩ | ⟨hw, hb⟩
      · obtain ⟨a, b, c⟩ := passF_agree SimpleWeightUpdateF (intMatF cycleData) cycleLabels []
          s { weights := (ZeroInitializationF.Initialize 2 2).1
              biases := (ZeroInitializationF.Initialize 2 2).2, i := 0,
              converged := false } hw hb
        obtain ⟨a2, b2, c2⟩ := cycle_first_pass
        exact ih _ (c.trans c2) (Or.inr ⟨a.trans a2, b.trans b2⟩)
      · obtain ⟨a, b, c⟩ := passF_agree SimpleWeightUpdateF (intMatF cycleData) cycleLabels []
          s { weights := cycleWeights, biases := cycleBiases, i := 0,
              converged := false } hw hb
        obtain ⟨a2, b2, c2⟩ := cycle_next_pass
        exact ih _ (c.trans c2) (Or.inr ⟨a.trans a2, b.trans b2⟩)
    · rw [trainLoopF_succ_stop _ _ _ _ _ _ _ hg]
      exact hc

/-- C1 (counterexample): in doubles a separable training set need not
converge.  The columns (2^53, -2^53), (2^54, 4), (2^53 + 2, -2^53) labelled
1, 0, 0 are separated by the weights `cycleU` and biases `cycleUb`, yet
training from the zero initialisation ends every pass with the same weights
(2^54, -2^54; 4, -4) and biases (1, -1) after at least one mistake, so for no
budget does `Train` end with the flag `converged` set. -/
theorem separable_training_cycles_in_doubles :
    numClasses cycleLabels = 2 ∧
      (∀ (j : Fin 3) (y c : Fin 2), y.val = cycleLabels j → c ≠ y →
        activation cycleU cycleUb (col (intMat cycleData) j) c <
          activation cycleU cycleUb (col (intMat cycleData) j) y) ∧
      ∀ iterations : ℕ,
        (TrainF SimpleWeightUpdateF iterations (ZeroInitializationF.Initialize 2 2).1
          (ZeroInitializationF.Initialize 2 2).2 (intMatF cycleData) cycleLabels
          []).converged = false := by
  refine ⟨by decide, by decide!, ?_⟩
  intro iterations
  exact cycle_loop iterations iterations _ rfl (Or.inl ⟨rfl, rfl⟩)

/-- Under separation with margin `g`, exact training from zero weights never
starts more than `⌊2 R^2 |U|^2 / g^2⌋ + 1` passes. -/
lemma trainLoop_passes_le {d n k : ℕ} (U : Mat d k) (ub : Vec k) (g : ℚ) (hg : 0 < g)
    (iter : ℕ) (data : Mat d n) (labels : Fin n → ℕ)
    (hsep : SeparatedBy U ub data labels g) (hlab : ∀ j, labels j < k) (fuel : ℕ) :
    (trainLoop SimpleWeightUpdate iter data labels [] fuel
      ({ weights := 0, biases := 0, i := 0, converged := false } : TrainState d k)).i ≤
      ⌊2 * radiusSq data * frobSq U ub / g ^ 2⌋₊ + 1 := by
  have h0a : align U ub (0 : Mat d k) (0 : Vec k) = 0 := by simp [align]
  have h0f : frobSq (0 : Mat d k) (0 : Vec k) = 0 := by simp [frobSq]
  obtain ⟨hQ, hN⟩ := trainLoop_progress U ub g (radiusSq data) (le_of_lt hg)
    (radiusSq_nonneg data) iter data labels hsep hlab (radiusSq_bound data) fuel
    { weights := 0, biases := 0, i := 0, converged := false }
    (by simp only [h0a, h0f]; simp) (by simp only [h0a]; simp)
  have hb := mistake_bound_arith g (radiusSq data) (frobSq U ub) _ _ _ hg
    (radiusSq_nonneg data) (frobSq_nonneg U ub) (align_sq_le U ub _ _) hQ hN
  generalize (trainLoop SimpleWeightUpdate iter data labels [] fuel
    ({ weights := 0, biases := 0, i := 0, converged := false } : TrainState d k)) = s at hb ⊢
  rcases Nat.eq_zero_or_pos s.i with h0 | hpos
  · omega
  · have hle : (((s.i - 1 : ℕ) : ℚ)) ≤ 2 * radiusSq data * frobSq U ub / g ^ 2 := by
      rw [le_div_iff₀ (pow_pos hg 2)]
      have hc : ((s.i - 1 : ℕ) : ℚ) = (s.i : ℚ) - 1 := by
        rw [Nat.cast_sub hpos]
        simp
      rw [hc]
      have h1 : (s.i : ℚ) - 1 ≤ (s.i : ℚ) - (if s.converged = true then 1 else 0) := by
        split_ifs <;> linarith
      have h2 := mul_le_mul_of_nonneg_left h1 (le_of_lt (pow_pos hg 2))
      linarith
    have := Nat.le_floor hle
    omega

/-- Under separation with margin `g`, exact training from zero weights with a
budget above `⌊2 R^2 |U|^2 / g^2⌋` ends with the flag set. -/
lemma Train_converged_of_large_budget {d n k : ℕ} (U : Mat d k) (ub : Vec k) (g : ℚ)
    (hg : 0 < g) (iter : ℕ) (data : Mat d n) (labels : Fin n → ℕ)
    (hsep : SeparatedBy U ub data labels g) (hlab : ∀ j, labels j < k)
    (hN : ⌊2 * radiusSq data * frobSq U ub / g ^ 2⌋₊ + 1 ≤ iter) :
    (Train SimpleWeightUpdate iter (0 : Mat d k) (0 : Vec k) data labels []).converged =
      true := by
  by_contra hcv
  have hfalse : (Train SimpleWeightUpdate iter (0 : Mat d k) (0 : Vec k) data labels
      []).converged = false := by
    simpa using hcv
  have hexit := trainLoop_exit SimpleWeightUpdate iter data labels [] iter
    ({ weights := 0, biases := 0, i := 0, converged := false } : TrainState d k) (by simp)
  have hi : iter ≤ (Train SimpleWeightUpdate iter (0 : Mat d k) (0 : Vec k) data labels
      []).i := by
    by_contra hlt
    exact hexit ⟨not_le.mp hlt, hfalse⟩
  have hb := Train_mistake_bound U ub g (radiusSq data) hg (radiusSq_nonneg data) iter
    data labels hsep hlab (radiusSq_bound data)
  rw [hfalse] at hb
  simp only [Bool.false_eq_true, if_false, sub_zero] at hb
  have hq : ((Train SimpleWeightUpdate iter (0 : Mat d k) (0 : Vec k) data labels
      []).i : ℚ) ≤ 2 * radiusSq data * frobSq U ub / g ^ 2 := by
    rw [le_div_iff₀ (pow_pos hg 2)]
    linarith
  have hfl := Nat.le_floor hq
  omega

/-- Unweighted training in doubles from zero weights on separated integer data
agrees with exact training when the passes allowed by the mistake bound fit
the magnitude budget. -/
lemma TrainF_exact_of_margin {d n k : ℕ} (data : Matrix (Fin d) (Fin n) ℤ)
    (labels : Fin n → ℕ) (U : Mat d k) (ub : Vec k) (g : ℚ) (hg : 0 < g)
    (hsep : SeparatedBy U ub (intMat data) labels g) (hlab : ∀ j, labels j < k) (A : ℕ)
    (hA : ∀ f j, |data f j| ≤ (A : ℤ))
    (hB : (⌊2 * radiusSq (intMat data) * frobSq U ub / g ^ 2⌋₊ + 1) * n *
      (d * A * A + A + 1) < 2 ^ 53) (iter : ℕ) :
    TrainF SimpleWeightUpdateF iter (ZeroInitializationF.Initialize d k).1
        (ZeroInitializationF.Initialize d k).2 (intMatF data) labels [] =
      embState (Train SimpleWeightUpdate iter (0 : Mat d k) (0 : Vec k) (intMat data)
        labels []) := by
  have hB1 : (⌊2 * radiusSq (intMat data) * frobSq U ub / g ^ 2⌋₊ + 1) * n *
      (1 * (d * A * A + A + 1)) < 2 ^ 53 := by
    rw [Nat.one_mul]
    exact hB
  exact (TrainF_exact_of_bound (intMat data) labels [] A 1 _ le_rfl (intMat_IntLe data A hA)
    (by intro q hq; simp at hq) iter hB1
    (fun fl => trainLoop_passes_le U ub g hg iter (intMat data) labels hsep hlab fl)).1

/-- C1 (amended): for integer data with entries of magnitude at most `A`,
separated with margin `g > 0` by some weights `U` and biases `ub`, such that
the passes allowed by the mistake bound fit the range of exact doubles,
`(⌊2 R^2 |U|^2 / g^2⌋ + 1) * n * (d * A * A + A + 1) < 2^53`, there is a pass
count `N` such that for every iteration budget of at least `N` training in
doubles from the zero initialisation under the canonical update rule ends
with the flag `converged` set. -/
theorem separable_training_converges_exact_regime {d n k : ℕ}
    (data : Matrix (Fin d) (Fin n) ℤ) (labels : Fin n → ℕ) (U : Mat d k) (ub : Vec k)
    (g : ℚ) (hg : 0 < g) (hsep : SeparatedBy U ub (intMat data) labels g)
    (hlab : ∀ j, labels j < k) (A : ℕ) (hA : ∀ f j, |data f j| ≤ (A : ℤ))
    (hB : (⌊2 * radiusSq (intMat data) * frobSq U ub / g ^ 2⌋₊ + 1) * n *
      (d * A * A + A + 1) < 2 ^ 53) :
    ∃ N : ℕ, ∀ iterations : ℕ, N ≤ iterations →
      (TrainF SimpleWeightUpdateF iterations (ZeroInitializationF.Initialize d k).1
        (ZeroInitializationF.Initialize d k).2 (intMatF data) labels []).converged =
        true := by
  refine ⟨⌊2 * radiusSq (intMat data) * frobSq U ub / g ^ 2⌋₊ + 1, ?_⟩
  intro iterations hN
  rw [TrainF_exact_of_margin data labels U ub g hg hsep hlab A hA hB iterations]
  exact Train_converged_of_large_budget U ub g hg iterations (intMat data) labels hsep hlab hN

/-- Witness for amended C1: the two columns (-3), (3) labelled 0, 1 are
separated with margin 21/5 by the weights -4/5 and 3/5 with zero biases. -/
theorem separable_training_converges_exact_regime_witness :
    ∃ N : ℕ, ∀ iterations : ℕ, N ≤ iterations →
      (TrainF SimpleWeightUpdateF iterations (ZeroInitializationF.Initialize 1 2).1
        (ZeroInitializationF.Initialize 1 2).2 (intMatF marginDataZ) marginLabels
        []).converged = true :=
  separable_training_converges_exact_regime marginDataZ marginLabels marginU marginBias
    (21 / 5) (by norm_num) (by unfold SeparatedBy; decide!) (by decide) 3 (by decide)
    (by decide!)

/-! ## The pass count and the mistake bound -/

/-- C10 (counterexample): the pass count can exceed `2 * R^2 / g^2`, and in
doubles even `2 * R^2 / g^2 + 1`.  First, the columns (-3), (3) labelled 0, 1
are separated with margin 21/5 by weights of Frobenius norm 1, `R^2 = 10`, and
training in doubles converges after 2 passes, more than
`2 * R^2 / g^2 = 500/441`: the pass that finds no mistake is counted too.
Second, the columns `(-a, b)`, `(a, b)` with the doubles
`a = 0x1.44adafd72396cp+0`, `b = 0x1.8f666b6511a1dp-1`, labelled 0, 1, are
separated with margin `tightMargin` by weights of Frobenius norm 1, and
training in doubles converges after 3 passes although
`2 * R^2 / g^2 + 1 < 3`: in the second pass the rounded activations of the
first column tie, which exact arithmetic would not let happen. -/
theorem passes_exceed_mistake_bound :
    (frobSq marginU marginBias = 1 ∧ (0 : ℚ) < 21 / 5 ∧
      (∀ (j : Fin 2) (y c : Fin 2), y.val = marginLabels j → c ≠ y →
        activation marginU marginBias (col marginData j) c + 21 / 5 ≤
          activation marginU marginBias (col marginData j) y) ∧
      radiusSq marginData = 10 ∧
      (TrainF SimpleWeightUpdateF 10 (ZeroInitializationF.Initialize 1 2).1
        (ZeroInitializationF.Initialize 1 2).2 (embM marginData) marginLabels
        []).converged = true ∧
      (TrainF SimpleWeightUpdateF 10 (ZeroInitializationF.Initialize 1 2).1
        (ZeroInitializationF.Initialize 1 2).2 (embM marginData) marginLabels []).i = 2 ∧
      ¬ ((2 : ℚ) ≤ 2 * radiusSq marginData / (21 / 5) ^ 2)) ∧
    ((∀ f j, F64.round (tightData f j) = F64.fin (tightData f j)) ∧
      frobSq tightU tightUb = 1 ∧ 0 < tightMargin ∧
      (∀ (j : Fin 2) (y c : Fin 2), y.val = tightLabels j → c ≠ y →
        activation tightU tightUb (col tightData j) c + tightMargin ≤
          activation tightU tightUb (col tightData j) y) ∧
      (TrainF SimpleWeightUpdateF 10 (ZeroInitializationF.Initialize 2 2).1
        (ZeroInitializationF.Initialize 2 2).2 (embM tightData) tightLabels
        []).converged = true ∧
      (TrainF SimpleWeightUpdateF 10 (ZeroInitializationF.Initialize 2 2).1
        (ZeroInitializationF.Initialize 2 2).2 (embM tightData) tightLabels []).i = 3 ∧
      ¬ ((3 : ℚ) ≤ 2 * radiusSq tightData / tightMargin ^ 2 + 1)) := by
  decide!

/-- C10 (amended): for integer data with entries of magnitude at most `A`,
separated with margin `g > 0` by a bias-augmented weight matrix of Frobenius
norm 1, with `R^2` equal to 1 plus the largest squared norm of a sample and
`(⌊2 R^2 / g^2⌋ + 1) * n * (d * A * A + A + 1) < 2^53`, if training in doubles
from the zero initialisation (canonical unweighted update) converges, then
the number of passes it performs is at most `2 * R^2 / g^2 + 1`: at most
`2 * R^2 / g^2` passes make a mistake, and one more finds none. -/
theorem passes_within_mistake_bound_plus_one_exact_regime {d n k : ℕ}
    (data : Matrix (Fin d) (Fin n) ℤ) (labels : Fin n → ℕ) (U : Mat d k) (ub : Vec k)
    (g : ℚ) (hg : 0 < g) (hU : frobSq U ub = 1)
    (hsep : SeparatedBy U ub (intMat data) labels g) (hlab : ∀ j, labels j < k) (A : ℕ)
    (hA : ∀ f j, |data f j| ≤ (A : ℤ))
    (hB : (⌊2 * radiusSq (intMat data) / g ^ 2⌋₊ + 1) * n * (d * A * A + A + 1) < 2 ^ 53)
    (iterations : ℕ)
    (hconv : (TrainF SimpleWeightUpdateF iterations (ZeroInitializationF.Initialize d k).1
      (ZeroInitializationF.Initialize d k).2 (intMatF data) labels []).converged = true) :
    ((TrainF SimpleWeightUpdateF iterations (ZeroInitializationF.Initialize d k).1
      (ZeroInitializationF.Initialize d k).2 (intMatF data) labels []).i : ℚ) ≤
      2 * radiusSq (intMat data) / g ^ 2 + 1 := by
  have hB2 : (⌊2 * radiusSq (intMat data) * frobSq U ub / g ^ 2⌋₊ + 1) * n *
      (d * A * A + A + 1) < 2 ^ 53 := by
    rw [hU, mul_one]
    exact hB
  rw [TrainF_exact_of_margin data labels U ub g hg hsep hlab A hA hB2 iterations] at hconv ⊢
  have hconv2 : (Train SimpleWeightUpdate iterations (0 : Mat d k) (0 : Vec k) (intMat data)
      labels []).converged = true := hconv
  show ((Train SimpleWeightUpdate iterations (0 : Mat d k) (0 : Vec k) (intMat data)
      labels []).i : ℚ) ≤ _
  have hb := Train_mistake_bound U ub g (radiusSq (intMat data)) hg
    (radiusSq_nonneg (intMat data)) iterations (intMat data) labels hsep hlab
    (radiusSq_bound (intMat data))
  rw [hconv2, hU] at hb
  simp only [if_true, mul_one] at hb
  rw [← sub_le_iff_le_add, le_div_iff₀ (pow_pos hg 2)]
  linarith

/-- Witness for amended C10 on the two columns (-3), (3) labelled 0, 1. -/
theorem passes_within_mistake_bound_plus_one_exact_regime_witness :
    ((TrainF SimpleWeightUpdateF 10 (ZeroInitializationF.Initialize 1 2).1
      (ZeroInitializationF.Initialize 1 2).2 (intMatF marginDataZ) marginLabels []).i : ℚ) ≤
      2 * radiusSq (intMat marginDataZ) / (21 / 5) ^ 2 + 1 :=
  passes_within_mistake_bound_plus_one_exact_regime marginDataZ marginLabels marginU
    marginBias (21 / 5) (by norm_num) (by decide!) (by unfold SeparatedBy; decide!)
    (by decide) 3 (by decide) (by decide!) 10 (by decide!)

/-! ## Classification in doubles -/

lemma gt_true_iff (a b : F64) (hb : b ≠ F64.nan) :
    F64.gt a b = true ↔ F64.rank b < F64.rank a := by
  cases a <;> simp [F64.gt, F64.rank, hb]

lemma rank_pos_ne_nan (a b : F64) (h : F64.rank b < F64.rank a) : a ≠ F64.nan := by
  intro e
  rw [e] at h
  exact not_lt_bot h

/-- Invariant of the maximum scan over doubles after `i ≥ 1` entries: the
recorded value is not a NaN and ranks as the entry at the recorded index, no
visited entry ranks higher, and every entry before the recorded index ranks
strictly lower. -/
lemma maxLoopF_spec {k : ℕ} (v : VecF k) (i : ℕ) (hi : i ≤ k) (hpos : 0 < i) :
    ∃ h : (maxLoopF v i).2 < k, (maxLoopF v i).2 < i ∧
      (maxLoopF v i).1 ≠ F64.nan ∧
      F64.rank (maxLoopF v i).1 = F64.rank (v ⟨(maxLoopF v i).2, h⟩) ∧
      (∀ c : Fin k, c.val < i → F64.rank (v c) ≤ F64.rank (v ⟨(maxLoopF v i).2, h⟩)) ∧
      (∀ c : Fin k, c.val < (maxLoopF v i).2 →
        F64.rank (v c) < F64.rank (v ⟨(maxLoopF v i).2, h⟩)) := by
  induction i with
  | zero => omega
  | succ i ih =>
    have hik : i < k := by omega
    rcases Nat.eq_zero_or_pos i with h0 | hip
    · subst h0
      by_cases hcmp : F64.gt (v ⟨0, hik⟩) F64.ninf = true
      · have h1 : maxLoopF v 1 = (v ⟨0, hik⟩, 0) := by
          simp [maxLoopF, hik, hcmp]
        rw [h1]
        have hr := (gt_true_iff _ _ (by decide)).mp hcmp
        refine ⟨hik, by simp, rank_pos_ne_nan _ _ hr, rfl, ?_, ?_⟩
        · intro c hc
          have : c = ⟨0, hik⟩ := Fin.ext (by simpa using hc)
          rw [this]
        · intro c hc
          simp at hc
      · have h1 : maxLoopF v 1 = (F64.ninf, 0) := by
          simp [maxLoopF, hik, hcmp]
        rw [h1]
        have hr : ¬ (F64.rank F64.ninf < F64.rank (v ⟨0, hik⟩)) := fun h =>
          hcmp ((gt_true_iff _ _ (by decide)).mpr h)
        have hbot : F64.rank (v ⟨0, hik⟩) = ⊥ := by
          have : F64.rank (v ⟨0, hik⟩) ≤ F64.rank F64.ninf := not_lt.mp hr
          exact le_bot_iff.mp this
        refine ⟨hik, by simp, by decide, hbot.symm, ?_, ?_⟩
        · intro c hc
          have : c = ⟨0, hik⟩ := Fin.ext (by simpa using hc)
          rw [this]
        · intro c hc
          simp at hc
    · obtain ⟨hlt, hidx, hnan, hval, hge, hfirst⟩ := ih (by omega) hip
      by_cases hcmp : F64.gt (v ⟨i, hik⟩) (maxLoopF v i).1 = true
      · have h1 : maxLoopF v (i + 1) = (v ⟨i, hik⟩, i) := by
          simp [maxLoopF, hik, hcmp]
        rw [h1]
        have hr := (gt_true_iff _ _ hnan).mp hcmp
        rw [hval] at hr
        refine ⟨hik, by simp, rank_pos_ne_nan _ _ hr, rfl, ?_, ?_⟩
        · intro c hc
          rcases Nat.lt_succ_iff_lt_or_eq.mp hc with hci | hci
          · exact le_trans (hge c hci) (le_of_lt hr)
          · have : c = ⟨i, hik⟩ := Fin.ext hci
            rw [this]
        · intro c hc
          exact lt_of_le_of_lt (hge c hc) hr
      · have h1 : maxLoopF v (i + 1) = maxLoopF v i := by
          simp [maxLoopF, hik, hcmp]
        rw [h1]
        have hr : ¬ (F64.rank (maxLoopF v i).1 < F64.rank (v ⟨i, hik⟩)) := fun h =>
          hcmp ((gt_true_iff _ _ hnan).mpr h)
        rw [hval] at hr
        refine ⟨hlt, by omega, hnan, hval, ?_, hfirst⟩
        intro c hc
        rcases Nat.lt_succ_iff_lt_or_eq.mp hc with hci | hci
        · exact hge c hci
        · have : c = ⟨i, hik⟩ := Fin.ext hci
          rw [this]
          exact not_lt.mp hr

lemma maxIndexF_lt {k : ℕ} (v : VecF k) (hk : 0 < k) : maxIndexF v < k :=
  (maxLoopF_spec v k le_rfl hk).1

lemma maxIndexRowColF_fst {k : ℕ} (v : VecF k) : (maxIndexRowColF v).1 = maxIndexF v := by
  rcases Nat.eq_zero_or_pos k with hk | hk
  · subst hk
    simp [maxIndexRowColF]
  · exact Nat.mod_eq_of_lt (maxIndexF_lt v hk)

/-- C4: with at least one class, the label `Classify` writes at position `i` is
a class index whose activation, as computed in doubles, is maximal, and it is
the smallest such index: no class has an activation that ranks higher, and
every class of lower index has an activation that ranks strictly lower (in
the order of the doubles, in which minus infinity and NaN, which never
compares greater, rank lowest).  In terms of the comparison of doubles: no
activation compares greater than the chosen one, and the chosen one compares
greater than every activation of lower index that is not a NaN.  The row that
`Train` reads from `max(row, col)` for the same sample under the same weights
and biases is the same index. -/
theorem classify_is_lowest_index_argmax_doubles {d m : ℕ} (p : PerceptronF d)
    (hk : 0 < p.k) (test : MatF d m) (i : Fin m) :
    ∃ h : ClassifyF p test i < p.k,
      (∀ c : Fin p.k, F64.rank (activationF p.weights p.biases (colF test i) c) ≤
        F64.rank (activationF p.weights p.biases (colF test i) ⟨ClassifyF p test i, h⟩)) ∧
      (∀ c : Fin p.k, c.val < ClassifyF p test i →
        F64.rank (activationF p.weights p.biases (colF test i) c) <
          F64.rank (activationF p.weights p.biases (colF test i) ⟨ClassifyF p test i, h⟩)) ∧
      (∀ c : Fin p.k, F64.gt (activationF p.weights p.biases (colF test i) c)
        (activationF p.weights p.biases (colF test i) ⟨ClassifyF p test i, h⟩) = false) ∧
      (∀ c : Fin p.k, c.val < ClassifyF p test i →
        activationF p.weights p.biases (colF test i) c ≠ F64.nan →
        F64.gt (activationF p.weights p.biases (colF test i) ⟨ClassifyF p test i, h⟩)
          (activationF p.weights p.biases (colF test i) c) = true) ∧
      (maxIndexRowColF (activationF p.weights p.biases (colF test i))).1 =
        ClassifyF p test i := by
  obtain ⟨hlt, -, -, -, hge0, hfirst⟩ :=
    maxLoopF_spec (activationF p.weights p.biases (colF test i)) p.k le_rfl hk
  have hge : ∀ c : Fin p.k, F64.rank (activationF p.weights p.biases (colF test i) c) ≤
      F64.rank (activationF p.weights p.biases (colF test i) ⟨ClassifyF p test i, hlt⟩) :=
    fun c => hge0 c c.isLt
  refine ⟨hlt, hge, hfirst, ?_, ?_, maxIndexRowColF_fst _⟩
  · intro c
    by_contra hgt
    have hgt2 : F64.gt (activationF p.weights p.biases (colF test i) c)
        (activationF p.weights p.biases (colF test i) ⟨ClassifyF p test i, hlt⟩) = true := by
      simpa using hgt
    have hm : activationF p.weights p.biases (colF test i) ⟨ClassifyF p test i, hlt⟩ ≠
        F64.nan := by
      intro e
      rw [e] at hgt2
      simp [F64.gt] at hgt2
    exact absurd ((gt_true_iff _ _ hm).mp hgt2) (not_lt.mpr (hge c))
  · intro c hc hnan
    exact (gt_true_iff _ _ hnan).mpr (hfirst c hc)

/-- Witness for C4: both weights are 2^53 and the biases are 0 and 1; on the
column (1) the second activation 2^53 + 1 is rounded to 2^53, the computed
activations tie, and `Classify` writes the lowest index 0. -/
theorem classify_is_lowest_index_argmax_doubles_witness :
    (activationF tiePerceptron.weights tiePerceptron.biases (colF tieTest 0) =
        fun _ => F64.fin (2 ^ 53)) ∧
      ClassifyF tiePerceptron tieTest 0 = 0 ∧
      ∃ h : ClassifyF tiePerceptron tieTest 0 < tiePerceptron.k,
        ∀ c : Fin tiePerceptron.k,
          F64.rank (activationF tiePerceptron.weights tiePerceptron.biases
            (colF tieTest 0) c) ≤
          F64.rank (activationF tiePerceptron.weights tiePerceptron.biases (colF tieTest 0)
            ⟨ClassifyF tiePerceptron tieTest 0, h⟩) :=
  ⟨by decide!, by decide!,
    (classify_is_lowest_index_argmax_doubles tiePerceptron (by decide) tieTest 0).imp
      (fun _ hh => hh.1)⟩

/-! ## The phantom class -/

/-- When the class sums vanish and class `p > 0` has zero weights and bias,
the maximum scan never returns `p`: either some activation is positive, or all
are zero and the scan returns index 0. -/
lemma phantom_not_argmax {d k : ℕ} (p : Fin k) (hp : 0 < p.val) (W : Mat d k) (b : Vec k)
    (h : PhantomZero p W b) (x : Vec d) : maxIndex (activation W b x) ≠ p.val := by
  obtain ⟨hW, hb, hWp, hbp⟩ := h
  have hk : 0 < k := lt_of_le_of_lt (Nat.zero_le _) p.isLt
  have hsum : ∑ c, activation W b x c = 0 := by
    simp only [activation_apply]
    rw [Finset.sum_add_distrib, Finset.sum_comm, hb, add_zero]
    apply Finset.sum_eq_zero
    intro f _
    rw [← Finset.sum_mul, hW f, zero_mul]
  have hvp : activation W b x p = 0 := by
    rw [activation_apply, hbp, add_zero]
    apply Finset.sum_eq_zero
    intro f _
    rw [hWp f, zero_mul]
  intro e
  have hidx : (⟨maxIndex (activation W b x), maxIndex_lt _ hk⟩ : Fin k) = p := Fin.ext e
  have hge : ∀ c, activation W b x c ≤ 0 := by
    intro c
    have := maxIndex_ge (activation W b x) hk c
    rw [hidx, hvp] at this
    exact this
  have hfirst : activation W b x ⟨0, hk⟩ < 0 := by
    have := maxIndex_first (activation W b x) hk ⟨0, hk⟩ (by rw [e]; exact hp)
    rw [hidx, hvp] at this
    exact this
  have hlt : ∑ c, activation W b x c < ∑ _c : Fin k, (0 : ℚ) :=
    Finset.sum_lt_sum (fun c _ => hge c) ⟨⟨0, hk⟩, Finset.mem_univ _, hfirst⟩
  rw [hsum] at hlt
  simp at hlt

lemma sampleStep_phantom {d n k : ℕ} (data : Mat d n) (labels : Fin n → ℕ)
    (hlab : ∀ j, labels j < k) (p : Fin k) (hp : 0 < p.val) (hnever : ∀ j, labels j ≠ p.val)
    (s : TrainState d k) (hs : PhantomZero p s.weights s.biases) (j : Fin n) :
    PhantomZero p (sampleStep SimpleWeightUpdate data labels [] s j).weights
      (sampleStep SimpleWeightUpdate data labels [] s j).biases := by
  obtain ⟨c1, c2⟩ := sampleStep_class_sums data labels [] hlab s j
  have hpred := phantom_not_argmax p hp s.weights s.biases hs (col data j)
  obtain ⟨hW, hb, hWp, hbp⟩ := hs
  refine ⟨fun f => (c1 f).trans (hW f), c2.trans hb, ?_, ?_⟩
  · intro f
    by_cases hne : maxIndex (activation s.weights s.biases (col data j)) ≠ labels j
    · rw [sampleStep_wrong_eq data labels s j hne]
      simp only [SimpleWeightUpdate, colAdd, colSub, (hnever j).symm, hpred.symm, if_false]
      exact hWp f
    · have e : sampleStep SimpleWeightUpdate data labels [] s j = s := by
        unfold sampleStep
        simp only [maxIndexRowCol_fst, hne, if_false]
      rw [e]
      exact hWp f
  · by_cases hne : maxIndex (activation s.weights s.biases (col data j)) ≠ labels j
    · rw [sampleStep_wrong_eq data labels s j hne]
      simp only [SimpleWeightUpdate, entryAdd, entrySub, (hnever j).symm, hpred.symm, if_false]
      exact hbp
    · have e : sampleStep SimpleWeightUpdate data labels [] s j = s := by
        unfold sampleStep
        simp only [maxIndexRowCol_fst, hne, if_false]
      rw [e]
      exact hbp

lemma foldl_sampleStep_phantom {d n k : ℕ} (data : Mat d n) (labels : Fin n → ℕ)
    (hlab : ∀ j, labels j < k) (p : Fin k) (hp : 0 < p.val) (hnever : ∀ j, labels j ≠ p.val)
    (js : List (Fin n)) (s : TrainState d k) (hs : PhantomZero p s.weights s.biases) :
    PhantomZero p (js.foldl (sampleStep SimpleWeightUpdate data labels []) s).weights
      (js.foldl (sampleStep SimpleWeightUpdate data labels []) s).biases := by
  induction js generalizing s with
  | nil => exact hs
  | cons j js ih =>
    rw [List.foldl_cons]
    exact ih _ (sampleStep_phantom data labels hlab p hp hnever s hs j)

lemma trainLoop_phantom {d n k : ℕ} (iter : ℕ) (data : Mat d n) (labels : Fin n → ℕ)
    (hlab : ∀ j, labels j < k) (p : Fin k) (hp : 0 < p.val) (hnever : ∀ j, labels j ≠ p.val)
    (fuel : ℕ) (s : TrainState d k) (hs : PhantomZero p s.weights s.biases) :
    PhantomZero p (trainLoop SimpleWeightUpdate iter data labels [] fuel s).weights
      (trainLoop SimpleWeightUpdate iter data labels [] fuel s).biases := by
  induction fuel generalizing s with
  | zero => exact hs
  | succ fuel ih =>
    by_cases hc : s.i < iter ∧ s.converged = false
    · rw [trainLoop_succ_run SimpleWeightUpdate iter data labels [] fuel s hc]
      apply ih
      exact foldl_sampleStep_phantom data labels hlab p hp hnever (List.finRange n)
        { weights := s.weights, biases := s.biases, i := s.i + 1, converged := true } hs
    · rw [trainLoop_succ_stop SimpleWeightUpdate iter data labels [] fuel s hc]
      exact hs

/-- In exact arithmetic a class `p > 0` that never occurs among the labels is
never output under the weights that unweighted training from zero leaves. -/
lemma Train_phantom_never_predicted {d n k : ℕ} (iter : ℕ) (data : Mat d n)
    (labels : Fin n → ℕ) (hlab : ∀ j, labels j < k) (p : Fin k) (hp : 0 < p.val)
    (hnever : ∀ j, labels j ≠ p.val) (x : Vec d) :
    maxIndex (activation
      (Train SimpleWeightUpdate iter (0 : Mat d k) (0 : Vec k) data labels []).weights
      (Train SimpleWeightUpdate iter (0 : Mat d k) (0 : Vec k) data labels []).biases x) ≠
      p.val :=
  phantom_not_argmax p hp _ _
    (trainLoop_phantom iter data labels hlab p hp hnever iter
      { weights := 0, biases := 0, i := 0, converged := false }
      ⟨fun _ => by simp, by simp, fun _ => rfl, rfl⟩) x

/-- C9 (counterexample): a class that never occurs among the labels can be
output.  First, the phantom class 0: after training on the single column (1)
labelled 1, `Classify` maps the column (-3) to class 0.  Second, a phantom
class above 0 in doubles: after one pass over the columns (-(2^53 + 4)), (1),
(-(2^53 + 4)) labelled 3, 2, 0, in which class 1 never occurs, the weights are
(0, 0, 1, 0) and the biases (-1, 0, 1, 0), whose class sums are no longer
zero because the second update's subtraction of 1 from the weight 2^53 + 4 was
rounded back to 2^53 + 4, and `Classify` maps the column (-(2^53 + 4)) to
class 1. -/
theorem phantom_class_can_win :
    ((0 < maxLabel phantomLabels + 1 ∧ maxLabel phantomLabels + 1 < 2 ^ 64 ∧
        ∀ j, phantomLabels j ≠ 0) ∧
      ClassifyF (PerceptronF.fresh SimpleWeightUpdateF ZeroInitializationF
        (embM phantomData) phantomLabels 10) (embM phantomTest) 0 = 0) ∧
    ((1 < maxLabel driftLabels + 1 ∧ maxLabel driftLabels + 1 < 2 ^ 64 ∧
        ∀ j, driftLabels j ≠ 1) ∧
      ClassifyF (PerceptronF.fresh SimpleWeightUpdateF ZeroInitializationF
        (intMatF driftData) driftLabels 1) (intMatF driftTest) 0 = 1) := by
  decide!

/-- C9 (amended): for integer training and test data with entries of magnitude
at most `A`, non-empty labels below 2^64 - 1 and a budget with
`iterations * n * (d * A * A + A + 1) < 2^53`, a class index `p > 0` below
`max(label) + 1` that never occurs among the labels is never output by the
perceptron that the fresh-training constructor builds in doubles (zero
initialisation, canonical update): no entry of `Classify`'s result equals
`p`. -/
theorem phantom_class_loses_exact_regime {d n m : ℕ} (data : Matrix (Fin d) (Fin n) ℤ)
    (labels : Fin n → ℕ) (test : Matrix (Fin d) (Fin m) ℤ) (p iterations A : ℕ)
    (_hn : 0 < n) (hwrap : maxLabel labels + 1 < 2 ^ 64) (hp : p < maxLabel labels + 1)
    (hpos : 0 < p) (hnever : ∀ j, labels j ≠ p) (hA : ∀ f j, |data f j| ≤ (A : ℤ))
    (hAt : ∀ f j, |test f j| ≤ (A : ℤ))
    (hB : iterations * n * (d * A * A + A + 1) < 2 ^ 53) (i : Fin m) :
    ClassifyF (PerceptronF.fresh SimpleWeightUpdateF ZeroInitializationF (intMatF data)
      labels iterations) (intMatF test) i ≠ p := by
  have hk : numClasses labels = maxLabel labels + 1 := Nat.mod_eq_of_lt hwrap
  have hpk : p < numClasses labels := by
    rw [hk]
    exact hp
  have hlab := label_lt_numClasses labels hwrap
  have hB1 : iterations * n * (1 * (d * A * A + A + 1)) < 2 ^ 53 := by
    rw [Nat.one_mul]
    exact hB
  obtain ⟨t1, t2⟩ := TrainF_exact (k := numClasses labels) (intMat data) labels [] A 1 le_rfl
    (intMat_IntLe data A hA) (by intro q hq; simp at hq) iterations hB1
  have hx : ∀ f, IntLe A (col (intMat test) i f) := fun f => intMat_IntLe test A hAt f i
  have hbud : d * (iterations * n * (1 * A) * A) + iterations * n * 1 < 2 ^ 53 := by
    have e : iterations * n * (d * A * A + A + 1) =
        (d * (iterations * n * (1 * A) * A) + iterations * n * 1) + iterations * n * A := by
      ring
    omega
  have hact := activationF_exact
    (Train SimpleWeightUpdate iterations (0 : Mat d (numClasses labels)) 0 (intMat data)
      labels []).weights
    (Train SimpleWeightUpdate iterations (0 : Mat d (numClasses labels)) 0 (intMat data)
      labels []).biases (col (intMat test) i) _ _ A t2.1 t2.2 hx hbud
  show maxIndexF (activationF
    (TrainF SimpleWeightUpdateF iterations (ZeroInitializationF.Initialize d
      (numClasses labels)).1 (ZeroInitializationF.Initialize d (numClasses labels)).2
      (intMatF data) labels []).weights
    (TrainF SimpleWeightUpdateF iterations (ZeroInitializationF.Initialize d
      (numClasses labels)).1 (ZeroInitializationF.Initialize d (numClasses labels)).2
      (intMatF data) labels []).biases (colF (intMatF test) i)) ≠ p
  have t1b : TrainF SimpleWeightUpdateF iterations (ZeroInitializationF.Initialize d
      (numClasses labels)).1 (ZeroInitializationF.Initialize d (numClasses labels)).2
      (intMatF data) labels [] = embState (Train SimpleWeightUpdate iterations
        (0 : Mat d (numClasses labels)) 0 (intMat data) labels []) := t1
  rw [t1b]
  show maxIndexF (activationF (embM _) (embV _) (embV (col (intMat test) i))) ≠ p
  rw [hact, maxIndexF_embV]
  exact Train_phantom_never_predicted iterations (intMat data) labels hlab ⟨p, hpk⟩ hpos
    hnever _

/-- Witness for amended C9: the example scenario relabelled 0, 0, 2, 2, where
class 1 never occurs; on the test columns (0, 1) and (5, 6) class 1 is not
output. -/
theorem phantom_class_loses_exact_regime_witness :
    ((1 < maxLabel (![0, 0, 2, 2] : Fin 4 → ℕ) + 1 ∧
        ∀ j, (![0, 0, 2, 2] : Fin 4 → ℕ) j ≠ 1) ∧
      10 * 4 * (2 * 6 * 6 + 6 + 1) < 2 ^ 53) ∧
      ClassifyF (PerceptronF.fresh SimpleWeightUpdateF ZeroInitializationF
        (intMatF exampleDataZ) (![0, 0, 2, 2] : Fin 4 → ℕ) 10) (intMatF exampleDataZ) 1 ≠ 1 ∧
      ClassifyF (PerceptronF.fresh SimpleWeightUpdateF ZeroInitializationF
        (intMatF exampleDataZ) (![0, 0, 2, 2] : Fin 4 → ℕ) 10) (intMatF exampleDataZ) 3 ≠ 1 :=
  ⟨⟨⟨by decide, by decide⟩, by decide⟩,
    phantom_class_loses_exact_regime exampleDataZ ![0, 0, 2, 2] exampleDataZ 1 10 6
      (by decide) (by decide) (by decide) (by decide) (by decide) (by decide) (by decide)
      (by decide) 1,
    phantom_class_loses_exact_regime exampleDataZ ![0, 0, 2, 2] exampleDataZ 1 10 6
      (by decide) (by decide) (by decide) (by decide) (by decide) (by decide) (by decide)
      (by decide) 3⟩

/-! ## Range-checked constructors and the wrapping class count -/

lemma maxLabel_labelsOf_lt (labels : List ℕ) (n : ℕ)
    (hsmall : ∀ l ∈ labels, l < 2 ^ 64 - 1) : maxLabel (labelsOf labels n) + 1 < 2 ^ 64 := by
  have h : maxLabel (labelsOf labels n) ≤ 2 ^ 64 - 2 := by
    apply Finset.sup_le
    intro j _
    unfold labelsOf
    by_cases hj : j.val < labels.length
    · rw [List.getD_eq_getElem _ _ hj]
      have := hsmall _ (List.getElem_mem hj)
      omega
    · rw [List.getD_eq_default _ _ (by omega)]
      exact Nat.zero_le _
  omega

/-- C12 (counterexample): a non-empty labels row with one entry per data column
can still lead to an access out of range.  With the single label 2^64 - 1 the
class count `max(label) + 1` wraps to 0 in `size_t`, the weights have no
column and the biases no entry, and the first sample visited by `Train`
indexes out of range in both constructors. -/
theorem max_label_wraps_class_count :
    ([2 ^ 64 - 1] : List ℕ) ≠ [] ∧ ([2 ^ 64 - 1] : List ℕ).length = 1 ∧
      numClasses (labelsOf [2 ^ 64 - 1] 1) = 0 ∧
      (freshChecked SimpleWeightUpdate ZeroInitialization phantomData [2 ^ 64 - 1]
        1).isSome = false ∧
      (boostChecked SimpleWeightUpdate ZeroInitialization otherZero phantomData []
        [2 ^ 64 - 1]).isSome = false := by
  decide!

/-- C12 (amended): if `labels` is non-empty with one entry per data column,
every label is below 2^64 - 1 (so that `max(label) + 1` does not wrap) and the
cost vector is empty or has one entry per data column, then both constructors,
run with every index checked (sample index against the data columns and the
labels row, predicted class and label against the `max(label) + 1` columns of
the weights and entries of the biases, `D(j)` against the cost vector), never
index out of range: they return the instances the constructors return, and
every label is below the class count `max(label) + 1`; and `Classify`, run
with every index checked on an instance with at least one class and an output
row with one entry per test column, never indexes out of range either and
returns the labels of `Classify`. -/
theorem no_out_of_range_access_below_wrap (LP : LearnPolicy)
    (WIP : WeightInitializationPolicy) {d0 d n m : ℕ} (other : Perceptron d0)
    (data : Mat d n) (labels : List ℕ) (D : List ℚ) (iterations : ℕ) (p : Perceptron d)
    (test : Mat d m) (predictedLabels : List ℕ) (hne : labels ≠ [])
    (hlen : labels.length = n) (hsmall : ∀ l ∈ labels, l < 2 ^ 64 - 1)
    (hD : D = [] ∨ D.length = n) (hk : 0 < p.k) (hout : predictedLabels.length = m) :
    freshChecked LP WIP data labels iterations =
        some (Perceptron.fresh LP WIP data (labelsOf labels n) iterations) ∧
      boostChecked LP WIP other data D labels =
        some (Perceptron.boost LP WIP other data D (labelsOf labels n)) ∧
      numClasses (labelsOf labels n) = maxLabel (labelsOf labels n) + 1 ∧
      (∀ j, labelsOf labels n j < numClasses (labelsOf labels n)) ∧
      ClassifyChecked p test predictedLabels = some (List.ofFn (Classify p test)) := by
  have hwrap := maxLabel_labelsOf_lt labels n hsmall
  have hlab := label_lt_numClasses (labelsOf labels n) hwrap
  refine ⟨?_, ?_, Nat.mod_eq_of_lt hwrap, hlab,
    ClassifyChecked_eq p hk test predictedLabels hout⟩
  · unfold freshChecked
    rw [maxChecked_eq labels n hne hlen]
    simp only
    have e := TrainChecked_eq LP iterations
      (WIP.Initialize d (numClasses (labelsOf labels n))).1
      (WIP.Initialize d (numClasses (labelsOf labels n))).2 data labels [] hlen (Or.inl rfl)
      hlab
    unfold numClasses at e
    rw [e]
    rfl
  · unfold boostChecked
    rw [maxChecked_eq labels n hne hlen]
    simp only
    have e := TrainChecked_eq LP other.iter
      (WIP.Initialize d (numClasses (labelsOf labels n))).1
      (WIP.Initialize d (numClasses (labelsOf labels n))).2 data labels D hlen hD hlab
    unfold numClasses at e
    rw [e]
    rfl

/-- Witness for amended C12: the example scenario with labels 0, 0, 1, 1, costs
1, 2, 3, 4 and an output row of two entries. -/
theorem no_out_of_range_access_below_wrap_witness :
    freshChecked SimpleWeightUpdate ZeroInitialization exampleData [0, 0, 1, 1] 10 =
        some (Perceptron.fresh SimpleWeightUpdate ZeroInitialization exampleData
          (labelsOf [0, 0, 1, 1] 4) 10) ∧
      boostChecked SimpleWeightUpdate ZeroInitialization otherZero exampleData [1, 2, 3, 4]
          [0, 0, 1, 1] =
        some (Perceptron.boost SimpleWeightUpdate ZeroInitialization otherZero exampleData
          [1, 2, 3, 4] (labelsOf [0, 0, 1, 1] 4)) ∧
      numClasses (labelsOf [0, 0, 1, 1] 4) = maxLabel (labelsOf [0, 0, 1, 1] 4) + 1 ∧
      (∀ j, labelsOf [0, 0, 1, 1] 4 j < numClasses (labelsOf [0, 0, 1, 1] 4)) ∧
      ClassifyChecked otherZero exampleTest [7, 7] =
        some (List.ofFn (Classify otherZero exampleTest)) :=
  no_out_of_range_access_below_wrap SimpleWeightUpdate ZeroInitialization otherZero
    exampleData [0, 0, 1, 1] [1, 2, 3, 4] 10 otherZero exampleTest [7, 7] (by decide) rfl
    (by decide) (Or.inr rfl) (by decide) rfl

/-! ## Dimensions at run time -/

lemma le_foldl_max (ls : List ℕ) (a : ℕ) :
    a ≤ ls.foldl max a ∧ ∀ l ∈ ls, l ≤ ls.foldl max a := by
  induction ls generalizing a with
  | nil => exact ⟨le_rfl, fun l hl => by simp at hl⟩
  | cons x xs ih =>
    obtain ⟨h1, h2⟩ := ih (max a x)
    refine ⟨le_trans (le_max_left a x) h1, ?_⟩
    intro l hl
    rcases List.mem_cons.mp hl with e | hmem
    · rw [e]
      exact le_trans (le_max_right a x) h1
    · exact h2 l hmem

lemma maxChecked_ge (labels : List ℕ) (mx : ℕ) (h : maxChecked labels = some mx) :
    ∀ l ∈ labels, l ≤ mx := by
  cases labels with
  | nil => simp [maxChecked] at h
  | cons x xs =>
    have e : xs.foldl max x = mx := by simpa [maxChecked] using h
    obtain ⟨h1, h2⟩ := le_foldl_max xs x
    intro l hl
    rcases List.mem_cons.mp hl with e2 | hmem
    · rw [e2, ← e]
      exact h1
    · rw [← e]
      exact h2 l hmem

lemma rawStep_dims (x : RawVec) (W : RawMat) (b : RawVec) (p y : ℕ) (step : ℕ → F64)
    (biasStep : F64) (r : RawMat × RawVec) (h : rawStep x W b p y step biasStep = some r) :
    r.1.n_rows = W.n_rows ∧ r.1.n_cols = W.n_cols ∧ r.2.n_elem = b.n_elem := by
  unfold rawStep at h
  split_ifs at h
  simp only [Option.some.injEq] at h
  rw [← h]
  exact ⟨rfl, rfl, rfl⟩

lemma rawStep_isSome (x : RawVec) (W : RawMat) (b : RawVec) (p y : ℕ) (step : ℕ → F64)
    (biasStep : F64) (hx : x.n_elem = W.n_rows) (hb : b.n_elem = W.n_cols)
    (hp : p < W.n_cols) (hy : y < W.n_cols) :
    (rawStep x W b p y step biasStep).isSome = true := by
  unfold rawStep
  rw [if_pos ⟨hx, hp, hy, by omega, by omega⟩]
  rfl

/-- The canonical update policy keeps its contract. -/
lemma rawSimpleUpdate_contract : UpdateContract rawSimpleUpdate :=
  ⟨fun x W b p y r h => rawStep_dims x W b p y _ _ r h,
    fun x W b p y _ r h => rawStep_dims x W b p y _ _ r h,
    fun x W b p y hx hb hp hy => rawStep_isSome x W b p y _ _ hx hb hp hy,
    fun x W b p y _ hx hb hp hy => rawStep_isSome x W b p y _ _ hx hb hp hy⟩

/-- The zero initialisation keeps its contract. -/
lemma rawZeroInit_contract : InitContract rawZeroInit :=
  fun _ _ _ _ => ⟨rfl, rfl, rfl⟩

/-- A sample step that returns leaves the dimensions as they were. -/
lemma rawSampleStep_dims (LP : RawLearnPolicy) (hLP : UpdateContract LP) (data : RawMat)
    (labels : List ℕ) (D : List F64) (s s2 : RawState) (j d k : ℕ)
    (hs : HasDims d k s.weights s.biases)
    (h : rawSampleStep LP data labels D s j = some s2) :
    HasDims d k s2.weights s2.biases := by
  obtain ⟨c1, c2, -, -⟩ := hLP
  unfold rawSampleStep at h
  split at h
  · exact absurd h (by simp)
  · split at h
    · exact absurd h (by simp)
    · split at h
      · exact absurd h (by simp)
      · split at h
        · exact absurd h (by simp)
        · split_ifs at h
          · split at h
            · exact absurd h (by simp)
            · split at h
              · exact absurd h (by simp)
              · rename_i r hr
                simp only [Option.some.injEq] at h
                rw [← h]
                obtain ⟨a1, a2, a3⟩ := c2 _ _ _ _ _ _ r hr
                exact ⟨a1.trans hs.1, a2.trans hs.2.1, a3.trans hs.2.2⟩
          · split at h
            · exact absurd h (by simp)
            · rename_i r hr
              simp only [Option.some.injEq] at h
              rw [← h]
              obtain ⟨a1, a2, a3⟩ := c1 _ _ _ _ _ r hr
              exact ⟨a1.trans hs.1, a2.trans hs.2.1, a3.trans hs.2.2⟩
          · simp only [Option.some.injEq] at h
            rw [← h]
            exact hs

/-- With conforming dimensions, at least one class, a sample index below the
column count, a label for it that is below the class count and a cost for it
when costs are given, the sample step returns. -/
lemma rawSampleStep_isSome (LP : RawLearnPolicy) (hLP : UpdateContract LP) (data : RawMat)
    (labels : List ℕ) (D : List F64) (s : RawState) (j k : ℕ)
    (hs : HasDims data.n_rows k s.weights s.biases) (hk : 0 < k) (hj : j < data.n_cols)
    (hlj : j < labels.length) (hlab : ∀ l ∈ labels, l < k)
    (hD : D = [] ∨ j < D.length) :
    (rawSampleStep LP data labels D s j).isSome = true := by
  obtain ⟨-, -, c3, c4⟩ := hLP
  obtain ⟨d1, d2, d3⟩ := hs
  obtain ⟨x, hcol, hxn⟩ : ∃ x, data.col j = some x ∧ x.n_elem = data.n_rows := by
    unfold RawMat.col
    rw [if_pos hj]
    exact ⟨_, rfl, rfl⟩
  obtain ⟨act, hact, han⟩ : ∃ act, rawActivation s.weights s.biases x = some act ∧
      act.n_elem = k := by
    unfold rawActivation
    rw [if_pos ⟨d1.trans hxn.symm, d2.trans d3.symm⟩]
    exact ⟨_, rfl, d2⟩
  have hmax : rawMaxIndexRowCol act =
      some ((rawMaxLoop act act.n_elem).2 % act.n_elem,
        (rawMaxLoop act act.n_elem).2 / act.n_elem) := by
    unfold rawMaxIndexRowCol
    rw [if_neg (by omega)]
  have hp : (rawMaxLoop act act.n_elem).2 % act.n_elem < s.weights.n_cols := by
    rw [d2, han]
    exact Nat.mod_lt _ hk
  have hlabj : labels[j]? = some (labels[j]) := List.getElem?_eq_getElem hlj
  have hlk : labels[j] < s.weights.n_cols := by
    rw [d2]
    exact hlab _ (List.getElem_mem hlj)
  unfold rawSampleStep
  rw [hcol]
  simp only
  rw [hact]
  simp only
  rw [hmax]
  simp only
  rw [hlabj]
  simp only
  split_ifs with hne hDl
  · have hjD : j < D.length := by
      rcases hD with e | e
      · rw [e] at hDl
        simp at hDl
      · exact e
    rw [List.getElem?_eq_getElem hjD]
    simp only
    obtain ⟨r, hr⟩ := Option.isSome_iff_exists.mp
      (c4 x s.weights s.biases ((rawMaxLoop act act.n_elem).2 % act.n_elem) (labels[j])
        (D[j]) (hxn.trans d1.symm) (d3.trans d2.symm) hp hlk)
    rw [hr]
    rfl
  · obtain ⟨r, hr⟩ := Option.isSome_iff_exists.mp
      (c3 x s.weights s.biases ((rawMaxLoop act act.n_elem).2 % act.n_elem) (labels[j])
        (hxn.trans d1.symm) (d3.trans d2.symm) hp hlk)
    rw [hr]
    rfl
  · rfl

lemma rawSamples_dims (LP : RawLearnPolicy) (hLP : UpdateContract LP) (data : RawMat)
    (labels : List ℕ) (D : List F64) (d k : ℕ) (js : List ℕ) (s s2 : RawState)
    (hs : HasDims d k s.weights s.biases)
    (h : rawSamples LP data labels D js s = some s2) :
    HasDims d k s2.weights s2.biases := by
  induction js generalizing s with
  | nil =>
    simp only [rawSamples, Option.some.injEq] at h
    rw [← h]
    exact hs
  | cons j js ih =>
    unfold rawSamples at h
    split at h
    · rename_i s1 h1
      exact ih s1 (rawSampleStep_dims LP hLP data labels D s s1 j d k hs h1) h
    · exact absurd h (by simp)

lemma rawSamples_isSome (LP : RawLearnPolicy) (hLP : UpdateContract LP) (data : RawMat)
    (labels : List ℕ) (D : List F64) (k : ℕ) (hk : 0 < k) (hlab : ∀ l ∈ labels, l < k)
    (js : List ℕ) (s : RawState) (hs : HasDims data.n_rows k s.weights s.biases)
    (hjs : ∀ j ∈ js, j < data.n_cols ∧ j < labels.length ∧ (D = [] ∨ j < D.length)) :
    (rawSamples LP data labels D js s).isSome = true := by
  induction js generalizing s with
  | nil => rfl
  | cons j js ih =>
    obtain ⟨a1, a2, a3⟩ := hjs j (List.mem_cons_self j js)
    obtain ⟨s1, h1⟩ := Option.isSome_iff_exists.mp
      (rawSampleStep_isSome LP hLP data labels D s j k hs hk a1 a2 hlab a3)
    unfold rawSamples
    rw [h1]
    exact ih s1 (rawSampleStep_dims LP hLP data labels D s s1 j _ k hs h1)
      (fun j2 hj2 => hjs j2 (List.mem_cons_of_mem j hj2))

lemma rawTrainLoop_dims (LP : RawLearnPolicy) (hLP : UpdateContract LP) (iter : ℕ)
    (data : RawMat) (labels : List ℕ) (D : List F64) (d k fuel : ℕ) (s s2 : RawState)
    (hs : HasDims d k s.weights s.biases)
    (h : rawTrainLoop LP iter data labels D fuel s = some s2) :
    HasDims d k s2.weights s2.biases := by
  induction fuel generalizing s with
  | zero =>
    simp only [rawTrainLoop, Option.some.injEq] at h
    rw [← h]
    exact hs
  | succ fuel ih =>
    unfold rawTrainLoop at h
    split_ifs at h
    · split at h
      · rename_i s1 h1
        exact ih s1 (rawSamples_dims LP hLP data labels D d k (List.range data.n_cols)
          { weights := s.weights, biases := s.biases, i := s.i + 1, converged := true } s1
          hs h1) h
      · exact absurd h (by simp)
    · simp only [Option.some.injEq] at h
      rw [← h]
      exact hs

lemma rawTrainLoop_isSome (LP : RawLearnPolicy) (hLP : UpdateContract LP) (iter : ℕ)
    (data : RawMat) (labels : List ℕ) (D : List F64) (k : ℕ) (hk : 0 < k)
    (hlab : ∀ l ∈ labels, l < k) (hlen : data.n_cols ≤ labels.length)
    (hD : D = [] ∨ data.n_cols ≤ D.length) (fuel : ℕ) (s : RawState)
    (hs : HasDims data.n_rows k s.weights s.biases) :
    (rawTrainLoop LP iter data labels D fuel s).isSome = true := by
  induction fuel generalizing s with
  | zero => rfl
  | succ fuel ih =>
    unfold rawTrainLoop
    split_ifs
    · have hjs : ∀ j ∈ List.range data.n_cols,
          j < data.n_cols ∧ j < labels.length ∧ (D = [] ∨ j < D.length) := by
        intro j hj
        have hj2 := List.mem_range.mp hj
        refine ⟨hj2, by omega, ?_⟩
        rcases hD with e | e
        · exact Or.inl e
        · exact Or.inr (by omega)
      obtain ⟨s1, h1⟩ := Option.isSome_iff_exists.mp
        (rawSamples_isSome LP hLP data labels D k hk hlab (List.range data.n_cols)
          { weights := s.weights, biases := s.biases, i := s.i + 1, converged := true } hs hjs)
      have h1b : rawPass LP data labels D s = some s1 := h1
      rw [h1b]
      exact ih s1 (rawSamples_dims LP hLP data labels D _ k (List.range data.n_cols)
        { weights := s.weights, biases := s.biases, i := s.i + 1, converged := true } s1
        hs h1)
    · rfl

/-- C15 (counterexample): the class count wraps.  With the largest label
2^64 - 1 both constructors ask `Initialize` for `(2^64 - 1 + 1) mod 2^64 = 0`
classes: on a data matrix with two rows and no column they return an instance
whose weights have 2 rows and 0 columns and whose biases have 0 entries, not
`max(label) + 1 = 2^64`; on the example scenario with the last label replaced
by 2^64 - 1 the first sample finds no activation to take the maximum of and
the constructor does not return. -/
theorem max_label_wrap_breaks_dimensions :
    maxChecked [2 ^ 64 - 1] = some (2 ^ 64 - 1) ∧
      (rawFresh rawSimpleUpdate rawZeroInit rawNoColumns [2 ^ 64 - 1] 10).map
        (fun p => (p.weights.n_rows, p.weights.n_cols, p.biases.n_elem)) = some (2, 0, 0) ∧
      (rawBoost rawSimpleUpdate rawZeroInit
        { weights := RawMat.empty, biases := RawVec.empty, iter := 10 } rawNoColumns []
        [2 ^ 64 - 1]).map
        (fun p => (p.weights.n_rows, p.weights.n_cols, p.biases.n_elem)) = some (2, 0, 0) ∧
      (0 : ℕ) ≠ (2 ^ 64 - 1) + 1 ∧
      (rawFresh rawSimpleUpdate rawZeroInit rawExampleData [0, 0, 1, 2 ^ 64 - 1]
        10).isSome = false := by
  decide!

/-- C15 (amended): let the labels be non-empty with largest label `mx` below
2^64 - 1, and let the policies keep their contracts (`Initialize` leaves the
requested dimensions, an update that returns leaves the dimensions as they
were and returns on arguments in range).  Then `Initialize` leaves weights
with `data.n_rows` rows and `mx + 1` columns and biases with `mx + 1` entries;
every sample step of training that returns preserves these dimensions; after
either constructor returns, the weights and biases of the instance have these
dimensions; and both constructors do return when there is a label for every
data column (and the cost vector is empty or has a cost for every data
column). -/
theorem dimension_invariant_below_wrap (LP : RawLearnPolicy) (WIP : RawInitPolicy)
    (hLP : UpdateContract LP) (hWIP : InitContract WIP) (other : RawPerceptron)
    (data : RawMat) (labels : List ℕ) (D : List F64) (iterations mx : ℕ)
    (hmx : maxChecked labels = some mx) (hsmall : mx < 2 ^ 64 - 1) :
    HasDims data.n_rows (mx + 1)
        (WIP.Initialize RawMat.empty RawVec.empty data.n_rows ((mx + 1) % 2 ^ 64)).1
        (WIP.Initialize RawMat.empty RawVec.empty data.n_rows ((mx + 1) % 2 ^ 64)).2 ∧
      (∀ (s s2 : RawState) (j : ℕ), HasDims data.n_rows (mx + 1) s.weights s.biases →
        rawSampleStep LP data labels D s j = some s2 →
        HasDims data.n_rows (mx + 1) s2.weights s2.biases) ∧
      (∀ p, rawFresh LP WIP data labels iterations = some p →
        HasDims data.n_rows (mx + 1) p.weights p.biases) ∧
      (∀ p, rawBoost LP WIP other data D labels = some p →
        HasDims data.n_rows (mx + 1) p.weights p.biases) ∧
      (data.n_cols ≤ labels.length →
        (rawFresh LP WIP data labels iterations).isSome = true) ∧
      (data.n_cols ≤ labels.length → (D = [] ∨ data.n_cols ≤ D.length) →
        (rawBoost LP WIP other data D labels).isSome = true) := by
  have hmod : (mx + 1) % 2 ^ 64 = mx + 1 := Nat.mod_eq_of_lt (by omega)
  have hinit : HasDims data.n_rows (mx + 1)
      (WIP.Initialize RawMat.empty RawVec.empty data.n_rows ((mx + 1) % 2 ^ 64)).1
      (WIP.Initialize RawMat.empty RawVec.empty data.n_rows ((mx + 1) % 2 ^ 64)).2 := by
    have h := hWIP RawMat.empty RawVec.empty data.n_rows ((mx + 1) % 2 ^ 64)
    rw [hmod] at h ⊢
    exact h
  have hlab : ∀ l ∈ labels, l < mx + 1 := fun l hl =>
    Nat.lt_succ_of_le (maxChecked_ge labels mx hmx l hl)
  refine ⟨hinit, ?_, ?_, ?_, ?_, ?_⟩
  · intro s s2 j hs h
    exact rawSampleStep_dims LP hLP data labels D s s2 j _ _ hs h
  · intro p hp
    unfold rawFresh at hp
    rw [hmx] at hp
    simp only at hp
    split at hp
    · exact absurd hp (by simp)
    · rename_i s hs
      simp only [Option.some.injEq] at hp
      rw [← hp]
      exact rawTrainLoop_dims LP hLP iterations data labels [] _ _ iterations _ s hinit hs
  · intro p hp
    unfold rawBoost at hp
    rw [hmx] at hp
    simp only at hp
    split at hp
    · exact absurd hp (by simp)
    · rename_i s hs
      simp only [Option.some.injEq] at hp
      rw [← hp]
      exact rawTrainLoop_dims LP hLP other.iter data labels D _ _ other.iter _ s hinit hs
  · intro hlen
    obtain ⟨s, hs⟩ := Option.isSome_iff_exists.mp
      (rawTrainLoop_isSome LP hLP iterations data labels [] (mx + 1) (Nat.succ_pos mx) hlab
        hlen (Or.inl rfl) iterations
        { weights := (WIP.Initialize RawMat.empty RawVec.empty data.n_rows
            ((mx + 1) % 2 ^ 64)).1
          biases := (WIP.Initialize RawMat.empty RawVec.empty data.n_rows
            ((mx + 1) % 2 ^ 64)).2
          i := 0, converged := false } hinit)
    have hs2 : rawTrain LP iterations
        (WIP.Initialize RawMat.empty RawVec.empty data.n_rows ((mx + 1) % 2 ^ 64)).1
        (WIP.Initialize RawMat.empty RawVec.empty data.n_rows ((mx + 1) % 2 ^ 64)).2
        data labels [] = some s := hs
    unfold rawFresh
    rw [hmx]
    simp only
    rw [hs2]
    rfl
  · intro hlen hD
    obtain ⟨s, hs⟩ := Option.isSome_iff_exists.mp
      (rawTrainLoop_isSome LP hLP other.iter data labels D (mx + 1) (Nat.succ_pos mx) hlab
        hlen hD other.iter
        { weights := (WIP.Initialize RawMat.empty RawVec.empty data.n_rows
            ((mx + 1) % 2 ^ 64)).1
          biases := (WIP.Initialize RawMat.empty RawVec.empty data.n_rows
            ((mx + 1) % 2 ^ 64)).2
          i := 0, converged := false } hinit)
    have hs2 : rawTrain LP other.iter
        (WIP.Initialize RawMat.empty RawVec.empty data.n_rows ((mx + 1) % 2 ^ 64)).1
        (WIP.Initialize RawMat.empty RawVec.empty data.n_rows ((mx + 1) % 2 ^ 64)).2
        data labels D = some s := hs
    unfold rawBoost
    rw [hmx]
    simp only
    rw [hs2]
    rfl

/-- Witness for amended C15: the canonical policies on the example scenario
with labels 0, 0, 1, 1 and costs 1, 2, 3, 4: both constructors return an
instance with 2-by-2 weights and 2 biases. -/
theorem dimension_invariant_below_wrap_witness :
    (∃ p, rawFresh rawSimpleUpdate rawZeroInit rawExampleData [0, 0, 1, 1] 10 = some p ∧
        HasDims 2 2 p.weights p.biases) ∧
      (∃ p, rawBoost rawSimpleUpdate rawZeroInit
          { weights := RawMat.empty, biases := RawVec.empty, iter := 10 } rawExampleData
          [F64.fin 1, F64.fin 2, F64.fin 3, F64.fin 4] [0, 0, 1, 1] = some p ∧
        HasDims 2 2 p.weights p.biases) :=
  ⟨(Option.isSome_iff_exists.mp
      ((dimension_invariant_below_wrap rawSimpleUpdate rawZeroInit rawSimpleUpdate_contract
        rawZeroInit_contract { weights := RawMat.empty, biases := RawVec.empty, iter := 10 }
        rawExampleData [0, 0, 1, 1] [F64.fin 1, F64.fin 2, F64.fin 3, F64.fin 4] 10 1 rfl
        (by decide)).2.2.2.2.1 (by decide))).imp
      (fun p hp => ⟨hp,
        (dimension_invariant_below_wrap rawSimpleUpdate rawZeroInit rawSimpleUpdate_contract
          rawZeroInit_contract { weights := RawMat.empty, biases := RawVec.empty, iter := 10 }
          rawExampleData [0, 0, 1, 1] [F64.fin 1, F64.fin 2, F64.fin 3, F64.fin 4] 10 1 rfl
          (by decide)).2.2.1 p hp⟩),
    (Option.isSome_iff_exists.mp
      ((dimension_invariant_below_wrap rawSimpleUpdate rawZeroInit rawSimpleUpdate_contract
        rawZeroInit_contract { weights := RawMat.empty, biases := RawVec.empty, iter := 10 }
        rawExampleData [0, 0, 1, 1] [F64.fin 1, F64.fin 2, F64.fin 3, F64.fin 4] 10 1 rfl
        (by decide)).2.2.2.2.2 (by decide) (Or.inr (by decide)))).imp
      (fun p hp => ⟨hp,
        (dimension_invariant_below_wrap rawSimpleUpdate rawZeroInit rawSimpleUpdate_contract
          rawZeroInit_contract { weights := RawMat.empty, biases := RawVec.empty, iter := 10 }
          rawExampleData [0, 0, 1, 1] [F64.fin 1, F64.fin 2, F64.fin 3, F64.fin 4] 10 1 rfl
          (by decide)).2.2.2.1 p hp⟩)⟩

/-! ## The loops use no more fuel than they are given -/

lemma sampleStepF_i (LP : LearnPolicyF) {d n k : ℕ} (data : MatF d n) (labels : Fin n → ℕ)
    (D : List F64) (s : TrainStateF d k) (j : Fin n) :
    (sampleStepF LP data labels D s j).i = s.i := by
  unfold sampleStepF
  simp only
  split_ifs <;> rfl

lemma foldl_sampleStepF_i (LP : LearnPolicyF) {d n k : ℕ} (data : MatF d n)
    (labels : Fin n → ℕ) (D : List F64) (js : List (Fin n)) (s : TrainStateF d k) :
    (js.foldl (sampleStepF LP data labels D) s).i = s.i := by
  induction js generalizing s with
  | nil => rfl
  | cons j js ih =>
    rw [List.foldl_cons, ih, sampleStepF_i]

lemma passF_i (LP : LearnPolicyF) {d n k : ℕ} (data : MatF d n) (labels : Fin n → ℕ)
    (D : List F64) (s : TrainStateF d k) : (passF LP data labels D s).i = s.i + 1 := by
  unfold passF
  rw [foldl_sampleStepF_i]

/-- With fuel for the remaining budget the loop in doubles leaves through its
own guard. -/
lemma trainLoopF_exit (LP : LearnPolicyF) {d n k : ℕ} (iter : ℕ) (data : MatF d n)
    (labels : Fin n → ℕ) (D : List F64) (fuel : ℕ) (s : TrainStateF d k)
    (h : iter - s.i ≤ fuel) :
    ¬ ((trainLoopF LP iter data labels D fuel s).i < iter ∧
      (trainLoopF LP iter data labels D fuel s).converged = false) := by
  induction fuel generalizing s with
  | zero =>
    unfold trainLoopF
    intro hc
    omega
  | succ fuel ih =>
    by_cases hc : s.i < iter ∧ s.converged = false
    · rw [trainLoopF_succ_run _ _ _ _ _ _ _ hc]
      apply ih
      rw [passF_i]
      omega
    · rw [trainLoopF_succ_stop _ _ _ _ _ _ _ hc]
      exact hc

/-- The run of `Train` in doubles ends because the budget is used up or the
last pass found no mistake, not for lack of fuel. -/
lemma TrainF_exit (LP : LearnPolicyF) {d n k : ℕ} (iter : ℕ) (weights : MatF d k)
    (biases : VecF k) (data : MatF d n) (labels : Fin n → ℕ) (D : List F64) :
    ¬ ((TrainF LP iter weights biases data labels D).i < iter ∧
      (TrainF LP iter weights biases data labels D).converged = false) :=
  trainLoopF_exit LP iter data labels D iter _ (by simp)

lemma rawSampleStep_i (LP : RawLearnPolicy) (data : RawMat) (labels : List ℕ) (D : List F64)
    (s s2 : RawState) (j : ℕ) (h : rawSampleStep LP data labels D s j = some s2) :
    s2.i = s.i := by
  unfold rawSampleStep at h
  split at h
  · exact absurd h (by simp)
  · split at h
    · exact absurd h (by simp)
    · split at h
      · exact absurd h (by simp)
      · split at h
        · exact absurd h (by simp)
        · split_ifs at h
          · split at h
            · exact absurd h (by simp)
            · split at h
              · exact absurd h (by simp)
              · simp only [Option.some.injEq] at h
                rw [← h]
          · split at h
            · exact absurd h (by simp)
            · simp only [Option.some.injEq] at h
              rw [← h]
          · simp only [Option.some.injEq] at h
            rw [← h]

lemma rawSamples_i (LP : RawLearnPolicy) (data : RawMat) (labels : List ℕ) (D : List F64)
    (js : List ℕ) (s s2 : RawState) (h : rawSamples LP data labels D js s = some s2) :
    s2.i = s.i := by
  induction js generalizing s with
  | nil =>
    simp only [rawSamples, Option.some.injEq] at h
    rw [← h]
  | cons j js ih =>
    unfold rawSamples at h
    split at h
    · rename_i s1 h1
      rw [ih s1 h, rawSampleStep_i LP data labels D s s1 j h1]
    · exact absurd h (by simp)

/-- With fuel for the remaining budget the loop on run-time dimensions, when it
returns, has left through its own guard. -/
lemma rawTrainLoop_exit (LP : RawLearnPolicy) (iter : ℕ) (data : RawMat) (labels : List ℕ)
    (D : List F64) (fuel : ℕ) (s s2 : RawState) (hf : iter - s.i ≤ fuel)
    (h : rawTrainLoop LP iter data labels D fuel s = some s2) :
    ¬ (s2.i < iter ∧ s2.converged = false) := by
  induction fuel generalizing s with
  | zero =>
    simp only [rawTrainLoop, Option.some.injEq] at h
    rw [← h]
    intro hc
    omega
  | succ fuel ih =>
    unfold rawTrainLoop at h
    split_ifs at h with hc
    · split at h
      · rename_i s1 h1
        have hi : s1.i = s.i + 1 :=
          rawSamples_i LP data labels D (List.range data.n_cols)
            { weights := s.weights, biases := s.biases, i := s.i + 1, converged := true } s1 h1
        exact ih s1 (by omega) h
      · exact absurd h (by simp)
    · simp only [Option.some.injEq] at h
      rw [← h]
      exact hc

end perceptron
end mlpack
